import Mathlib

/-!
Verification development for the Ganesha export-configuration engine
(`manila/share/drivers/ganesha/ganesharness.py` and
`manila/share/drivers/ganesha/utils.py`).

The Python code is shallowly embedded: Python values handled by the
codec become the mutual inductive type `JVal` (dicts are `JObj`
association lists with unique keys, in iteration order), stateful
file-system/dbus/sqlite interaction becomes explicit state passing over
`GState`, and raised exceptions become explicit error values (`GErr`,
`ConfErr`).  Numbers are modelled as integers; decimal (float) literals
are outside the model (no claim exercises them).  Left-to-right string
scans (`re.sub`) are written with an explicit fuel argument, seeded
with the input length, so that all definitions compute by kernel
reduction.
-/

namespace Ganesha

mutual
/-- Model of a Python value as handled by the config codec: JSON-style
strings, integers, booleans, `None`, lists and dicts. -/
inductive JVal where
  | str (s : String)
  | num (n : Int)
  | bool (b : Bool)
  | null
  | arr (elems : JArr)
  | obj (entries : JObj)
deriving Repr, DecidableEq

/-- A Python list of values. -/
inductive JArr where
  | nil
  | cons (v : JVal) (rest : JArr)
deriving Repr, DecidableEq

/-- A Python dict: key/value bindings in iteration order, keys unique. -/
inductive JObj where
  | nil
  | cons (k : String) (v : JVal) (rest : JObj)
deriving Repr, DecidableEq
end

/-- `d.get(k)`: the binding of key `k` in a dict. -/
def oget : JObj → String → Option JVal
  | .nil, _ => none
  | .cons k' v rest, k => if k' = k then some v else oget rest k

/-- `d[k] = v`: replace the binding of `k` in place, or append a new
binding. -/
def oset : JObj → String → JVal → JObj
  | .nil, k, v => .cons k v .nil
  | .cons k' v' rest, k, v =>
    if k' = k then .cons k v rest else .cons k' v' (oset rest k v)

/-- The key list of a dict. -/
def okeys : JObj → List String
  | .nil => []
  | .cons k _ rest => k :: okeys rest

mutual
/-- `ganeshautils.patch` restricted to one overlay: iterate over the
overlay's entries in order; `patchKey` handles one of them. -/
def patch1 : JObj → JObj → JObj
  | base, .nil => base
  | base, .cons k v rest => patch1 (patchKey base k v) rest

/-- One step of `patch`: when both the overlay value and the base value
under `k` are dicts, merge them recursively; otherwise the overlay
value replaces the base value. -/
def patchKey (base : JObj) (k : String) (v : JVal) : JObj :=
  match v, oget base k with
  | .obj vo, some (.obj bo) => oset base k (.obj (patch1 bo vo))
  | _, _ => oset base k v
end

/-- `ganeshautils.patch(base, *ovls)`: fold `patch1` over the overlays
in order. -/
def patch (base : JObj) (ovls : List JObj) : JObj :=
  ovls.foldl patch1 base

/-- `ganeshautils.walk`: depth-first iteration over a dict, yielding the
non-dict leaves as `(key, value)` pairs in iteration order. -/
def walk : JObj → List (String × JVal)
  | .nil => []
  | .cons k v rest =>
    (match v with
     | .obj o => walk o
     | v => [(k, v)])
    ++ walk rest

/-! ### The serializer: `json.dumps`, `_dump_to_conf`, `mkconf` -/

/-- Decimal digits of a natural number, most significant first (the
digits of Python's `str` of a non-negative int), with fuel. -/
def natCharsF : Nat → Nat → List Char
  | 0, _ => []
  | f + 1, n =>
    if n < 10 then [Nat.digitChar n]
    else natCharsF f (n / 10) ++ [Nat.digitChar (n % 10)]

/-- Decimal digits of a natural number, most significant first. -/
def natChars (n : Nat) : List Char :=
  natCharsF (n + 1) n

/-- Python `str` of an int (also its `json.dumps` form). -/
def intChars (i : Int) : List Char :=
  if i < 0 then '-' :: natChars i.natAbs else natChars i.toNat

/-- A character that `json.dumps` (Python 2, `ensure_ascii=True`) emits
verbatim inside a string literal: printable ASCII other than the quote
and the backslash. -/
def plainChar (c : Char) : Bool :=
  0x20 ≤ c.toNat ∧ c.toNat ≤ 0x7e ∧ c ≠ '"' ∧ c ≠ '\\'

/-- Four lowercase hex digits (`%04x`). -/
def hex4 (n : Nat) : List Char :=
  [Nat.digitChar (n / 4096 % 16), Nat.digitChar (n / 256 % 16),
   Nat.digitChar (n / 16 % 16), Nat.digitChar (n % 16)]

/-- The escape sequence `json.dumps` uses for one string character. -/
def escChar (c : Char) : List Char :=
  if c = '"' then ['\\', '"']
  else if c = '\\' then ['\\', '\\']
  else if c = '\n' then ['\\', 'n']
  else if c = '\t' then ['\\', 't']
  else if c = '\x0d' then ['\\', 'r']
  else if c = '\x08' then ['\\', 'b']
  else if c = '\x0c' then ['\\', 'f']
  else if plainChar c then [c]
  else if c.val < 0x10000 then '\\' :: 'u' :: hex4 c.val.toNat
  else
    let v := c.val.toNat - 0x10000
    ('\\' :: 'u' :: hex4 (0xd800 + v / 1024)) ++ ('\\' :: 'u' :: hex4 (0xdc00 + v % 1024))

/-- `json.dumps` of a Python string (Python 2, `ensure_ascii=True`),
as characters. -/
def dumpsStrChars (s : String) : List Char :=
  '"' :: (s.data.map escChar).flatten ++ ['"']

mutual
/-- `json.dumps` of a whole value, with the Python 2 default separators
`", "` and `": "`. -/
def dumps : JVal → List Char
  | .str s => dumpsStrChars s
  | .num i => intChars i
  | .bool b => if b then ['t', 'r', 'u', 'e'] else ['f', 'a', 'l', 's', 'e']
  | .null => ['n', 'u', 'l', 'l']
  | .arr l => '[' :: dumpsArr l ++ [']']
  | .obj l => '\x7b' :: dumpsObj l ++ ['\x7d']

/-- `json.dumps` of the elements of a list. -/
def dumpsArr : JArr → List Char
  | .nil => []
  | .cons v .nil => dumps v
  | .cons v rest => dumps v ++ [',', ' '] ++ dumpsArr rest

/-- `json.dumps` of the members of a dict. -/
def dumpsObj : JObj → List Char
  | .nil => []
  | .cons k v .nil => dumpsStrChars k ++ [':', ' '] ++ dumps v
  | .cons k v rest => dumpsStrChars k ++ [':', ' '] ++ dumps v ++ [',', ' '] ++ dumpsObj rest
end

/-- The scalar branch of `_dump_to_conf`: `dj = json.dumps(cfdict)`;
emit the string itself when it equals `dj[1:-1]` (i.e. quoting added
no escapes), else emit `dj`.  A non-string value never equals the
string `dj[1:-1]` in Python, so it is emitted as `dj`. -/
def dumpScalar (v : JVal) : List Char :=
  let dj := dumps v
  match v with
  | .str s => if s.data = (dj.drop 1).dropLast then s.data else dj
  | _ => dj

/-- Indentation: `' ' * (indent * IWIDTH)` with `IWIDTH = 2`. -/
def pad (ind : Nat) : List Char :=
  List.replicate (ind * 2) ' '

/-- `_dump_to_conf` on a dict: one entry per key, `None` values skipped,
nested dicts rendered as `KEY {` blocks, scalars as `KEY = VALUE ;`. -/
def dumpEntries : JObj → Nat → List Char
  | .nil, _ => []
  | .cons k v rest, ind =>
    (match v with
     | .null => []
     | .obj o =>
       pad ind ++ k.data ++ [' '] ++ ['\x7b', '\n'] ++ dumpEntries o (ind + 1) ++
         pad ind ++ ['\x7d'] ++ ['\n']
     | sc => pad ind ++ k.data ++ [' '] ++ ['=', ' '] ++ dumpScalar sc ++ [';'] ++ ['\n'])
    ++ dumpEntries rest ind

/-- `_dump_to_conf` on an arbitrary value. -/
def _dump_to_conf (v : JVal) (ind : Nat) : List Char :=
  match v with
  | .obj l => dumpEntries l ind
  | v => dumpScalar v

/-- `mkconf`: the Ganesha config text of a document. -/
def mkconf (v : JVal) : List Char :=
  _dump_to_conf v 0

/-! ### The parser, part 1: the `_conf2json` scanner and token pipeline -/

/-- The error classes `parseconf` can raise: `RuntimeError` for an
unterminated quoted string, `IndexError` for `w[0]` on an empty token
buffer, `ValueError` from `json.loads` on malformed input.  The spec's
abstract `SyntaxError` taxonomy entry covers all three. -/
inductive ConfErr where
  | unterminated
  | indexErr
  | jsonValue
deriving Repr, DecidableEq

/-- Python 2 `\s` on byte strings: `[ \t\n\r\f\v]`.  This is also what
`str.split()` splits on. -/
def isPyWs (c : Char) : Bool :=
  c = ' ' ∨ c = '\t' ∨ c = '\n' ∨ c = '\x0d' ∨ c = '\x0c' ∨ c = '\x0b'

/-- State of the character scan in `_conf2json`: the completed token
buffers, the buffer under construction (`a[-1]`), and the
quote/comment/escape flags. -/
structure ScanState where
  done : List (List Char)
  cur : List Char
  inQuote : Bool
  inComment : Bool
  esc : Bool
deriving Repr

/-- One step of the `_conf2json` character scan.  A closing quote is
written to the current buffer and then a fresh buffer is started (the
`start_new` callback); an opening quote starts the fresh buffer first
and is written into it; characters inside a comment are dropped, and
the newline ending a comment is written. -/
def scanStep (st : ScanState) (c : Char) : ScanState :=
  if st.inQuote then
    if st.esc then
      { st with esc := false, cur := st.cur ++ [c] }
    else if c = '"' then
      { st with inQuote := false, esc := false,
                done := st.done ++ [st.cur ++ [c]], cur := [] }
    else if c = '\\' then
      { st with esc := true, cur := st.cur ++ [c] }
    else
      { st with esc := false, cur := st.cur ++ [c] }
  else if st.inComment ∨ c = '#' then
    if c = '\n' then
      { st with inComment := false, esc := false, cur := st.cur ++ [c] }
    else
      { st with inComment := true, esc := false }
  else if c = '"' then
    { st with inQuote := true, esc := false, done := st.done ++ [st.cur], cur := [c] }
  else
    { st with esc := false, cur := st.cur ++ [c] }

/-- The full character scan of `_conf2json`. -/
def scanConf (cf : List Char) : ScanState :=
  cf.foldl scanStep ⟨[], [], false, false, false⟩

/-- The buffer list `a` after the scan. -/
def scanBufs (st : ScanState) : List (List Char) :=
  st.done ++ [st.cur]

theorem length_dropWhile_le {α : Type} (p : α → Bool) (l : List α) :
    (l.dropWhile p).length ≤ l.length := by
  induction l with
  | nil => simp [List.dropWhile]
  | cons c rest ih =>
    simp only [List.dropWhile]
    by_cases h : p c <;> simp [h] <;> omega

/-- `re.sub('([^=\s])\s*{', '\\1={', w)` with fuel (one unit per
position the scan advances past): insert the omitted `=` before each
block-opening brace. -/
def sub1F : Nat → List Char → List Char
  | 0, _ => []
  | _ + 1, [] => []
  | f + 1, c :: rest =>
    if c ≠ '=' ∧ ¬ isPyWs c ∧ (rest.dropWhile isPyWs).head? = some '\x7b' then
      c :: '=' :: '\x7b' :: sub1F f (rest.dropWhile isPyWs).tail
    else c :: sub1F f rest

/-- `re.sub('([^=\s])\s*{', '\\1={', w)`. -/
def sub1 (l : List Char) : List Char :=
  sub1F l.length l

/-- `re.sub(';\s*}', '}', w)` with fuel: delete the trailing semicolon
of a block. -/
def sub2F : Nat → List Char → List Char
  | 0, _ => []
  | _ + 1, [] => []
  | f + 1, c :: rest =>
    if c = ';' ∧ (rest.dropWhile isPyWs).head? = some '\x7d' then
      '\x7d' :: sub2F f (rest.dropWhile isPyWs).tail
    else c :: sub2F f rest

/-- `re.sub(';\s*}', '}', w)`. -/
def sub2 (l : List Char) : List Char :=
  sub2F l.length l

/-- `re.sub('}\s*([^}\s])', '};\\1', w)` with fuel: insert the omitted
semicolon after a block. -/
def sub3F : Nat → List Char → List Char
  | 0, _ => []
  | _ + 1, [] => []
  | f + 1, c :: rest =>
    if c = '\x7d' then
      match (rest.dropWhile isPyWs).head? with
      | some d =>
        if d ≠ '\x7d' then '\x7d' :: ';' :: d :: sub3F f (rest.dropWhile isPyWs).tail
        else '\x7d' :: sub3F f rest
      | none => '\x7d' :: sub3F f rest
    else c :: sub3F f rest

/-- `re.sub('}\s*([^}\s])', '};\\1', w)`. -/
def sub3 (l : List Char) : List Char :=
  sub3F l.length l

/-- `re.sub('([;{}=])', ' \\1 ', w)`: set the syntactically significant
characters apart with spaces. -/
def sub4 (l : List Char) : List Char :=
  (l.map fun c =>
    if c = ';' ∨ c = '\x7b' ∨ c = '\x7d' ∨ c = '=' then [' ', c, ' '] else [c]).flatten

/-- `w.split()`: split on runs of whitespace, no empty words. -/
def splitWs (l : List Char) (acc : List Char) : List (List Char) :=
  match l with
  | [] => if acc = [] then [] else [acc.reverse]
  | c :: rest =>
    if isPyWs c then
      if acc = [] then splitWs rest [] else acc.reverse :: splitWs rest []
    else splitWs rest (c :: acc)

/-- `re.search('\A-?[1-9]\d*(\.\d+)?\Z', w)` for the tail after the
leading `[1-9]`: digits, optionally followed by `.` and one or more
digits. -/
def numTail : List Char → Bool
  | [] => true
  | '.' :: rest => decide (rest ≠ []) && rest.all (·.isDigit)
  | c :: rest => c.isDigit && numTail rest

/-- `re.search('\A-?[1-9]\d*(\.\d+)?\Z', w)`: a bare token that is kept
as a (JSON) number. -/
def isBareNum (w : List Char) : Bool :=
  match w with
  | [] => false
  | c :: rest =>
    let w' := if c = '-' then rest else c :: rest
    match w' with
    | [] => false
    | d :: rest' => ('1' ≤ d ∧ d ≤ '9' : Bool) && numTail rest'

/-- Map one whitespace-split token to its JSON equivalent: `=` to `:`,
`;` to `,`, braces and bare numbers kept, everything else
`json.dumps`-quoted. -/
def mapTok (w : List Char) : List Char :=
  if w = ['='] then [':']
  else if w = [';'] then [',']
  else if w = ['\x7b'] ∨ w = ['\x7d'] ∨ isBareNum w then w
  else '"' :: (w.map escChar).flatten ++ ['"']

/-- Tokens contributed by one scan buffer: a quoted-string buffer is one
token as-is; any other buffer goes through the substitution pipeline,
is split on whitespace and mapped; an empty buffer raises `IndexError`
(`w[0]`). -/
def bufTokens (w : List Char) : Except ConfErr (List (List Char)) :=
  match w with
  | [] => .error .indexErr
  | c :: _ =>
    if c = '"' then .ok [w]
    else .ok ((splitWs (sub4 (sub3 (sub2 (sub1 w)))) []).map mapTok)

/-- Python's `aa` grouping with fuel: maximal runs of quote-initial
tokens are collected and joined into one quoted token, stripping the
inner quotes (`w[1:-1]`). -/
def groupQuotedF : Nat → List (List Char) → List (List Char)
  | 0, _ => []
  | _ + 1, [] => []
  | f + 1, w :: rest =>
    if w.head? = some '"' then
      ('"' :: ((w :: rest.takeWhile (fun u => u.head? = some '"')).map
          (fun u => (u.drop 1).dropLast)).flatten ++ ['"'])
        :: groupQuotedF f (rest.dropWhile (fun u => u.head? = some '"'))
    else w :: groupQuotedF f rest

/-- Python's `aa`/`aaa` grouping of quoted tokens. -/
def groupQuoted (l : List (List Char)) : List (List Char) :=
  groupQuotedF l.length l

/-- `_conf2json`: scan, tokenize each buffer, wrap in `{`...`}`, group
quoted strings, and concatenate into a JSON text. -/
def _conf2json (cf : List Char) : Except ConfErr (List Char) :=
  let st := scanConf cf
  if st.inQuote then .error .unterminated
  else
    match (scanBufs st).mapM bufTokens with
    | .error e => .error e
    | .ok tss => .ok (groupQuoted ([['\x7b']] ++ tss.flatten ++ [['\x7d']])).flatten

/-! ### The parser, part 2: `json.loads` (strict mode, integers only)
and `parseconf` -/

/-- JSON whitespace (`[ \t\n\r]*` in the decoder). -/
def skipWs (l : List Char) : List Char :=
  l.dropWhile (fun c => c = ' ' ∨ c = '\t' ∨ c = '\n' ∨ c = '\x0d')

/-- Value of one hex digit. -/
def hexDigitVal (c : Char) : Option Nat :=
  if '0' ≤ c ∧ c ≤ '9' then some (c.toNat - 48)
  else if 'a' ≤ c ∧ c ≤ 'f' then some (c.toNat - 87)
  else if 'A' ≤ c ∧ c ≤ 'F' then some (c.toNat - 55)
  else none

/-- JSON string body parser (after the opening quote): returns the
decoded characters and the input remaining after the closing quote.
Strict mode: raw control characters are rejected; `\uXXXX` escapes are
decoded, surrogate pairs combined (lone surrogates, which this model's
`Char` cannot hold, are rejected). -/
def pStr : List Char → Option (List Char × List Char)
  | [] => none
  | '"' :: rest => some ([], rest)
  | '\\' :: 'u' :: h1 :: h2 :: h3 :: h4 :: rest2 =>
    (match hexDigitVal h1, hexDigitVal h2, hexDigitVal h3, hexDigitVal h4 with
     | some a, some b, some c, some d =>
       let code := 4096 * a + 256 * b + 16 * c + d
       if 0xd800 ≤ code ∧ code ≤ 0xdbff then
         match rest2 with
         | '\\' :: 'u' :: g1 :: g2 :: g3 :: g4 :: rest3 =>
           (match hexDigitVal g1, hexDigitVal g2, hexDigitVal g3, hexDigitVal g4 with
            | some a2, some b2, some c2, some d2 =>
              let low := 4096 * a2 + 256 * b2 + 16 * c2 + d2
              if 0xdc00 ≤ low ∧ low ≤ 0xdfff then
                match pStr rest3 with
                | some (s, r) =>
                  some (Char.ofNat (0x10000 + (code - 0xd800) * 1024 + (low - 0xdc00)) :: s, r)
                | none => none
              else none
            | _, _, _, _ => none)
         | _ => none
       else if 0xdc00 ≤ code then none
       else
         match pStr rest2 with
         | some (s, r) => some (Char.ofNat code :: s, r)
         | none => none
     | _, _, _, _ => none)
  | '\\' :: e :: rest =>
    (match
       (if e = '"' then some '"' else if e = '\\' then some '\\'
        else if e = '/' then some '/' else if e = 'b' then some '\x08'
        else if e = 'f' then some '\x0c' else if e = 'n' then some '\n'
        else if e = 'r' then some '\x0d' else if e = 't' then some '\t' else none) with
     | some ch =>
       match pStr rest with
       | some (s, r) => some (ch :: s, r)
       | none => none
     | none => none)
  | c :: rest =>
    if c.val < 0x20 then none
    else
      match pStr rest with
      | some (s, r) => some (c :: s, r)
      | none => none

/-- Numeric value of a digit run. -/
def digitsVal (l : List Char) : Nat :=
  l.foldl (fun a c => 10 * a + (c.toNat - 48)) 0

/-- JSON number parser, restricted to integers: `-?(0|[1-9]\d*)`.
A following `.`, `e` or `E` (a float literal) is outside this model
and rejected. -/
def pNum (l : List Char) : Option (JVal × List Char) :=
  let p := match l with
    | '-' :: r => (true, r)
    | _ => (false, l)
  match p.2 with
  | [] => none
  | '0' :: rest =>
    if rest.head? = some '.' ∨ rest.head? = some 'e' ∨ rest.head? = some 'E' then none
    else some (.num 0, rest)
  | c :: rest =>
    if '1' ≤ c ∧ c ≤ '9' then
      let ds := c :: rest.takeWhile (·.isDigit)
      let rem := rest.dropWhile (·.isDigit)
      if rem.head? = some '.' ∨ rem.head? = some 'e' ∨ rem.head? = some 'E' then none
      else
        let v : Int := Int.ofNat (digitsVal ds)
        some (.num (if p.1 then -v else v), rem)
    else none

mutual
/-- JSON value parser (strict `json.loads` scanner), fuel-indexed. -/
def pVal : Nat → List Char → Option (JVal × List Char)
  | 0, _ => none
  | _ + 1, [] => none
  | fuel + 1, c :: rest =>
    if c = '\x7b' then
      match skipWs rest with
      | '\x7d' :: r => some (.obj .nil, r)
      | r => pMembers fuel r .nil
    else if c = '[' then
      match skipWs rest with
      | ']' :: r => some (.arr .nil, r)
      | r => pElems fuel r .nil
    else if c = '"' then
      match pStr rest with
      | some (s, r) => some (.str (String.mk s), r)
      | none => none
    else if c = 't' then
      match rest with
      | 'r' :: 'u' :: 'e' :: r => some (.bool true, r)
      | _ => none
    else if c = 'f' then
      match rest with
      | 'a' :: 'l' :: 's' :: 'e' :: r => some (.bool false, r)
      | _ => none
    else if c = 'n' then
      match rest with
      | 'u' :: 'l' :: 'l' :: r => some (.null, r)
      | _ => none
    else if c = '-' ∨ c.isDigit then pNum (c :: rest)
    else none

/-- Object members: `"key" : value` pairs separated by `,`, ending at
`}` (the input is positioned at a key).  A repeated key overwrites the
earlier value, as Python dict assignment does. -/
def pMembers : Nat → List Char → JObj → Option (JVal × List Char)
  | 0, _, _ => none
  | fuel + 1, l, acc =>
    match l with
    | '"' :: rest =>
      (match pStr rest with
       | some (k, r1) =>
         (match skipWs r1 with
          | ':' :: r2 =>
            (match pVal fuel (skipWs r2) with
             | some (v, r3) =>
               (match skipWs r3 with
                | ',' :: r4 => pMembers fuel (skipWs r4) (oset acc (String.mk k) v)
                | '\x7d' :: r4 => some (.obj (oset acc (String.mk k) v), r4)
                | _ => none)
             | none => none)
          | _ => none)
       | none => none)
    | _ => none

/-- Array elements separated by `,`, ending at `]` (the input is
positioned at a value). -/
def pElems : Nat → List Char → JArr → Option (JVal × List Char)
  | 0, _, _ => none
  | fuel + 1, l, acc =>
    match pVal fuel l with
    | some (v, r1) =>
      (match skipWs r1 with
       | ',' :: r2 => pElems fuel (skipWs r2) (arrSnoc acc v)
       | ']' :: r2 => some (.arr (arrSnoc acc v), r2)
       | _ => none)
    | none => none

/-- `list.append` at the end of a list. -/
def arrSnoc : JArr → JVal → JArr
  | .nil, v => .cons v .nil
  | .cons w rest, v => .cons w (arrSnoc rest v)
end

/-- `json.loads`: parse one value and require only whitespace after it
(`ValueError` otherwise, modelled as `none`). -/
def json_loads (cf : List Char) : Option JVal :=
  let l := skipWs cf
  match pVal (l.length + 1) l with
  | some (v, rest) => if skipWs rest = [] then some v else none
  | none => none

/-- `parseconf`: try the text as JSON first; on `ValueError` convert the
Ganesha config to JSON via `_conf2json` and parse that. -/
def parseconf (cf : List Char) : Except ConfErr JVal :=
  match json_loads cf with
  | some d => .ok d
  | none =>
    match _conf2json cf with
    | .error e => .error e
    | .ok j =>
      match json_loads j with
      | some d => .ok d
      | none => .error .jsonValue

/-! ### The harness: `GanesHarness` state model

The export directory `export.d` is modelled as a map from export name to
the contents of `<name>.conf`, together with the list of export names the
aggregate `INDEX.conf` references (one `%include` line per name).  The
`execute` collaborator's failures surface as error values; the dbus
control-channel calls touch only the live service, so they leave the
store state unchanged. -/

/-- `d.get(k)` over a plain association list (used for the file map). -/
def dget {α : Type} (l : List (String × α)) (k : String) : Option α :=
  match l with
  | [] => none
  | (k', v) :: rest => if k' = k then some v else dget rest k

/-- `d[k] = v` over a plain association list. -/
def dset {α : Type} (l : List (String × α)) (k : String) (v : α) :
    List (String × α) :=
  match l with
  | [] => [(k, v)]
  | (k', v') :: rest => if k' = k then (k, v) :: rest else (k', v') :: dset rest k v

/-- Removal of a file from the directory map. -/
def dremove {α : Type} (l : List (String × α)) (k : String) : List (String × α) :=
  l.filter (fun kv => kv.1 ≠ k)

/-- The exceptions harness operations can raise: `KeyError`/`TypeError`
from `cfdict["EXPORT"]["Export_Id"]`, `InvalidParameterValue` for an
`@`-stub value, `IndexError` from `v[0]` on an empty string value,
`ProcessExecutionError` from a failing `dbus-send` (the control
channel) and from any other failing command, and the `parseconf`
errors. -/
inductive GErr where
  | keyError
  | incompleteExport
  | indexError
  | channelError
  | processError
  | confError (e : ConfErr)
deriving Repr, DecidableEq

/-- State of the export store: the per-export files and the names
referenced by the index file. -/
structure GState where
  files : List (String × List Char)
  index : List String
deriving Repr, DecidableEq

/-- Insert into a sorted list (for the sorted `ls` listing). -/
def insertSorted (s : String) : List String → List String
  | [] => [s]
  | t :: rest => if s ≤ t then s :: t :: rest else t :: insertSorted s rest

/-- Lexicographically sorted file listing, as `ls` produces. -/
def sortNames : List String → List String
  | [] => []
  | s :: rest => insertSorted s (sortNames rest)

/-- `_mkindex`: list the export files (sorted, `INDEX.conf` excluded)
and rewrite the index to reference exactly those. -/
def _mkindex (s : GState) : GState :=
  { s with index := sortNames (s.files.map Prod.fst) }

/-- The placeholder scan of `_write_export_file` over the `walk` leaves:
for each string value `v`, `v[0]` raises `IndexError` when `v` is
empty, and `'@' == v[0]` raises `InvalidParameterValue`; the first
offending leaf wins. -/
def stubCheck : List (String × JVal) → Option GErr
  | [] => none
  | (_, .str v) :: rest =>
    if v.data = [] then some .indexError
    else if v.data.head? = some '@' then some .incompleteExport
    else stubCheck rest
  | _ :: rest => stubCheck rest

/-- `_write_export_file`: run the placeholder scan; on success write
`mkconf(cfdict)` to `<name>.conf` (atomically, so a failure writes
nothing). -/
def _write_export_file (s : GState) (name : String) (cfdict : JObj) :
    GState × Option GErr :=
  match stubCheck (walk cfdict) with
  | some e => (s, some e)
  | none => ({ s with files := dset s.files name (mkconf (.obj cfdict)) }, none)

/-- `cfdict["EXPORT"]["Export_Id"]` yielding an int: `none` models the
`KeyError` of a missing key (or the later `TypeError` of `"%d"` on a
non-numeric value). -/
def getXid (cfdict : JObj) : Option Int :=
  match oget cfdict "EXPORT" with
  | some (.obj e) =>
    match oget e "Export_Id" with
    | some (.num n) => some n
    | _ => none
  | _ => none

/-- As `getXid`, from a parsed `JVal` (a non-dict raises `TypeError`). -/
def getXidJ : JVal → Option Int
  | .obj entries => getXid entries
  | _ => none

/-- The undo actions `add_export` pushes onto its rollback list. -/
inductive Action where
  | rmFile (name : String)
  | removeExportDbus (xid : Int)
deriving Repr, DecidableEq

/-- Effect of one undo action on the store: `_rm_export_file` deletes
the file; `_remove_export_dbus` only talks to the live service. -/
def runUndo (s : GState) : Action → GState
  | .rmFile n => { s with files := dremove s.files n }
  | .removeExportDbus _ => s

/-- `for u in undos: u()`: execute the undo list front to back, and
report the actions in the order they were executed. -/
def runUndoStack (s : GState) (undos : List Action) : GState × List Action :=
  (undos.foldl runUndo s, undos)

/-- Result of `add_export`: the final store state, the undo actions in
registration order (the order of `undos.append`), the undo actions in
execution order (empty on the success path, where the stack is
discarded), and the re-raised error, if any. -/
structure AddResult where
  state : GState
  registered : List Action
  executed : List Action
  err : Option GErr
deriving Repr, DecidableEq

/-- `add_export`, with failure injection for the two `execute`-backed
steps inside the `try` that can fail after the file write: `failAdd`
makes the dbus `AddExport` call raise, `failIndex` makes `_mkindex`
raise (before its atomic index write commits).  On a failure the undo
list accumulated so far runs front to back and the original error is
re-raised. -/
def add_export (s : GState) (name : String) (cfdict : JObj)
    (failAdd failIndex : Bool) : AddResult :=
  match getXid cfdict with
  | none => ⟨s, [], [], some .keyError⟩
  | some xid =>
    match _write_export_file s name cfdict with
    | (_, some e) => ⟨s, [], [], some e⟩
    | (s1, none) =>
      let undos1 := [Action.rmFile name]
      if failAdd then
        let r := runUndoStack s1 undos1
        ⟨r.1, undos1, r.2, some .channelError⟩
      else
        let undos2 := undos1 ++ [Action.removeExportDbus xid]
        if failIndex then
          let r := runUndoStack s1 undos2
          ⟨r.1, undos2, r.2, some .processError⟩
        else
          ⟨_mkindex s1, undos2, [], none⟩

/-- `remove_export`, with failure injection for the dbus `RemoveExport`
call.  The `try` body reads and parses the export file and notifies the
live service; the `finally` clause always deletes the file and rebuilds
the index, after which a pending error is re-raised.  When the file
does not exist, `cat` raises, and then `rm` inside the `finally` clause
raises as well (superseding the first error), so `_mkindex` is never
reached and the state is unchanged. -/
def remove_export (s : GState) (name : String) (failRemove : Bool) :
    GState × Option GErr :=
  match dget s.files name with
  | none => (s, some .processError)
  | some content =>
    let cleaned := _mkindex { s with files := dremove s.files name }
    match parseconf content with
    | .error e => (cleaned, some (.confError e))
    | .ok d =>
      match getXidJ d with
      | none => (cleaned, some .keyError)
      | some _ => if failRemove then (cleaned, some .channelError) else (cleaned, none)

/-- Modelled from the spec: the CounterStore collaborator (§6).  The
sqlite database behind `ganesha_db_path` is a single optional counter
row; `create table ... ; insert ... values("exportid", 100)` creates it
seeded with 100 and fails with stderr
`Error: table ganesha already exists` when it is present, in which case
the insert does not run.  `__init__` swallows exactly that error, so a
repeated initialization neither raises nor resets the counter. -/
def ganesha_db_init (db : Option Nat) : Option Nat × Option GErr :=
  match db with
  | none => (some 100, none)
  | some v => (some v, none)

/-- `get_export_id`: `update ganesha set value = value + 1` followed by
a select of the new value, whose output `exportid|<n>` is parsed back;
a missing table makes `sqlite3` fail. -/
def get_export_id (db : Option Nat) : Option Nat × Except GErr Nat :=
  match db with
  | none => (none, .error .processError)
  | some v => (some (v + 1), .ok (v + 1))

/-! ### Lemmas about dict operations and `patch` -/

/-- Induction on the spine of a dict (the `rest` chain only). -/
theorem jobjInd {motive : JObj → Prop} (nil : motive .nil)
    (cons : ∀ k v rest, motive rest → motive (JObj.cons k v rest)) :
    ∀ o, motive o
  | .nil => nil
  | .cons k v rest => cons k v rest (jobjInd nil cons rest)

theorem oget_oset_self (l : JObj) (k : String) (v : JVal) :
    oget (oset l k v) k = some v := by
  induction l using jobjInd with
  | nil => simp [oset, oget]
  | cons k' v' rest ih =>
    by_cases h : k' = k <;> simp [oset, oget, h, ih]

theorem oget_oset_ne (l : JObj) (k k' : String) (v : JVal) (h : k' ≠ k) :
    oget (oset l k v) k' = oget l k' := by
  induction l using jobjInd with
  | nil =>
    simp only [oset, oget]
    rw [if_neg (fun hh => h hh.symm)]
  | cons k0 v0 rest ih =>
    simp only [oset]
    by_cases h0 : k0 = k
    · rw [if_pos h0]
      simp only [oget]
      rw [if_neg (fun hh => h hh.symm), if_neg (fun hh : k0 = k' => h (hh ▸ h0))]
    · rw [if_neg h0]
      simp only [oget]
      by_cases h1 : k0 = k'
      · rw [if_pos h1, if_pos h1]
      · rw [if_neg h1, if_neg h1, ih]

theorem patchKey_oget_ne (base : JObj) (k0 k : String) (v0 : JVal) (h : k ≠ k0) :
    oget (patchKey base k0 v0) k = oget base k := by
  unfold patchKey
  split <;> exact oget_oset_ne _ _ _ _ h

theorem oget_none_not_mem (l : JObj) (k : String) (h : oget l k = none) :
    k ∉ okeys l := by
  induction l using jobjInd with
  | nil => simp [okeys]
  | cons k' v rest ih =>
    simp only [oget] at h
    by_cases hk : k' = k
    · rw [if_pos hk] at h
      exact absurd h (by simp)
    · rw [if_neg hk] at h
      simp only [okeys, List.mem_cons]
      push_neg
      exact ⟨fun hh => hk hh.symm, ih h⟩

theorem patch1_oget_not_mem (ovl : JObj) (base : JObj) (k : String)
    (h : k ∉ okeys ovl) : oget (patch1 base ovl) k = oget base k := by
  induction ovl using jobjInd generalizing base with
  | nil => simp [patch1]
  | cons k0 v0 rest ih =>
    simp only [okeys, List.mem_cons] at h
    push_neg at h
    rw [patch1, ih _ h.2, patchKey_oget_ne _ _ _ _ h.1]

/-- The claim's per-key merge result: recursive merge when both sides
are dicts, overlay value otherwise. -/
def mergeVal (b? : Option JVal) (v : JVal) : JVal :=
  match v, b? with
  | .obj vo, some (.obj bo) => .obj (patch1 bo vo)
  | _, _ => v

theorem mergeVal_not_both (b? : Option JVal) (v : JVal)
    (h : ∀ vo bo, v = JVal.obj vo → b? = some (.obj bo) → False) :
    mergeVal b? v = v := by
  unfold mergeVal
  split
  · rename_i vo bo
    exact absurd rfl (fun _ => h vo bo rfl (by assumption))
  · rfl

theorem patchKey_oget_self (base : JObj) (k : String) (v : JVal) :
    oget (patchKey base k v) k = some (mergeVal (oget base k) v) := by
  unfold patchKey
  split
  · rename_i vo bo heq
    rw [oget_oset_self, heq]
    rfl
  · rename_i hno
    rw [oget_oset_self, mergeVal_not_both]
    intro vo bo hv hb
    exact hno vo bo hv hb

theorem patch1_oget (ovl : JObj) (base : JObj) (k : String) (v : JVal)
    (hnodup : (okeys ovl).Nodup) (hget : oget ovl k = some v) :
    oget (patch1 base ovl) k = some (mergeVal (oget base k) v) := by
  induction ovl using jobjInd generalizing base with
  | nil => simp [oget] at hget
  | cons k0 v0 rest ih =>
    simp only [okeys, List.nodup_cons] at hnodup
    simp only [oget] at hget
    by_cases hk : k0 = k
    · rw [if_pos hk] at hget
      cases hget
      subst hk
      rw [patch1, patch1_oget_not_mem _ _ _ hnodup.1, patchKey_oget_self]
    · rw [if_neg hk] at hget
      rw [patch1, ih _ hnodup.2 hget, patchKey_oget_ne _ _ _ _ (fun hh => hk hh.symm)]

/-! ### Lemmas about the file map and the placeholder scan -/

theorem dget_dremove_self {α : Type} (l : List (String × α)) (k : String) :
    dget (dremove l k) k = none := by
  induction l with
  | nil => rfl
  | cons kv rest ih =>
    by_cases h : kv.1 = k
    · simpa [dremove, h] using ih
    · simpa [dremove, dget, h] using ih

/-- A leaf value that is the empty string (`v[0]` raises `IndexError`). -/
def isEmptyStr : JVal → Bool
  | .str s => s.data = []
  | _ => false

/-- A leaf value that is an unresolved template placeholder: a string
starting with the `@` sentinel. -/
def isStubStr : JVal → Bool
  | .str s => s.data.head? = some '@'
  | _ => false

theorem stubCheck_no_empty (l : List (String × JVal))
    (h : l.all (fun kv => ¬ isEmptyStr kv.2)) :
    stubCheck l =
      if l.any (fun kv => isStubStr kv.2) then some .incompleteExport else none := by
  induction l with
  | nil => rfl
  | cons kv rest ih =>
    simp only [List.all_cons, Bool.and_eq_true, decide_eq_true_eq] at h
    obtain ⟨h1, h2⟩ := h
    obtain ⟨k, v⟩ := kv
    rw [List.any_cons]
    cases v with
    | str sv =>
      simp only [isEmptyStr, decide_eq_true_eq] at h1
      simp only [stubCheck, if_neg h1]
      by_cases hs : sv.data.head? = some '@'
      · have hh : isStubStr (JVal.str sv) = true := by simp [isStubStr, hs]
        rw [if_pos hs, hh, Bool.true_or, if_pos rfl]
      · have hh : isStubStr (JVal.str sv) = false := by simp [isStubStr, hs]
        rw [if_neg hs, ih h2, hh, Bool.false_or]
    | num n =>
      simp only [stubCheck]
      rw [ih h2]
      have hh : isStubStr (JVal.num n) = false := rfl
      rw [hh, Bool.false_or]
    | bool b =>
      simp only [stubCheck]
      rw [ih h2]
      have hh : isStubStr (JVal.bool b) = false := rfl
      rw [hh, Bool.false_or]
    | null =>
      simp only [stubCheck]
      rw [ih h2]
      have hh : isStubStr JVal.null = false := rfl
      rw [hh, Bool.false_or]
    | arr a =>
      simp only [stubCheck]
      rw [ih h2]
      have hh : isStubStr (JVal.arr a) = false := rfl
      rw [hh, Bool.false_or]
    | obj o =>
      simp only [stubCheck]
      rw [ih h2]
      have hh : isStubStr (JVal.obj o) = false := rfl
      rw [hh, Bool.false_or]

theorem stubCheck_empty_first (l : List (String × JVal))
    (h1 : l.any (fun kv => isEmptyStr kv.2))
    (h2 : l.all (fun kv => ¬ isStubStr kv.2)) :
    stubCheck l = some .indexError := by
  induction l with
  | nil => simp at h1
  | cons kv rest ih =>
    rw [List.any_cons] at h1
    simp only [List.all_cons, Bool.and_eq_true, decide_eq_true_eq] at h2
    obtain ⟨hs, h2⟩ := h2
    obtain ⟨k, v⟩ := kv
    cases v with
    | str sv =>
      simp only [isStubStr, decide_eq_true_eq] at hs
      by_cases he : sv.data = []
      · simp [stubCheck, he]
      · have hh : isEmptyStr (JVal.str sv) = decide (sv.data = []) := rfl
        rw [hh] at h1
        simp only [decide_eq_true_eq, Bool.or_eq_true] at h1
        rcases h1 with h1 | h1
        · exact absurd h1 he
        · simp only [stubCheck, if_neg he, if_neg hs]
          exact ih h1 h2
    | num n =>
      have hh : isEmptyStr (JVal.num n) = false := rfl
      rw [hh, Bool.false_or] at h1
      simp only [stubCheck]
      exact ih h1 h2
    | bool b =>
      have hh : isEmptyStr (JVal.bool b) = false := rfl
      rw [hh, Bool.false_or] at h1
      simp only [stubCheck]
      exact ih h1 h2
    | null =>
      have hh : isEmptyStr JVal.null = false := rfl
      rw [hh, Bool.false_or] at h1
      simp only [stubCheck]
      exact ih h1 h2
    | arr a =>
      have hh : isEmptyStr (JVal.arr a) = false := rfl
      rw [hh, Bool.false_or] at h1
      simp only [stubCheck]
      exact ih h1 h2
    | obj o =>
      have hh : isEmptyStr (JVal.obj o) = false := rfl
      rw [hh, Bool.false_or] at h1
      simp only [stubCheck]
      exact ih h1 h2

/-! ### The claims -/

/-- A representative export document: an `EXPORT` block with
`Export_Id` 101 and a path. -/
def exDoc : JObj :=
  .cons "EXPORT" (.obj (.cons "Export_Id" (.num 101)
    (.cons "Path" (.str "/exports/share1") .nil))) .nil

/-- Claim C1: if the live-notify step (the dbus `AddExport` call) fails
after the export file write succeeded, then after `add_export` returns
(re-raising the original error) the export file for that name no longer
exists and the index does not reference it.  Per the publish state
machine the name starts absent, so the hypothesis is that the index did
not reference it before the call. -/
theorem C1_publish_rollback (s : GState) (name : String) (cfdict : JObj)
    (hxid : (getXid cfdict).isSome)
    (hstub : stubCheck (walk cfdict) = none)
    (hidx : name ∉ s.index) :
    dget (add_export s name cfdict true false).state.files name = none
    ∧ name ∉ (add_export s name cfdict true false).state.index
    ∧ (add_export s name cfdict true false).err = some .channelError := by
  rcases hx : getXid cfdict with _ | xid
  · rw [hx] at hxid
    simp at hxid
  · simp [add_export, hx, _write_export_file, hstub, runUndoStack, runUndo,
      dget_dremove_self, hidx]

/-- Witness for C1 at a concrete state and document. -/
theorem C1_publish_rollback_witness :
    dget (add_export ⟨[], ["other"]⟩ "share1" exDoc true false).state.files "share1" = none
    ∧ "share1" ∉ (add_export ⟨[], ["other"]⟩ "share1" exDoc true false).state.index
    ∧ (add_export ⟨[], ["other"]⟩ "share1" exDoc true false).err = some .channelError :=
  C1_publish_rollback ⟨[], ["other"]⟩ "share1" exDoc (by decide) (by decide) (by decide)

/-- Claim C2, counterexample: with the index-rebuild step failing after
two undos were registered, the undos are executed in registration order
`[rmFile, removeExportDbus]`, which is not the reverse registration
order the claim requires. -/
theorem C2_counterexample :
    (add_export ⟨[], []⟩ "share1" exDoc false true).registered
        = [.rmFile "share1", .removeExportDbus 101]
    ∧ (add_export ⟨[], []⟩ "share1" exDoc false true).executed
        = [.rmFile "share1", .removeExportDbus 101]
    ∧ (add_export ⟨[], []⟩ "share1" exDoc false true).executed
        ≠ ((add_export ⟨[], []⟩ "share1" exDoc false true).registered).reverse := by
  exact ⟨rfl, rfl, by decide⟩

/-- Claim C2, amended: if any step of `add_export` raises, the
accumulated undo actions are executed in registration order (the
first-registered undo runs first — `for u in undos: u()`), and the
original error of the failing step is re-raised unchanged. -/
theorem C2_rollback_order (s : GState) (name : String) (cfdict : JObj)
    (failAdd failIndex : Bool) :
    ((add_export s name cfdict failAdd failIndex).err ≠ none →
      (add_export s name cfdict failAdd failIndex).executed
        = (add_export s name cfdict failAdd failIndex).registered)
    ∧ (stubCheck (walk cfdict) = none → (getXid cfdict).isSome → failAdd = true →
        (add_export s name cfdict failAdd failIndex).err = some .channelError)
    ∧ (stubCheck (walk cfdict) = none → (getXid cfdict).isSome → failAdd = false →
        failIndex = true →
        (add_export s name cfdict failAdd failIndex).err = some .processError) := by
  refine ⟨?_, ?_, ?_⟩
  · intro hne
    rcases hx : getXid cfdict with _ | xid
    · simp [add_export, hx]
    · rcases hst : stubCheck (walk cfdict) with _ | e
      · cases failAdd <;> cases failIndex
        · exact absurd (by simp [add_export, hx, _write_export_file, hst]) hne
        · simp [add_export, hx, _write_export_file, hst, runUndoStack]
        · simp [add_export, hx, _write_export_file, hst, runUndoStack]
        · simp [add_export, hx, _write_export_file, hst, runUndoStack]
      · simp [add_export, hx, _write_export_file, hst]
  · intro hst hxid hfa
    subst hfa
    rcases hx : getXid cfdict with _ | xid
    · rw [hx] at hxid
      simp at hxid
    · simp [add_export, hx, _write_export_file, hst]
  · intro hst hxid hfa hfi
    subst hfa
    subst hfi
    rcases hx : getXid cfdict with _ | xid
    · rw [hx] at hxid
      simp at hxid
    · simp [add_export, hx, _write_export_file, hst]

set_option maxRecDepth 4000 in
/-- Witness for C2's amended statement at a concrete input (index
rebuild fails, both undos registered and executed in that order). -/
theorem C2_rollback_order_witness :
    (add_export ⟨[], []⟩ "share2" exDoc false true).executed
      = (add_export ⟨[], []⟩ "share2" exDoc false true).registered
    ∧ (add_export ⟨[], []⟩ "share2" exDoc false true).err = some .processError :=
  ⟨(C2_rollback_order ⟨[], []⟩ "share2" exDoc false true).1 (by decide),
   (C2_rollback_order ⟨[], []⟩ "share2" exDoc false true).2.2 (by decide) (by decide) rfl rfl⟩

set_option maxRecDepth 8000 in
/-- Claim C3, counterexample: with the live-notify-removal (dbus
`RemoveExport`) step failing, `remove_export` deletes the file and
rebuilds the index, but then re-raises the channel error instead of
swallowing it: the second component is not `none`. -/
theorem C3_counterexample :
    remove_export ⟨[("share1", mkconf (.obj exDoc))], ["share1"]⟩ "share1" true
      = (⟨[], []⟩, some .channelError)
    ∧ (remove_export ⟨[("share1", mkconf (.obj exDoc))], ["share1"]⟩ "share1" true).2
        ≠ none := by
  exact ⟨rfl, by decide⟩

/-- Claim C3, amended: when the live-notify-removal step fails, the
export file is nevertheless deleted and the index rebuilt (to exactly
the remaining export files), but the channel error is then re-raised to
the caller (the `try`/`finally` has no `except`), not swallowed. -/
theorem C3_retract_cleanup (s : GState) (name : String) (content : List Char)
    (d : JVal) (xid : Int)
    (hfile : dget s.files name = some content)
    (hparse : parseconf content = .ok d)
    (hxid : getXidJ d = some xid) :
    remove_export s name true
      = (_mkindex { s with files := dremove s.files name }, some .channelError)
    ∧ dget (remove_export s name true).1.files name = none
    ∧ (remove_export s name true).1.index
        = sortNames ((dremove s.files name).map Prod.fst) := by
  have h : remove_export s name true
      = (_mkindex { s with files := dremove s.files name }, some .channelError) := by
    simp only [remove_export, hfile, hparse, hxid, if_pos]
  refine ⟨h, ?_, ?_⟩
  · rw [h]
    exact dget_dremove_self _ _
  · rw [h]
    rfl

set_option maxRecDepth 8000 in
/-- Witness for C3's amended statement at a concrete published state. -/
theorem C3_retract_cleanup_witness :
    remove_export ⟨[("share1", mkconf (.obj exDoc))], ["share1"]⟩ "share1" true
      = (_mkindex { files := dremove [("share1", mkconf (.obj exDoc))] "share1",
                    index := ["share1"] }, some .channelError) :=
  (C3_retract_cleanup ⟨[("share1", mkconf (.obj exDoc))], ["share1"]⟩ "share1"
    (mkconf (.obj exDoc)) (.obj exDoc) 101 (by decide) (by rfl) (by decide)).1

/-- Claim C4, counterexample: retracting a name that was never published
raises (`rm` in the `finally` clause fails after `cat` failed): the
second component is not `none`, though the index is indeed unchanged. -/
theorem C4_counterexample :
    remove_export ⟨[("other", ['x'])], ["other"]⟩ "never" false
      = (⟨[("other", ['x'])], ["other"]⟩, some .processError)
    ∧ (remove_export ⟨[("other", ['x'])], ["other"]⟩ "never" false).2 ≠ none := by
  exact ⟨rfl, by decide⟩

/-- Claim C4, amended: retracting a never-published name leaves the
whole store state (in particular the index file) unchanged, but does
not complete silently: the `cat` failure is superseded by the `rm`
failure inside the `finally` clause and a `ProcessExecutionError`
propagates to the caller. -/
theorem C4_retract_missing (s : GState) (name : String) (b : Bool)
    (h : dget s.files name = none) :
    remove_export s name b = (s, some .processError)
    ∧ (remove_export s name b).1.index = s.index := by
  have hr : remove_export s name b = (s, some .processError) := by
    simp only [remove_export, h]
  exact ⟨hr, by rw [hr]⟩

/-- Witness for C4's amended statement at a concrete state. -/
theorem C4_retract_missing_witness :
    remove_export ⟨[("other", ['x'])], ["other"]⟩ "gone" true
      = (⟨[("other", ['x'])], ["other"]⟩, some .processError) :=
  (C4_retract_missing ⟨[("other", ['x'])], ["other"]⟩ "gone" true (by decide)).1

/-- Claim C7, counterexample: a document whose only leaf value is the
empty string contains no unresolved placeholder, yet
`_write_export_file` neither writes the file nor raises
`IncompleteExportError` — it raises `IndexError` (`v[0]` on `""`) and
leaves the store unchanged. -/
theorem C7_counterexample :
    _write_export_file ⟨[], []⟩ "share1" (.cons "K" (.str "") .nil)
      = (⟨[], []⟩, some .indexError)
    ∧ some GErr.indexError ≠ some GErr.incompleteExport
    ∧ (_write_export_file ⟨[], []⟩ "share1" (.cons "K" (.str "") .nil)).2 ≠ none := by
  exact ⟨rfl, by decide, by decide⟩

/-- Claim C7, amended: provided no leaf value of the document is the
empty string, `_write_export_file` fails with `IncompleteExportError`
(`InvalidParameterValue`) exactly when some leaf value is an unresolved
placeholder (a string starting with the `@` sentinel), writing nothing
in that case; otherwise it serializes the document with `mkconf` and
writes the export file. -/
theorem C7_write_export_file (s : GState) (name : String) (cfdict : JObj)
    (hne : (walk cfdict).all (fun kv => ¬ isEmptyStr kv.2)) :
    ((walk cfdict).any (fun kv => isStubStr kv.2) = true →
        _write_export_file s name cfdict = (s, some .incompleteExport))
    ∧ ((walk cfdict).any (fun kv => isStubStr kv.2) = false →
        _write_export_file s name cfdict
          = ({ s with files := dset s.files name (mkconf (.obj cfdict)) }, none)) := by
  constructor <;> intro hstub <;>
    simp only [_write_export_file, stubCheck_no_empty _ hne, hstub, if_true, if_false,
      Bool.false_eq_true]

/-- Witness for C7's amended statement: a document with an `@`-stub
leaf is rejected with `IncompleteExportError`, and a stub-free document
is written. -/
theorem C7_write_export_file_witness :
    _write_export_file ⟨[], []⟩ "n" (.cons "K" (.str "@host") .nil)
      = (⟨[], []⟩, some .incompleteExport)
    ∧ _write_export_file ⟨[], []⟩ "n" (.cons "K" (.str "v") .nil)
      = ({ files := dset [] "n" (mkconf (.obj (.cons "K" (.str "v") .nil))),
           index := [] }, none) :=
  ⟨(C7_write_export_file ⟨[], []⟩ "n" (.cons "K" (.str "@host") .nil) (by decide)).1
      (by decide),
   (C7_write_export_file ⟨[], []⟩ "n" (.cons "K" (.str "v") .nil) (by decide)).2
      (by decide)⟩

/-- Claim C8: `parseconf` fails on malformed input: on any text whose
quote scan ends inside a quoted string (and which the JSON short-cut
path rejects) it raises the unterminated-quoted-string error, and on
input with unbalanced braces it raises `ValueError` from `json.loads`. -/
theorem C8_parse_errors :
    (∀ cf : List Char, json_loads cf = none → (scanConf cf).inQuote = true →
        parseconf cf = .error .unterminated)
    ∧ parseconf ("x \x7b y = 1;".data) = .error .jsonValue := by
  constructor
  · intro cf hjson hquote
    simp only [parseconf, hjson, _conf2json, hquote, if_true]
  · rfl

/-- Witness for C8 at a concrete unterminated-quote input. -/
theorem C8_parse_errors_witness :
    parseconf ("K = \"abc".data) = .error .unterminated :=
  C8_parse_errors.1 ("K = \"abc".data) (by decide) (by decide)

/-- Claim C10: for a document some leaf of which is the empty string
(and none of which is an `@`-placeholder, so the placeholder branch is
not taken first), the check `v[0] == '@'` in `_write_export_file`
raises `IndexError` — not `IncompleteExportError`, and not a successful
write: the store is unchanged. -/
theorem C10_empty_string_leaf (s : GState) (name : String) (cfdict : JObj)
    (hemp : (walk cfdict).any (fun kv => isEmptyStr kv.2) = true)
    (hstub : (walk cfdict).all (fun kv => ¬ isStubStr kv.2)) :
    _write_export_file s name cfdict = (s, some .indexError)
    ∧ some GErr.indexError ≠ some GErr.incompleteExport := by
  refine ⟨?_, by decide⟩
  simp only [_write_export_file, stubCheck_empty_first _ hemp hstub]

/-- Witness for C10 at a concrete document with an empty-string leaf. -/
theorem C10_empty_string_leaf_witness :
    _write_export_file ⟨[], []⟩ "n" (.cons "A" (.obj (.cons "B" (.str "") .nil)) .nil)
      = (⟨[], []⟩, some .indexError) :=
  (C10_empty_string_leaf ⟨[], []⟩ "n"
    (.cons "A" (.obj (.cons "B" (.str "") .nil)) .nil) (by decide) (by decide)).1

/-- Claim C6: `patch` deep-merges each overlay into base: for a given
key, if both sides hold nested maps they are merged recursively
(`mergeVal`), otherwise the overlay value replaces the base value
outright; keys absent from the overlay keep their base value; and in
particular `patch {a:{x:1,y:2}} {a:{y:3,z:4}} = {a:{x:1,y:3,z:4}}`. -/
theorem C6_patch_deep_merge :
    (∀ (base ovl : JObj) (k : String) (v : JVal),
        (okeys ovl).Nodup → oget ovl k = some v →
        oget (patch base [ovl]) k = some (mergeVal (oget base k) v))
    ∧ (∀ (base ovl : JObj) (k : String),
        oget ovl k = none → oget (patch base [ovl]) k = oget base k)
    ∧ patch (.cons "a" (.obj (.cons "x" (.num 1) (.cons "y" (.num 2) .nil))) .nil)
        [.cons "a" (.obj (.cons "y" (.num 3) (.cons "z" (.num 4) .nil))) .nil]
      = .cons "a" (.obj (.cons "x" (.num 1) (.cons "y" (.num 3) (.cons "z" (.num 4) .nil)))) .nil := by
  refine ⟨?_, ?_, rfl⟩
  · intro base ovl k v hnodup hget
    exact patch1_oget ovl base k v hnodup hget
  · intro base ovl k hget
    exact patch1_oget_not_mem ovl base k (oget_none_not_mem ovl k hget)

/-- Witness for C6 at concrete inputs. -/
theorem C6_patch_deep_merge_witness :
    oget (patch (.cons "a" (.num 7) .nil) [.cons "a" (.num 9) .nil]) "a" = some (.num 9)
    ∧ oget (patch (.cons "b" (.num 7) .nil) [.cons "a" (.num 9) .nil]) "b" = some (.num 7) :=
  ⟨C6_patch_deep_merge.1 (.cons "a" (.num 7) .nil) (.cons "a" (.num 9) .nil) "a"
      (.num 9) (by decide) (by decide),
   C6_patch_deep_merge.2.1 (.cons "b" (.num 7) .nil) (.cons "a" (.num 9) .nil) "b"
      (by decide)⟩

/-- Claim C9: each `get_export_id` call performs exactly one increment
of the `exportid` counter and returns the new value, so two sequential
calls return strictly increasing integers; and running the allocator
initialization twice against a fresh store neither raises nor resets
the counter from its seed value 100. -/
theorem C9_export_id_allocator :
    (∀ v : Nat, get_export_id (some v) = (some (v + 1), .ok (v + 1)))
    ∧ (∀ v : Nat,
        (get_export_id (some v)).2 = .ok (v + 1)
        ∧ (get_export_id ((get_export_id (some v)).1)).2 = .ok (v + 2)
        ∧ v + 1 < v + 2)
    ∧ ganesha_db_init none = (some 100, none)
    ∧ ganesha_db_init (ganesha_db_init none).1 = (some 100, none) := by
  exact ⟨fun v => rfl, fun v => ⟨rfl, rfl, by omega⟩, rfl, rfl⟩

/-! ### Round-trip infrastructure (claim C5)

The class of documents for which `parseconf (mkconf d) = d` holds:
string scalars and keys are bare "safe words" (printable ASCII without
whitespace or the characters the config syntax claims: `#`, `;`, `{`,
`}`, `=`, `"`, `\`, `[`, and not matching the bare-number pattern),
numbers are nonzero integers (so their decimal form matches
`-?[1-9]\d*`), dicts have unique keys, and the last top-level entry is
a nested block (otherwise the trailing `;` becomes a trailing comma in
the generated JSON, which `json.loads` rejects). -/

/-- A character allowed in a bare config word. -/
def safeChar (c : Char) : Bool :=
  0x21 ≤ c.toNat ∧ c.toNat ≤ 0x7e ∧ c ≠ '#' ∧ c ≠ ';' ∧ c ≠ '\x7b' ∧ c ≠ '\x7d'
    ∧ c ≠ '=' ∧ c ≠ '"' ∧ c ≠ '\\' ∧ c ≠ '['

/-- A bare config word: nonempty, safe characters only, and not lexed
as a number. -/
def safeWord (w : List Char) : Bool :=
  decide (w ≠ []) && w.all safeChar && ¬ isBareNum w

mutual
/-- Values of the round-trip class. -/
inductive SafeVal : JVal → Prop where
  | str : ∀ s : String, safeWord s.data → SafeVal (.str s)
  | num : ∀ n : Int, n ≠ 0 → SafeVal (.num n)
  | obj : ∀ o : JObj, SafeObj o → SafeVal (.obj o)

/-- Dicts of the round-trip class: safe keys (unique) and safe values. -/
inductive SafeObj : JObj → Prop where
  | nil : SafeObj .nil
  | cons : ∀ (k : String) (v : JVal) (rest : JObj),
      safeWord k.data → SafeVal v → SafeObj rest → k ∉ okeys rest →
      SafeObj (.cons k v rest)
end

/-- Does the (nonempty) dict end with a scalar entry?  (Then `sub2`
deletes its trailing semicolon before the closing brace.) -/
def endsScalar : JObj → Bool
  | .nil => false
  | .cons _ v .nil =>
    (match v with
     | .obj _ => false
     | _ => true)
  | .cons _ _ rest => endsScalar rest

/-- Is the last entry of the dict a nested block? -/
def lastIsObj : JObj → Bool
  | .nil => false
  | .cons _ v .nil =>
    (match v with
     | .obj _ => true
     | _ => false)
  | .cons _ _ rest => lastIsObj rest

/-- The text after `sub1` (the omitted `=` inserted before each block
brace, the space before the brace consumed). -/
def e1Entries : JObj → Nat → List Char
  | .nil, _ => []
  | .cons k v rest, ind =>
    (match v with
     | .obj o =>
       pad ind ++ k.data ++ ['=', '\x7b', '\n'] ++ e1Entries o (ind + 1) ++
         pad ind ++ ['\x7d', '\n']
     | sc => pad ind ++ k.data ++ [' ', '=', ' '] ++ dumpScalar sc ++ [';', '\n'])
    ++ e1Entries rest ind

/-- The text after `sub2`: when the block is followed by a closing
brace (`cl = true`), a trailing scalar entry loses its `;` and the
whitespace up to the brace (including the indentation of the brace)
is consumed. -/
def e2Entries : JObj → Nat → Bool → List Char
  | .nil, _, _ => []
  | .cons k v rest, ind, cl =>
    match v, rest with
    | .obj o, rest =>
      pad ind ++ k.data ++ ['=', '\x7b', '\n'] ++ e2Entries o (ind + 1) true ++
        (if endsScalar o then [] else pad ind) ++ ['\x7d', '\n'] ++ e2Entries rest ind cl
    | sc, .nil =>
      pad ind ++ k.data ++ [' ', '=', ' '] ++ dumpScalar sc ++
        (if cl then [] else [';', '\n'])
    | sc, rest =>
      pad ind ++ k.data ++ [' ', '=', ' '] ++ dumpScalar sc ++ [';', '\n'] ++
        e2Entries rest ind cl

/-- The text after `sub3`: a block followed by a further entry gets
`};` glued to that entry's key (the newline and the next entry's
indentation are consumed; `padded` records whether this entry still
carries its indentation). -/
def e3Entries : JObj → Nat → Bool → Bool → List Char
  | .nil, _, _, _ => []
  | .cons k v rest, ind, cl, padded =>
    match v, rest with
    | .obj o, .nil =>
      (if padded then pad ind else []) ++ k.data ++ ['=', '\x7b', '\n'] ++
        e3Entries o (ind + 1) true true ++
        (if endsScalar o then [] else pad ind) ++ ['\x7d', '\n']
    | .obj o, rest =>
      (if padded then pad ind else []) ++ k.data ++ ['=', '\x7b', '\n'] ++
        e3Entries o (ind + 1) true true ++
        (if endsScalar o then [] else pad ind) ++ ['\x7d', ';'] ++
        e3Entries rest ind cl false
    | sc, .nil =>
      (if padded then pad ind else []) ++ k.data ++ [' ', '=', ' '] ++ dumpScalar sc ++
        (if cl then [] else [';', '\n'])
    | sc, rest =>
      (if padded then pad ind else []) ++ k.data ++ [' ', '=', ' '] ++ dumpScalar sc ++
        [';', '\n'] ++ e3Entries rest ind cl true

/-- The whitespace-split tokens of a block body: `k = v` per entry with
`;` separators between entries (nested blocks recursively braced). -/
def tokList : JObj → List (List Char)
  | .nil => []
  | .cons k v rest =>
    [k.data, ['=']] ++
    (match v with
     | .obj o => [['\x7b']] ++ tokList o ++ [['\x7d']]
     | sc => [dumpScalar sc]) ++
    (match rest with
     | .nil => []
     | rest => [';'] :: tokList rest)

/-! #### Fuel irrelevance and step equations for the `re.sub` scans -/

theorem dropWhile_tail_lt (p : Char → Bool) (rest : List Char) (d : Char)
    (h : (rest.dropWhile p).head? = some d) :
    (rest.dropWhile p).tail.length < rest.length := by
  have hle := length_dropWhile_le p rest
  rcases hd : rest.dropWhile p with _ | ⟨c, t⟩
  · rw [hd] at h
    simp at h
  · rw [hd] at hle
    simp only [hd, List.tail_cons]
    simp only [List.length_cons] at hle
    omega

theorem sub1F_irrel : ∀ (f g : Nat) (l : List Char),
    l.length ≤ f → l.length ≤ g → sub1F f l = sub1F g l := by
  intro f
  induction f with
  | zero =>
    intro g l hf _
    have : l = [] := List.length_eq_zero.mp (Nat.le_zero.mp hf)
    subst this
    cases g <;> rfl
  | succ f ih =>
    intro g l hf hg
    cases g with
    | zero =>
      have : l = [] := List.length_eq_zero.mp (Nat.le_zero.mp hg)
      subst this
      rfl
    | succ g =>
      cases l with
      | nil => rfl
      | cons c rest =>
        simp only [List.length_cons, Nat.add_le_add_iff_right] at hf hg
        simp only [sub1F]
        by_cases hc : c ≠ '=' ∧ ¬ isPyWs c ∧ (rest.dropWhile isPyWs).head? = some '\x7b'
        · rw [if_pos hc, if_pos hc]
          have := dropWhile_tail_lt isPyWs rest _ hc.2.2
          rw [ih g _ (by omega) (by omega)]
        · rw [if_neg hc, if_neg hc, ih g rest hf hg]

theorem sub1_cons (c : Char) (rest : List Char) :
    sub1 (c :: rest) =
      if c ≠ '=' ∧ ¬ isPyWs c ∧ (rest.dropWhile isPyWs).head? = some '\x7b' then
        c :: '=' :: '\x7b' :: sub1 (rest.dropWhile isPyWs).tail
      else c :: sub1 rest := by
  show sub1F (rest.length + 1) (c :: rest) = _
  simp only [sub1F]
  by_cases hc : c ≠ '=' ∧ ¬ isPyWs c ∧ (rest.dropWhile isPyWs).head? = some '\x7b'
  · rw [if_pos hc, if_pos hc]
    have := dropWhile_tail_lt isPyWs rest _ hc.2.2
    rw [sub1F_irrel rest.length _ _ (by omega) le_rfl]
    rfl
  · rw [if_neg hc, if_neg hc]
    rfl

theorem sub2F_irrel : ∀ (f g : Nat) (l : List Char),
    l.length ≤ f → l.length ≤ g → sub2F f l = sub2F g l := by
  intro f
  induction f with
  | zero =>
    intro g l hf _
    have : l = [] := List.length_eq_zero.mp (Nat.le_zero.mp hf)
    subst this
    cases g <;> rfl
  | succ f ih =>
    intro g l hf hg
    cases g with
    | zero =>
      have : l = [] := List.length_eq_zero.mp (Nat.le_zero.mp hg)
      subst this
      rfl
    | succ g =>
      cases l with
      | nil => rfl
      | cons c rest =>
        simp only [List.length_cons, Nat.add_le_add_iff_right] at hf hg
        simp only [sub2F]
        by_cases hc : c = ';' ∧ (rest.dropWhile isPyWs).head? = some '\x7d'
        · rw [if_pos hc, if_pos hc]
          have := dropWhile_tail_lt isPyWs rest _ hc.2
          rw [ih g _ (by omega) (by omega)]
        · rw [if_neg hc, if_neg hc, ih g rest hf hg]

theorem sub2_cons (c : Char) (rest : List Char) :
    sub2 (c :: rest) =
      if c = ';' ∧ (rest.dropWhile isPyWs).head? = some '\x7d' then
        '\x7d' :: sub2 (rest.dropWhile isPyWs).tail
      else c :: sub2 rest := by
  show sub2F (rest.length + 1) (c :: rest) = _
  simp only [sub2F]
  by_cases hc : c = ';' ∧ (rest.dropWhile isPyWs).head? = some '\x7d'
  · rw [if_pos hc, if_pos hc]
    have := dropWhile_tail_lt isPyWs rest _ hc.2
    rw [sub2F_irrel rest.length _ _ (by omega) le_rfl]
    rfl
  · rw [if_neg hc, if_neg hc]
    rfl

theorem sub3F_irrel : ∀ (f g : Nat) (l : List Char),
    l.length ≤ f → l.length ≤ g → sub3F f l = sub3F g l := by
  intro f
  induction f with
  | zero =>
    intro g l hf _
    have : l = [] := List.length_eq_zero.mp (Nat.le_zero.mp hf)
    subst this
    cases g <;> rfl
  | succ f ih =>
    intro g l hf hg
    cases g with
    | zero =>
      have : l = [] := List.length_eq_zero.mp (Nat.le_zero.mp hg)
      subst this
      rfl
    | succ g =>
      cases l with
      | nil => rfl
      | cons c rest =>
        simp only [List.length_cons, Nat.add_le_add_iff_right] at hf hg
        simp only [sub3F]
        by_cases hc : c = '\x7d'
        · rw [if_pos hc, if_pos hc]
          rcases hh : (rest.dropWhile isPyWs).head? with _ | d
          · simp only [hh]
            rw [ih g rest hf hg]
          · simp only [hh]
            by_cases hd : d ≠ '\x7d'
            · rw [if_pos hd, if_pos hd]
              have := dropWhile_tail_lt isPyWs rest _ hh
              rw [ih g _ (by omega) (by omega)]
            · rw [if_neg hd, if_neg hd, ih g rest hf hg]
        · rw [if_neg hc, if_neg hc, ih g rest hf hg]

theorem sub3_cons (c : Char) (rest : List Char) :
    sub3 (c :: rest) =
      if c = '\x7d' then
        match (rest.dropWhile isPyWs).head? with
        | some d =>
          if d ≠ '\x7d' then '\x7d' :: ';' :: d :: sub3 (rest.dropWhile isPyWs).tail
          else '\x7d' :: sub3 rest
        | none => '\x7d' :: sub3 rest
      else c :: sub3 rest := by
  show sub3F (rest.length + 1) (c :: rest) = _
  simp only [sub3F]
  by_cases hc : c = '\x7d'
  · rw [if_pos hc, if_pos hc]
    rcases hh : (rest.dropWhile isPyWs).head? with _ | d
    · simp only [hh]
      rfl
    · simp only [hh]
      by_cases hd : d ≠ '\x7d'
      · rw [if_pos hd, if_pos hd]
        have := dropWhile_tail_lt isPyWs rest _ hh
        rw [sub3F_irrel rest.length _ _ (by omega) le_rfl]
        rfl
      · rw [if_neg hd, if_neg hd]
        rfl
  · rw [if_neg hc, if_neg hc]
    rfl

/-! #### Pass-through behaviour of the scans -/

/-- The first significant (non-whitespace) character: the lookahead the
`re.sub` patterns use. -/
def nextSig (l : List Char) : Option Char :=
  (l.dropWhile isPyWs).head?

theorem nextSig_cons_of {d : Char} (X : List Char) (hd : isPyWs d = false) :
    nextSig (d :: X) = some d := by
  simp [nextSig, List.dropWhile, hd]

theorem nextSig_ws_cons {d : Char} (X : List Char) (hd : isPyWs d = true) :
    nextSig (d :: X) = nextSig X := by
  simp [nextSig, List.dropWhile, hd]

theorem nextSig_append_ws {p : List Char} (X : List Char) (hp : p.all isPyWs) :
    nextSig (p ++ X) = nextSig X := by
  induction p with
  | nil => rfl
  | cons c p' ih =>
    simp only [List.all_cons, Bool.and_eq_true] at hp
    rw [List.cons_append, nextSig_ws_cons _ hp.1, ih hp.2]

theorem dropWhile_ws_append {p : List Char} {d : Char} (X : List Char)
    (hp : p.all isPyWs) (hd : isPyWs d = false) :
    (p ++ d :: X).dropWhile isPyWs = d :: X := by
  induction p with
  | nil => simp [List.dropWhile, hd]
  | cons c p' ih =>
    simp only [List.all_cons, Bool.and_eq_true] at hp
    simp [List.dropWhile, hp.1, ih hp.2]

theorem sub1_nil : sub1 [] = [] := rfl

theorem sub1_pass (c : Char) (rest : List Char)
    (h : c = '=' ∨ isPyWs c = true ∨ nextSig rest ≠ some '\x7b') :
    sub1 (c :: rest) = c :: sub1 rest := by
  rw [sub1_cons, if_neg]
  intro hc
  rcases h with h | h | h
  · exact hc.1 h
  · rw [h] at hc
    exact hc.2.1 rfl
  · exact h hc.2.2

theorem sub1_match (c : Char) (rest : List Char)
    (h1 : c ≠ '=') (h2 : isPyWs c = false) (h3 : nextSig rest = some '\x7b') :
    sub1 (c :: rest) = c :: '=' :: '\x7b' :: sub1 (rest.dropWhile isPyWs).tail := by
  rw [sub1_cons, if_pos ⟨h1, by simp [h2], h3⟩]

theorem sub1_append_ws (p rest : List Char) (hp : p.all isPyWs) :
    sub1 (p ++ rest) = p ++ sub1 rest := by
  induction p with
  | nil => rfl
  | cons c p' ih =>
    simp only [List.all_cons, Bool.and_eq_true] at hp
    rw [List.cons_append, sub1_pass _ _ (Or.inr (Or.inl hp.1)), ih hp.2]
    rfl

/-- Characters that `sub1` always passes over as the `[^=\s]` part:
not whitespace, not `=`, not `{`. -/
def w1Char (c : Char) : Bool :=
  ¬ isPyWs c ∧ c ≠ '=' ∧ c ≠ '\x7b'

theorem sub1_append_word (w rest : List Char) (hw : w.all w1Char)
    (hlook : nextSig rest ≠ some '\x7b') :
    sub1 (w ++ rest) = w ++ sub1 rest := by
  induction w with
  | nil => rfl
  | cons c w' ih =>
    simp only [List.all_cons, Bool.and_eq_true] at hw
    have hlk : nextSig (w' ++ rest) ≠ some '\x7b' := by
      cases w' with
      | nil => simpa using hlook
      | cons d w'' =>
        have hd : w1Char d = true := by
          have h2 := hw.2
          simp only [List.all_cons, Bool.and_eq_true] at h2
          exact h2.1
        simp only [w1Char, Bool.and_eq_true, Bool.not_eq_true', decide_eq_true_eq] at hd
        rw [List.cons_append, nextSig_cons_of _ (by simpa using hd.1)]
        simp [hd.2.2]
    rw [List.cons_append, sub1_pass _ _ (Or.inr (Or.inr hlk)), ih hw.2]
    rfl

theorem sub2_nil : sub2 [] = [] := rfl

theorem sub2_pass (c : Char) (rest : List Char)
    (h : c ≠ ';' ∨ nextSig rest ≠ some '\x7d') :
    sub2 (c :: rest) = c :: sub2 rest := by
  rw [sub2_cons, if_neg]
  intro hc
  rcases h with h | h
  · exact h hc.1
  · exact h hc.2

theorem sub2_match (rest : List Char) (h : nextSig rest = some '\x7d') :
    sub2 (';' :: rest) = '\x7d' :: sub2 (rest.dropWhile isPyWs).tail := by
  rw [sub2_cons, if_pos ⟨rfl, h⟩]

theorem sub2_append (w rest : List Char) (hw : w.all (· ≠ ';')) :
    sub2 (w ++ rest) = w ++ sub2 rest := by
  induction w with
  | nil => rfl
  | cons c w' ih =>
    simp only [List.all_cons, Bool.and_eq_true, decide_eq_true_eq] at hw
    rw [List.cons_append, sub2_pass _ _ (Or.inl hw.1), ih hw.2]
    rfl

theorem sub3_nil : sub3 [] = [] := rfl

theorem sub3_pass_ne (c : Char) (rest : List Char) (h : c ≠ '\x7d') :
    sub3 (c :: rest) = c :: sub3 rest := by
  rw [sub3_cons, if_neg h]

theorem sub3_pass_brace (rest : List Char)
    (h : nextSig rest = none ∨ nextSig rest = some '\x7d') :
    sub3 ('\x7d' :: rest) = '\x7d' :: sub3 rest := by
  rw [sub3_cons, if_pos rfl]
  rcases h with h | h <;> rw [show nextSig rest = (rest.dropWhile isPyWs).head? from rfl] at h
  · rw [h]
  · rw [h]
    simp

theorem sub3_match (rest : List Char) (d : Char)
    (hd : nextSig rest = some d) (hne : d ≠ '\x7d') :
    sub3 ('\x7d' :: rest) = '\x7d' :: ';' :: d :: sub3 (rest.dropWhile isPyWs).tail := by
  rw [sub3_cons, if_pos rfl,
    show (rest.dropWhile isPyWs).head? = some d from hd]
  simp [hne]

theorem sub3_append (w rest : List Char) (hw : w.all (· ≠ '\x7d')) :
    sub3 (w ++ rest) = w ++ sub3 rest := by
  induction w with
  | nil => rfl
  | cons c w' ih =>
    simp only [List.all_cons, Bool.and_eq_true, decide_eq_true_eq] at hw
    rw [List.cons_append, sub3_pass_ne _ _ hw.1, ih hw.2]
    rfl

/-! #### The scanner is the identity on quote- and comment-free text -/

/-- A character the `_conf2json` scanner simply copies: neither a quote
nor a comment starter. -/
def tameChar (c : Char) : Bool :=
  c ≠ '"' ∧ c ≠ '#'

theorem scanStep_tame (st : ScanState) (c : Char)
    (hq : st.inQuote = false) (hc : st.inComment = false) (h : tameChar c = true) :
    scanStep st c = { st with esc := false, cur := st.cur ++ [c] } := by
  simp only [tameChar, Bool.and_eq_true, decide_eq_true_eq] at h
  simp [scanStep, hq, hc, h.1, h.2]

theorem scanConf_tame_aux (l : List Char) :
    ∀ cur, l.all tameChar →
      l.foldl scanStep ⟨[], cur, false, false, false⟩ = ⟨[], cur ++ l, false, false, false⟩ := by
  induction l with
  | nil => intro cur _; simp
  | cons c rest ih =>
    intro cur h
    simp only [List.all_cons, Bool.and_eq_true] at h
    rw [List.foldl_cons, scanStep_tame _ _ rfl rfl h.1]
    exact (ih (cur ++ [c]) h.2).trans (by simp)

theorem scanConf_tame (l : List Char) (h : l.all tameChar) :
    scanConf l = ⟨[], l, false, false, false⟩ := by
  have := scanConf_tame_aux l [] h
  simpa [scanConf] using this

/-! #### Character-class facts about the serialized text -/

theorem safeChar_plain (c : Char) (h : safeChar c = true) : plainChar c = true := by
  simp only [safeChar, Bool.and_eq_true, decide_eq_true_eq] at h
  simp only [plainChar, Bool.and_eq_true, decide_eq_true_eq]
  obtain ⟨h1, h2, h3, h4, h5, h6, h7, h8, h9, h10⟩ := h
  exact ⟨by omega, h2, h8, h9⟩

theorem escChar_plain (c : Char) (h : plainChar c = true) : escChar c = [c] := by
  have hp := h
  simp only [plainChar, Bool.and_eq_true, decide_eq_true_eq] at hp
  have hval : 0x20 ≤ c.toNat ∧ c.toNat ≤ 0x7e := ⟨hp.1, hp.2.1⟩
  have h1 : c ≠ '"' := hp.2.2.1
  have h2 : c ≠ '\\' := hp.2.2.2
  have h3 : c ≠ '\n' := by
    intro hh
    subst hh
    simp at hval
  have h4 : c ≠ '\t' := by
    intro hh
    subst hh
    simp at hval
  have h5 : c ≠ '\x0d' := by
    intro hh
    subst hh
    simp at hval
  have h6 : c ≠ '\x08' := by
    intro hh
    subst hh
    simp at hval
  have h7 : c ≠ '\x0c' := by
    intro hh
    subst hh
    simp at hval
  simp [escChar, h1, h2, h3, h4, h5, h6, h7, h]

theorem flatten_escChar_plain (w : List Char) (h : w.all plainChar) :
    (w.map escChar).flatten = w := by
  induction w with
  | nil => rfl
  | cons c w' ih =>
    simp only [List.all_cons, Bool.and_eq_true] at h
    simp [escChar_plain c h.1, ih h.2]

theorem dumpScalar_safe_str (s : String) (h : safeWord s.data = true) :
    dumpScalar (.str s) = s.data := by
  have hall : s.data.all safeChar = true := by
    simp only [safeWord, Bool.and_eq_true] at h
    exact h.1.2
  have hplain : (s.data.map escChar).flatten = s.data := by
    apply flatten_escChar_plain
    rw [List.all_eq_true] at hall ⊢
    exact fun c hc => safeChar_plain c (hall c hc)
  simp only [dumpScalar, dumps, dumpsStrChars, hplain]
  simp

theorem dumpScalar_num (n : Int) : dumpScalar (.num n) = intChars n := rfl

/-! #### Word classes of the serialized scalars and keys -/

/-- Induction over a dict that also descends into nested dict values. -/
theorem jobjIndFull {motive : JObj → Prop} (nil : motive .nil)
    (cons : ∀ k v rest, (∀ o, v = JVal.obj o → motive o) → motive rest →
      motive (.cons k v rest)) : ∀ l, motive l
  | .nil => nil
  | .cons k v rest =>
    cons k v rest
      (fun o ho => jobjIndFull nil cons o)
      (jobjIndFull nil cons rest)
termination_by l => sizeOf l
decreasing_by
  all_goals first
    | (subst ho; simp; omega)
    | (subst ho; simp)
    | (simp; omega)
    | simp

theorem safeWord_ne {w : List Char} (h : safeWord w = true) : w ≠ [] := by
  simp only [safeWord, Bool.and_eq_true, decide_eq_true_eq] at h
  exact h.1.1

theorem safeWord_all {w : List Char} (h : safeWord w = true) :
    w.all safeChar = true := by
  simp only [safeWord, Bool.and_eq_true] at h
  exact h.1.2

theorem isPyWs_toNat {c : Char} (h : isPyWs c = true) : c.toNat ≤ 0x20 := by
  simp only [isPyWs, Bool.or_eq_true, decide_eq_true_eq] at h
  rcases h with h | h | h | h | h | h <;> subst h <;> decide

theorem safeChar_not_ws {c : Char} (h : safeChar c = true) : isPyWs c = false := by
  simp only [safeChar, Bool.and_eq_true, decide_eq_true_eq] at h
  rcases hw : isPyWs c with _ | _
  · rfl
  · have := isPyWs_toNat hw
    omega

theorem safeChar_w1 {c : Char} (h : safeChar c = true) : w1Char c = true := by
  have hws := safeChar_not_ws h
  simp only [safeChar, Bool.and_eq_true, decide_eq_true_eq] at h
  simp [w1Char, hws, h.2.2.2.2.1, h.2.2.2.2.2.2.1]

theorem all_safeChar_w1 {w : List Char} (h : w.all safeChar = true) :
    w.all w1Char = true := by
  rw [List.all_eq_true] at h ⊢
  exact fun c hc => safeChar_w1 (h c hc)

theorem toNat_ne_char {c d : Char} (h : c.toNat ≠ d.toNat) : c ≠ d := by
  intro hh
  subst hh
  exact h rfl

theorem digit_safeChar {c : Char} (h : c.isDigit) : safeChar c = true := by
  simp only [Char.isDigit, Bool.and_eq_true, decide_eq_true_eq] at h
  have h0 : ('0' : Char).toNat ≤ c.toNat := by
    exact h.1
  have h9 : c.toNat ≤ ('9' : Char).toNat := by
    exact h.2
  have hb : 48 ≤ c.toNat ∧ c.toNat ≤ 57 := ⟨h0, h9⟩
  simp only [safeChar, Bool.and_eq_true, decide_eq_true_eq]
  refine ⟨by omega, by omega, ?_, ?_, ?_, ?_, ?_, ?_, ?_, ?_⟩ <;>
    (apply toNat_ne_char; intro hh; rw [hh] at hb; revert hb; decide)

theorem digitChar_isDigit {n : Nat} (h : n < 10) : (Nat.digitChar n).isDigit = true := by
  interval_cases n <;> decide

theorem natCharsF_digits : ∀ (f n : Nat), (natCharsF f n).all (·.isDigit) = true := by
  intro f
  induction f with
  | zero => intro n; rfl
  | succ f ih =>
    intro n
    rw [natCharsF]
    by_cases h : n < 10
    · simp [h, digitChar_isDigit h]
    · have h10 : n % 10 < 10 := Nat.mod_lt _ (by omega)
      simp [h, ih (n / 10), digitChar_isDigit h10]

theorem natCharsF_ne (f n : Nat) (hf : 0 < f) : natCharsF f n ≠ [] := by
  cases f with
  | zero => omega
  | succ f =>
    rw [natCharsF]
    by_cases h : n < 10 <;> simp [h]

theorem intChars_safe (n : Int) : (intChars n).all safeChar = true ∧ intChars n ≠ [] := by
  have hdig : ∀ m : Nat, (natChars m).all safeChar = true := by
    intro m
    have := natCharsF_digits (m + 1) m
    rw [List.all_eq_true] at this ⊢
    exact fun c hc => digit_safeChar (this c hc)
  have hne : ∀ m : Nat, natChars m ≠ [] := fun m => natCharsF_ne (m + 1) m (by omega)
  unfold intChars
  by_cases h : n < 0
  · simp only [if_pos h, List.all_cons, Bool.and_eq_true]
    refine ⟨⟨by decide, hdig _⟩, by simp⟩
  · simp only [if_neg h]
    exact ⟨hdig _, hne _⟩

/-- The emitted form of a safe scalar is a nonempty run of safe
characters. -/
theorem scalarWord_safe {v : JVal} (hv : SafeVal v) (hno : ∀ o, v ≠ JVal.obj o) :
    (dumpScalar v).all safeChar = true ∧ dumpScalar v ≠ [] := by
  cases hv with
  | str s hs =>
    rw [dumpScalar_safe_str s hs]
    exact ⟨safeWord_all hs, safeWord_ne hs⟩
  | num n hn =>
    rw [dumpScalar_num]
    exact intChars_safe n
  | obj o ho => exact absurd rfl (hno o)

/-! #### Stage 1: `sub1` inserts `=` before each block brace -/

theorem sub1_word_brace (w rest : List Char) (hw : w.all w1Char = true) (hne : w ≠ []) :
    sub1 (w ++ ' ' :: '\x7b' :: rest) = w ++ '=' :: '\x7b' :: sub1 rest := by
  induction w with
  | nil => exact absurd rfl hne
  | cons c w' ih =>
    simp only [List.all_cons, Bool.and_eq_true] at hw
    have hc := hw.1
    simp only [w1Char, Bool.and_eq_true, Bool.not_eq_true', decide_eq_true_eq] at hc
    cases w' with
    | nil =>
      have hwt : ((' ' :: '\x7b' :: rest).dropWhile isPyWs).tail = rest := by
        have hdw := @dropWhile_ws_append [' '] '\x7b' rest (by decide) (by decide)
        rw [show (' ' :: '\x7b' :: rest) = [' '] ++ '\x7b' :: rest from rfl, hdw,
          List.tail_cons]
      rw [List.cons_append, List.nil_append,
        sub1_match c _ hc.2.1 (by simpa using hc.1)
          (by rw [nextSig_ws_cons _ (by decide)]; exact nextSig_cons_of _ (by decide)),
        hwt]
      rfl
    | cons d w'' =>
      have hd : w1Char d = true := by
        have h2 := hw.2
        simp only [List.all_cons, Bool.and_eq_true] at h2
        exact h2.1
      have hdw := hd
      simp only [w1Char, Bool.and_eq_true, Bool.not_eq_true', decide_eq_true_eq] at hdw
      rw [List.cons_append,
        sub1_pass c _ (Or.inr (Or.inr (by
          rw [List.cons_append, nextSig_cons_of _ (by simpa using hdw.1)]
          simp [hdw.2.2]))),
        ih hw.2 (by simp)]
      rfl

theorem pad_ws (ind : Nat) : (pad ind).all isPyWs = true := by
  rw [List.all_eq_true]
  intro x hx
  simp only [pad] at hx
  rw [List.eq_of_mem_replicate hx]
  decide

/-- The first significant character of a serialized block body (with a
given continuation) is never `{`. -/
theorem nextSig_dumpEntries (o : JObj) (ind : Nat) (suffix : List Char)
    (ho : SafeObj o) (hsuf : nextSig suffix ≠ some '\x7b') :
    nextSig (dumpEntries o ind ++ suffix) ≠ some '\x7b' := by
  cases ho with
  | nil => simpa using hsuf
  | cons k v rest hk hv hrest hmem =>
    obtain ⟨c, w', hkd, hc⟩ : ∃ c w', k.data = c :: w' ∧ safeChar c = true := by
      rcases hd : k.data with _ | ⟨c, w'⟩
      · exact absurd hd (safeWord_ne hk)
      · refine ⟨c, w', rfl, ?_⟩
        have := safeWord_all hk
        rw [hd, List.all_cons, Bool.and_eq_true] at this
        exact this.1
    have hcw : isPyWs c = false := safeChar_not_ws hc
    have hcb : c ≠ '\x7b' := by
      simp only [safeChar, Bool.and_eq_true, decide_eq_true_eq] at hc
      exact hc.2.2.2.2.1
    cases hv with
    | str s hs =>
      simp only [dumpEntries, hkd, List.append_assoc, List.cons_append, List.nil_append]
      rw [nextSig_append_ws _ (pad_ws ind), nextSig_cons_of _ hcw]
      simp [hcb]
    | num n hn =>
      simp only [dumpEntries, hkd, List.append_assoc, List.cons_append, List.nil_append]
      rw [nextSig_append_ws _ (pad_ws ind), nextSig_cons_of _ hcw]
      simp [hcb]
    | obj o' ho' =>
      simp only [dumpEntries, hkd, List.append_assoc, List.cons_append, List.nil_append]
      rw [nextSig_append_ws _ (pad_ws ind), nextSig_cons_of _ hcw]
      simp [hcb]

/-- Stage 1 of the regex pipeline on a serialized safe dict: `sub1`
rewrites each `KEY {` to `KEY={` and leaves everything else alone. -/
theorem sub1_dumpEntries (o : JObj) : ∀ (ind : Nat) (suffix : List Char),
    SafeObj o → nextSig suffix ≠ some '\x7b' →
    sub1 (dumpEntries o ind ++ suffix) = e1Entries o ind ++ sub1 suffix := by
  induction o using jobjIndFull with
  | nil =>
    intro ind suffix ho hsuf
    rfl
  | cons k v rest ihv ihrest =>
    intro ind suffix ho hsuf
    rcases ho with _ | ⟨_, _, _, hk, hv, hrest, hmem⟩
    have hkw1 : k.data.all w1Char = true := all_safeChar_w1 (safeWord_all hk)
    have hkne : k.data ≠ [] := safeWord_ne hk
    cases hv with
    | str s hs =>
      have hw1 : (dumpScalar (JVal.str s)).all w1Char = true :=
        all_safeChar_w1 (scalarWord_safe (SafeVal.str s hs)
          (fun o h => JVal.noConfusion h)).1
      simp only [dumpEntries, e1Entries, List.append_assoc, List.cons_append,
        List.nil_append]
      rw [sub1_append_ws _ _ (pad_ws ind),
        sub1_append_word _ _ hkw1 (by
          rw [nextSig_ws_cons _ (by decide), nextSig_cons_of _ (by decide)]
          simp),
        sub1_pass ' ' _ (Or.inr (Or.inl (by decide))),
        sub1_pass '=' _ (Or.inl rfl),
        sub1_pass ' ' _ (Or.inr (Or.inl (by decide))),
        sub1_append_word _ _ hw1 (by
          rw [nextSig_cons_of _ (by decide)]
          simp),
        sub1_pass ';' _ (Or.inr (Or.inr (by
          rw [nextSig_ws_cons _ (by decide)]
          exact nextSig_dumpEntries rest ind suffix hrest hsuf))),
        sub1_pass '\n' _ (Or.inr (Or.inl (by decide))),
        ihrest ind suffix hrest hsuf]
    | num n hn =>
      have hw1 : (dumpScalar (JVal.num n)).all w1Char = true :=
        all_safeChar_w1 (scalarWord_safe (SafeVal.num n hn)
          (fun o h => JVal.noConfusion h)).1
      simp only [dumpEntries, e1Entries, List.append_assoc, List.cons_append,
        List.nil_append]
      rw [sub1_append_ws _ _ (pad_ws ind),
        sub1_append_word _ _ hkw1 (by
          rw [nextSig_ws_cons _ (by decide), nextSig_cons_of _ (by decide)]
          simp),
        sub1_pass ' ' _ (Or.inr (Or.inl (by decide))),
        sub1_pass '=' _ (Or.inl rfl),
        sub1_pass ' ' _ (Or.inr (Or.inl (by decide))),
        sub1_append_word _ _ hw1 (by
          rw [nextSig_cons_of _ (by decide)]
          simp),
        sub1_pass ';' _ (Or.inr (Or.inr (by
          rw [nextSig_ws_cons _ (by decide)]
          exact nextSig_dumpEntries rest ind suffix hrest hsuf))),
        sub1_pass '\n' _ (Or.inr (Or.inl (by decide))),
        ihrest ind suffix hrest hsuf]
    | obj o' ho' =>
      simp only [dumpEntries, e1Entries, List.append_assoc, List.cons_append,
        List.nil_append]
      rw [sub1_append_ws _ _ (pad_ws ind),
        sub1_word_brace _ _ hkw1 hkne,
        sub1_pass '\n' _ (Or.inr (Or.inl (by decide))),
        ihv o' rfl (ind + 1) _ ho' (by
          rw [nextSig_append_ws _ (pad_ws ind), nextSig_cons_of _ (by decide)]
          simp),
        sub1_append_ws _ _ (pad_ws ind),
        sub1_pass '\x7d' _ (Or.inr (Or.inr (by
          rw [nextSig_ws_cons _ (by decide)]
          exact nextSig_dumpEntries rest ind suffix hrest hsuf))),
        sub1_pass '\n' _ (Or.inr (Or.inl (by decide))),
        ihrest ind suffix hrest hsuf]

theorem pad_ne_semi (ind : Nat) : (pad ind).all (· ≠ ';') = true := by
  rw [List.all_eq_true]
  intro x hx
  simp only [pad] at hx
  rw [List.eq_of_mem_replicate hx]
  decide

theorem pad_ne_rb (ind : Nat) : (pad ind).all (· ≠ '\x7d') = true := by
  rw [List.all_eq_true]
  intro x hx
  simp only [pad] at hx
  rw [List.eq_of_mem_replicate hx]
  decide

theorem all_safe_ne_semi {w : List Char} (h : w.all safeChar = true) :
    w.all (· ≠ ';') = true := by
  rw [List.all_eq_true] at h ⊢
  intro c hc
  have := h c hc
  simp only [safeChar, Bool.and_eq_true, decide_eq_true_eq] at this
  simpa using this.2.2.2.1

theorem all_safe_ne_rb {w : List Char} (h : w.all safeChar = true) :
    w.all (· ≠ '\x7d') = true := by
  rw [List.all_eq_true] at h ⊢
  intro c hc
  have := h c hc
  simp only [safeChar, Bool.and_eq_true, decide_eq_true_eq] at this
  simpa using this.2.2.2.2.2.1

/-- The first significant character after `sub1` of a block body is
never `}` (it is the first key's head character). -/
theorem nextSig_e1Entries (o : JObj) (ind : Nat) (suffix : List Char)
    (ho : SafeObj o) (hsuf : nextSig suffix ≠ some '\x7d') :
    nextSig (e1Entries o ind ++ suffix) ≠ some '\x7d' := by
  cases ho with
  | nil => simpa using hsuf
  | cons k v rest hk hv hrest hmem =>
    obtain ⟨c, w', hkd, hc⟩ : ∃ c w', k.data = c :: w' ∧ safeChar c = true := by
      rcases hd : k.data with _ | ⟨c, w'⟩
      · exact absurd hd (safeWord_ne hk)
      · refine ⟨c, w', rfl, ?_⟩
        have := safeWord_all hk
        rw [hd, List.all_cons, Bool.and_eq_true] at this
        exact this.1
    have hcw : isPyWs c = false := safeChar_not_ws hc
    have hcb : c ≠ '\x7d' := by
      simp only [safeChar, Bool.and_eq_true, decide_eq_true_eq] at hc
      exact hc.2.2.2.2.2.1
    cases hv with
    | str s hs =>
      simp only [e1Entries, hkd, List.append_assoc, List.cons_append, List.nil_append]
      rw [nextSig_append_ws _ (pad_ws ind), nextSig_cons_of _ hcw]
      simp [hcb]
    | num n hn =>
      simp only [e1Entries, hkd, List.append_assoc, List.cons_append, List.nil_append]
      rw [nextSig_append_ws _ (pad_ws ind), nextSig_cons_of _ hcw]
      simp [hcb]
    | obj o' ho' =>
      simp only [e1Entries, hkd, List.append_assoc, List.cons_append, List.nil_append]
      rw [nextSig_append_ws _ (pad_ws ind), nextSig_cons_of _ hcw]
      simp [hcb]

theorem all_ws_ne_semi {p : List Char} (hp : p.all isPyWs = true) :
    p.all (· ≠ ';') = true := by
  rw [List.all_eq_true] at hp ⊢
  intro c hc
  have := isPyWs_toNat (hp c hc)
  simp only [decide_eq_true_eq]
  apply toNat_ne_char
  intro hh
  rw [hh] at this
  revert this
  decide

theorem e1_nil (ind : Nat) : e1Entries .nil ind = [] := rfl

theorem e1_cons_obj (k : String) (o' rest : JObj) (ind : Nat) :
    e1Entries (.cons k (.obj o') rest) ind =
      (pad ind ++ k.data ++ ['=', '\x7b', '\n'] ++ e1Entries o' (ind + 1) ++
        pad ind ++ ['\x7d', '\n']) ++ e1Entries rest ind := rfl

theorem e1_cons_str (k : String) (s : String) (rest : JObj) (ind : Nat) :
    e1Entries (.cons k (.str s) rest) ind =
      (pad ind ++ k.data ++ [' ', '=', ' '] ++ dumpScalar (.str s) ++ [';', '\n']) ++
        e1Entries rest ind := rfl

theorem e1_cons_num (k : String) (n : Int) (rest : JObj) (ind : Nat) :
    e1Entries (.cons k (.num n) rest) ind =
      (pad ind ++ k.data ++ [' ', '=', ' '] ++ dumpScalar (.num n) ++ [';', '\n']) ++
        e1Entries rest ind := rfl

theorem e2_cons_obj (k : String) (o' rest : JObj) (ind : Nat) (cl : Bool) :
    e2Entries (.cons k (.obj o') rest) ind cl =
      pad ind ++ k.data ++ ['=', '\x7b', '\n'] ++ e2Entries o' (ind + 1) true ++
        (if endsScalar o' then [] else pad ind) ++ ['\x7d', '\n'] ++
        e2Entries rest ind cl := by
  cases rest <;> rfl

theorem e2_cons_str_nil (k s : String) (ind : Nat) (cl : Bool) :
    e2Entries (.cons k (.str s) .nil) ind cl =
      pad ind ++ k.data ++ [' ', '=', ' '] ++ dumpScalar (.str s) ++
        (if cl then [] else [';', '\n']) := rfl

theorem e2_cons_str_cons (k s : String) (k2 : String) (v2 : JVal) (r2 : JObj)
    (ind : Nat) (cl : Bool) :
    e2Entries (.cons k (.str s) (.cons k2 v2 r2)) ind cl =
      pad ind ++ k.data ++ [' ', '=', ' '] ++ dumpScalar (.str s) ++ [';', '\n'] ++
        e2Entries (.cons k2 v2 r2) ind cl := rfl

theorem e2_cons_num_nil (k : String) (n : Int) (ind : Nat) (cl : Bool) :
    e2Entries (.cons k (.num n) .nil) ind cl =
      pad ind ++ k.data ++ [' ', '=', ' '] ++ dumpScalar (.num n) ++
        (if cl then [] else [';', '\n']) := rfl

theorem e2_cons_num_cons (k : String) (n : Int) (k2 : String) (v2 : JVal) (r2 : JObj)
    (ind : Nat) (cl : Bool) :
    e2Entries (.cons k (.num n) (.cons k2 v2 r2)) ind cl =
      pad ind ++ k.data ++ [' ', '=', ' '] ++ dumpScalar (.num n) ++ [';', '\n'] ++
        e2Entries (.cons k2 v2 r2) ind cl := rfl

theorem endsScalar_cons_obj (k : String) (o' rest : JObj) :
    endsScalar (.cons k (.obj o') rest) = endsScalar rest := by
  cases rest <;> rfl

theorem endsScalar_str_nil (k s : String) : endsScalar (.cons k (.str s) .nil) = true := rfl

theorem endsScalar_num_nil (k : String) (n : Int) :
    endsScalar (.cons k (.num n) .nil) = true := rfl

theorem endsScalar_cons_cons (k : String) (v : JVal) (k2 : String) (v2 : JVal) (r2 : JObj) :
    endsScalar (.cons k v (.cons k2 v2 r2)) = endsScalar (.cons k2 v2 r2) := by
  cases v <;> rfl

/-- The first significant character of the `sub1` image of a nonempty
block body is its first key's head character, never `}` — whatever
follows the body. -/
theorem nextSig_e1_cons (k2 : String) (v2 : JVal) (r2 : JObj) (ind : Nat)
    (suffix : List Char) (ho : SafeObj (.cons k2 v2 r2)) :
    nextSig (e1Entries (.cons k2 v2 r2) ind ++ suffix) ≠ some '\x7d' := by
  rcases ho with _ | ⟨_, _, _, hk, hv, hrest, hmem⟩
  obtain ⟨c, w', hkd, hc⟩ : ∃ c w', k2.data = c :: w' ∧ safeChar c = true := by
    rcases hd : k2.data with _ | ⟨c, w'⟩
    · exact absurd hd (safeWord_ne hk)
    · refine ⟨c, w', rfl, ?_⟩
      have := safeWord_all hk
      rw [hd, List.all_cons, Bool.and_eq_true] at this
      exact this.1
  have hcw : isPyWs c = false := safeChar_not_ws hc
  have hcb : c ≠ '\x7d' := by
    simp only [safeChar, Bool.and_eq_true, decide_eq_true_eq] at hc
    exact hc.2.2.2.2.2.1
  cases hv with
  | str s hs =>
    simp only [e1Entries, hkd, List.append_assoc, List.cons_append, List.nil_append]
    rw [nextSig_append_ws _ (pad_ws ind), nextSig_cons_of _ hcw]
    simp [hcb]
  | num n hn =>
    simp only [e1Entries, hkd, List.append_assoc, List.cons_append, List.nil_append]
    rw [nextSig_append_ws _ (pad_ws ind), nextSig_cons_of _ hcw]
    simp [hcb]
  | obj o' ho' =>
    simp only [e1Entries, hkd, List.append_assoc, List.cons_append, List.nil_append]
    rw [nextSig_append_ws _ (pad_ws ind), nextSig_cons_of _ hcw]
    simp [hcb]

/-- Stage 2 of the regex pipeline on the `sub1` image of a safe dict:
`sub2` deletes a scalar entry's `;` exactly when (up to whitespace) a
closing brace follows, consuming the intervening whitespace. -/
theorem sub2_e1Entries (o : JObj) : ∀ ind : Nat, SafeObj o →
    (∀ suffix, nextSig suffix ≠ some '\x7d' →
      sub2 (e1Entries o ind ++ suffix) = e2Entries o ind false ++ sub2 suffix) ∧
    (∀ p tail, p.all isPyWs = true →
      sub2 (e1Entries o ind ++ (p ++ '\x7d' :: tail)) =
        e2Entries o ind true ++
          ((if endsScalar o then [] else p) ++ '\x7d' :: sub2 tail)) := by
  induction o using jobjIndFull with
  | nil =>
    intro ind ho
    constructor
    · intro suffix hsuf
      rfl
    · intro p tail hp
      show sub2 (p ++ '\x7d' :: tail) = [] ++ (p ++ '\x7d' :: sub2 tail)
      rw [sub2_append _ _ (all_ws_ne_semi hp), sub2_pass '\x7d' _ (Or.inl (by decide))]
      rfl
  | cons k v rest ihv ihrest =>
    intro ind ho
    rcases ho with _ | ⟨_, _, _, hk, hv, hrest, hmem⟩
    have hkdne : k.data.all (· ≠ ';') = true := all_safe_ne_semi (safeWord_all hk)
    cases hv with
    | str s hs =>
      have hwne : (dumpScalar (JVal.str s)).all (· ≠ ';') = true :=
        all_safe_ne_semi (scalarWord_safe (SafeVal.str s hs)
          (fun o h => JVal.noConfusion h)).1
      cases rest with
      | nil =>
        constructor
        · intro suffix hsuf
          rw [e1_cons_str, e1_nil, e2_cons_str_nil]
          simp only [List.append_assoc, List.cons_append, List.nil_append,
            List.append_nil]
          rw [sub2_append _ _ (pad_ne_semi ind), sub2_append _ _ hkdne,
            sub2_pass ' ' _ (Or.inl (by decide)),
            sub2_pass '=' _ (Or.inl (by decide)),
            sub2_pass ' ' _ (Or.inl (by decide)),
            sub2_append _ _ hwne,
            sub2_pass ';' _ (Or.inr (by
              rw [nextSig_ws_cons _ (by decide)]
              exact hsuf)),
            sub2_pass '\n' _ (Or.inl (by decide))]
          simp
        · intro p tail hp
          rw [e1_cons_str, e1_nil, e2_cons_str_nil, endsScalar_str_nil]
          simp only [List.append_assoc, List.cons_append, List.nil_append,
            List.append_nil]
          have hdt : (('\n' :: (p ++ '\x7d' :: tail)).dropWhile isPyWs).tail = tail := by
            have hdw := @dropWhile_ws_append ('\n' :: p) '\x7d' tail
              (by simp only [List.all_cons, hp, Bool.and_true]; decide) (by decide)
            rw [show ('\n' :: (p ++ '\x7d' :: tail)) = ('\n' :: p) ++ '\x7d' :: tail
              from by simp, hdw, List.tail_cons]
          rw [sub2_append _ _ (pad_ne_semi ind), sub2_append _ _ hkdne,
            sub2_pass ' ' _ (Or.inl (by decide)),
            sub2_pass '=' _ (Or.inl (by decide)),
            sub2_pass ' ' _ (Or.inl (by decide)),
            sub2_append _ _ hwne,
            sub2_match _ (by
              rw [nextSig_ws_cons _ (by decide), nextSig_append_ws _ hp]
              exact nextSig_cons_of _ (by decide)),
            hdt]
          simp
      | cons k2 v2 r2 =>
        constructor
        · intro suffix hsuf
          rw [e1_cons_str, e2_cons_str_cons]
          simp only [List.append_assoc, List.cons_append, List.nil_append]
          rw [sub2_append _ _ (pad_ne_semi ind), sub2_append _ _ hkdne,
            sub2_pass ' ' _ (Or.inl (by decide)),
            sub2_pass '=' _ (Or.inl (by decide)),
            sub2_pass ' ' _ (Or.inl (by decide)),
            sub2_append _ _ hwne,
            sub2_pass ';' _ (Or.inr (by
              rw [nextSig_ws_cons _ (by decide)]
              exact nextSig_e1_cons k2 v2 r2 ind suffix hrest)),
            sub2_pass '\n' _ (Or.inl (by decide)),
            (ihrest ind hrest).1 suffix hsuf]
        · intro p tail hp
          rw [e1_cons_str, e2_cons_str_cons, endsScalar_cons_cons]
          simp only [List.append_assoc, List.cons_append, List.nil_append]
          rw [sub2_append _ _ (pad_ne_semi ind), sub2_append _ _ hkdne,
            sub2_pass ' ' _ (Or.inl (by decide)),
            sub2_pass '=' _ (Or.inl (by decide)),
            sub2_pass ' ' _ (Or.inl (by decide)),
            sub2_append _ _ hwne,
            sub2_pass ';' _ (Or.inr (by
              rw [nextSig_ws_cons _ (by decide)]
              exact nextSig_e1_cons k2 v2 r2 ind _ hrest)),
            sub2_pass '\n' _ (Or.inl (by decide)),
            (ihrest ind hrest).2 p tail hp]
    | num n hn =>
      have hwne : (dumpScalar (JVal.num n)).all (· ≠ ';') = true :=
        all_safe_ne_semi (scalarWord_safe (SafeVal.num n hn)
          (fun o h => JVal.noConfusion h)).1
      cases rest with
      | nil =>
        constructor
        · intro suffix hsuf
          rw [e1_cons_num, e1_nil, e2_cons_num_nil]
          simp only [List.append_assoc, List.cons_append, List.nil_append,
            List.append_nil]
          rw [sub2_append _ _ (pad_ne_semi ind), sub2_append _ _ hkdne,
            sub2_pass ' ' _ (Or.inl (by decide)),
            sub2_pass '=' _ (Or.inl (by decide)),
            sub2_pass ' ' _ (Or.inl (by decide)),
            sub2_append _ _ hwne,
            sub2_pass ';' _ (Or.inr (by
              rw [nextSig_ws_cons _ (by decide)]
              exact hsuf)),
            sub2_pass '\n' _ (Or.inl (by decide))]
          simp
        · intro p tail hp
          rw [e1_cons_num, e1_nil, e2_cons_num_nil, endsScalar_num_nil]
          simp only [List.append_assoc, List.cons_append, List.nil_append,
            List.append_nil]
          have hdt : (('\n' :: (p ++ '\x7d' :: tail)).dropWhile isPyWs).tail = tail := by
            have hdw := @dropWhile_ws_append ('\n' :: p) '\x7d' tail
              (by simp only [List.all_cons, hp, Bool.and_true]; decide) (by decide)
            rw [show ('\n' :: (p ++ '\x7d' :: tail)) = ('\n' :: p) ++ '\x7d' :: tail
              from by simp, hdw, List.tail_cons]
          rw [sub2_append _ _ (pad_ne_semi ind), sub2_append _ _ hkdne,
            sub2_pass ' ' _ (Or.inl (by decide)),
            sub2_pass '=' _ (Or.inl (by decide)),
            sub2_pass ' ' _ (Or.inl (by decide)),
            sub2_append _ _ hwne,
            sub2_match _ (by
              rw [nextSig_ws_cons _ (by decide), nextSig_append_ws _ hp]
              exact nextSig_cons_of _ (by decide)),
            hdt]
          simp
      | cons k2 v2 r2 =>
        constructor
        · intro suffix hsuf
          rw [e1_cons_num, e2_cons_num_cons]
          simp only [List.append_assoc, List.cons_append, List.nil_append]
          rw [sub2_append _ _ (pad_ne_semi ind), sub2_append _ _ hkdne,
            sub2_pass ' ' _ (Or.inl (by decide)),
            sub2_pass '=' _ (Or.inl (by decide)),
            sub2_pass ' ' _ (Or.inl (by decide)),
            sub2_append _ _ hwne,
            sub2_pass ';' _ (Or.inr (by
              rw [nextSig_ws_cons _ (by decide)]
              exact nextSig_e1_cons k2 v2 r2 ind suffix hrest)),
            sub2_pass '\n' _ (Or.inl (by decide)),
            (ihrest ind hrest).1 suffix hsuf]
        · intro p tail hp
          rw [e1_cons_num, e2_cons_num_cons, endsScalar_cons_cons]
          simp only [List.append_assoc, List.cons_append, List.nil_append]
          rw [sub2_append _ _ (pad_ne_semi ind), sub2_append _ _ hkdne,
            sub2_pass ' ' _ (Or.inl (by decide)),
            sub2_pass '=' _ (Or.inl (by decide)),
            sub2_pass ' ' _ (Or.inl (by decide)),
            sub2_append _ _ hwne,
            sub2_pass ';' _ (Or.inr (by
              rw [nextSig_ws_cons _ (by decide)]
              exact nextSig_e1_cons k2 v2 r2 ind _ hrest)),
            sub2_pass '\n' _ (Or.inl (by decide)),
            (ihrest ind hrest).2 p tail hp]
    | obj o' ho' =>
      constructor
      · intro suffix hsuf
        rw [e1_cons_obj, e2_cons_obj]
        simp only [List.append_assoc, List.cons_append, List.nil_append]
        rw [sub2_append _ _ (pad_ne_semi ind), sub2_append _ _ hkdne,
          sub2_pass '=' _ (Or.inl (by decide)),
          sub2_pass '\x7b' _ (Or.inl (by decide)),
          sub2_pass '\n' _ (Or.inl (by decide)),
          (ihv o' rfl (ind + 1) ho').2 (pad ind)
            ('\n' :: (e1Entries rest ind ++ suffix)) (pad_ws ind),
          sub2_pass '\n' _ (Or.inl (by decide)),
          (ihrest ind hrest).1 suffix hsuf]
      · intro p tail hp
        rw [e1_cons_obj, e2_cons_obj, endsScalar_cons_obj]
        simp only [List.append_assoc, List.cons_append, List.nil_append]
        rw [sub2_append _ _ (pad_ne_semi ind), sub2_append _ _ hkdne,
          sub2_pass '=' _ (Or.inl (by decide)),
          sub2_pass '\x7b' _ (Or.inl (by decide)),
          sub2_pass '\n' _ (Or.inl (by decide)),
          (ihv o' rfl (ind + 1) ho').2 (pad ind)
            ('\n' :: (e1Entries rest ind ++ (p ++ '\x7d' :: tail))) (pad_ws ind),
          sub2_pass '\n' _ (Or.inl (by decide)),
          (ihrest ind hrest).2 p tail hp]

/-- The text of an `e2Entries` block body after its first key. -/
def entryTail2 (v : JVal) (rest : JObj) (ind : Nat) (cl : Bool) : List Char :=
  match v, rest with
  | .obj o, rest =>
    ['=', '\x7b', '\n'] ++ e2Entries o (ind + 1) true ++
      (if endsScalar o then [] else pad ind) ++ ['\x7d', '\n'] ++ e2Entries rest ind cl
  | sc, .nil => [' ', '=', ' '] ++ dumpScalar sc ++ (if cl then [] else [';', '\n'])
  | sc, rest => [' ', '=', ' '] ++ dumpScalar sc ++ [';', '\n'] ++ e2Entries rest ind cl

/-- The text of an `e3Entries` block body after its first key. -/
def entryTail3 (v : JVal) (rest : JObj) (ind : Nat) (cl : Bool) : List Char :=
  match v, rest with
  | .obj o, .nil =>
    ['=', '\x7b', '\n'] ++ e3Entries o (ind + 1) true true ++
      (if endsScalar o then [] else pad ind) ++ ['\x7d', '\n']
  | .obj o, rest =>
    ['=', '\x7b', '\n'] ++ e3Entries o (ind + 1) true true ++
      (if endsScalar o then [] else pad ind) ++ ['\x7d', ';'] ++ e3Entries rest ind cl false
  | sc, .nil => [' ', '=', ' '] ++ dumpScalar sc ++ (if cl then [] else [';', '\n'])
  | sc, rest => [' ', '=', ' '] ++ dumpScalar sc ++ [';', '\n'] ++ e3Entries rest ind cl true

theorem e2_split (k : String) (v : JVal) (rest : JObj) (ind : Nat) (cl : Bool) :
    e2Entries (.cons k v rest) ind cl = pad ind ++ (k.data ++ entryTail2 v rest ind cl) := by
  cases v <;> cases rest <;> simp [e2Entries, entryTail2, List.append_assoc]

theorem e3_split (k : String) (v : JVal) (rest : JObj) (ind : Nat) (cl padded : Bool) :
    e3Entries (.cons k v rest) ind cl padded =
      (if padded then pad ind else []) ++ (k.data ++ entryTail3 v rest ind cl) := by
  cases v <;> cases rest <;> simp [e3Entries, entryTail3, List.append_assoc]

theorem key_head {k : String} (hk : safeWord k.data = true) :
    ∃ c w', k.data = c :: w' ∧ safeChar c = true ∧ w'.all safeChar = true := by
  rcases hd : k.data with _ | ⟨c, w'⟩
  · exact absurd hd (safeWord_ne hk)
  · have := safeWord_all hk
    rw [hd, List.all_cons, Bool.and_eq_true] at this
    exact ⟨c, w', rfl, this.1, this.2⟩

theorem nextSig_if_pad_rb (b : Bool) (ind : Nat) (X : List Char) :
    nextSig ((if b then [] else pad ind) ++ '\x7d' :: X) = some '\x7d' := by
  cases b
  · show nextSig (pad ind ++ '\x7d' :: X) = some '\x7d'
    rw [nextSig_append_ws _ (pad_ws ind)]
    exact nextSig_cons_of _ (by decide)
  · show nextSig ([] ++ '\x7d' :: X) = some '\x7d'
    rw [List.nil_append]
    exact nextSig_cons_of _ (by decide)

theorem sub3_if_pad (b : Bool) (ind : Nat) (X : List Char) :
    sub3 ((if b then [] else pad ind) ++ X) = (if b then [] else pad ind) ++ sub3 X := by
  cases b
  · show sub3 (pad ind ++ X) = pad ind ++ sub3 X
    exact sub3_append _ _ (pad_ne_rb ind)
  · rfl

/-- Stage 3 of the regex pipeline on the `sub2` image of a safe dict:
`sub3` inserts `;` after a closing brace exactly when a further entry
follows, consuming the whitespace before that entry's key. -/
theorem sub3_e2Entries (o : JObj) : ∀ (ind : Nat) (cl : Bool) (suffix : List Char),
    SafeObj o → (nextSig suffix = none ∨ nextSig suffix = some '\x7d') →
    (sub3 (e2Entries o ind cl ++ suffix) = e3Entries o ind cl true ++ sub3 suffix) ∧
    (∀ (v' : JVal) (rest' : JObj), (∃ k', o = .cons k' v' rest') →
      sub3 (entryTail2 v' rest' ind cl ++ suffix) =
        entryTail3 v' rest' ind cl ++ sub3 suffix) := by
  induction o using jobjIndFull with
  | nil =>
    intro ind cl suffix ho hok
    constructor
    · rfl
    · rintro v' rest' ⟨k', hk'⟩
      exact JObj.noConfusion hk'
  | cons k v rest ihv ihrest =>
    intro ind cl suffix ho hok
    rcases ho with _ | ⟨_, _, _, hk, hv, hrest, hmem⟩
    have hkdnrb : k.data.all (· ≠ '\x7d') = true := all_safe_ne_rb (safeWord_all hk)
    have hwalk : sub3 (entryTail2 v rest ind cl ++ suffix) =
        entryTail3 v rest ind cl ++ sub3 suffix := by
      cases hv with
      | str s hs =>
        have hwnrb : (dumpScalar (JVal.str s)).all (· ≠ '\x7d') = true :=
          all_safe_ne_rb (scalarWord_safe (SafeVal.str s hs)
            (fun o h => JVal.noConfusion h)).1
        cases rest with
        | nil =>
          show sub3 (([' ', '=', ' '] ++ dumpScalar (JVal.str s) ++
              (if cl then [] else [';', '\n'])) ++ suffix) = _
          simp only [List.append_assoc, List.cons_append, List.nil_append]
          rw [sub3_pass_ne ' ' _ (by decide), sub3_pass_ne '=' _ (by decide),
            sub3_pass_ne ' ' _ (by decide),
            sub3_append _ _ hwnrb,
            sub3_append _ _ (show (if cl then [] else [';', '\n']).all (· ≠ '\x7d') = true
              by cases cl <;> decide)]
          rw [show entryTail3 (JVal.str s) JObj.nil ind cl =
            [' ', '=', ' '] ++ dumpScalar (JVal.str s) ++ (if cl then [] else [';', '\n'])
            from rfl]
          simp only [List.append_assoc, List.cons_append, List.nil_append]
        | cons k2 v2 r2 =>
          show sub3 (([' ', '=', ' '] ++ dumpScalar (JVal.str s) ++ [';', '\n'] ++
              e2Entries (.cons k2 v2 r2) ind cl) ++ suffix) = _
          simp only [List.append_assoc, List.cons_append, List.nil_append]
          rw [sub3_pass_ne ' ' _ (by decide), sub3_pass_ne '=' _ (by decide),
            sub3_pass_ne ' ' _ (by decide),
            sub3_append _ _ hwnrb,
            sub3_pass_ne ';' _ (by decide), sub3_pass_ne '\n' _ (by decide),
            (ihrest ind cl suffix hrest hok).1]
          rw [show entryTail3 (JVal.str s) (JObj.cons k2 v2 r2) ind cl =
            [' ', '=', ' '] ++ dumpScalar (JVal.str s) ++ [';', '\n'] ++
              e3Entries (JObj.cons k2 v2 r2) ind cl true from rfl]
          simp only [List.append_assoc, List.cons_append, List.nil_append]
      | num n hn =>
        have hwnrb : (dumpScalar (JVal.num n)).all (· ≠ '\x7d') = true :=
          all_safe_ne_rb (scalarWord_safe (SafeVal.num n hn)
            (fun o h => JVal.noConfusion h)).1
        cases rest with
        | nil =>
          show sub3 (([' ', '=', ' '] ++ dumpScalar (JVal.num n) ++
              (if cl then [] else [';', '\n'])) ++ suffix) = _
          simp only [List.append_assoc, List.cons_append, List.nil_append]
          rw [sub3_pass_ne ' ' _ (by decide), sub3_pass_ne '=' _ (by decide),
            sub3_pass_ne ' ' _ (by decide),
            sub3_append _ _ hwnrb,
            sub3_append _ _ (show (if cl then [] else [';', '\n']).all (· ≠ '\x7d') = true
              by cases cl <;> decide)]
          rw [show entryTail3 (JVal.num n) JObj.nil ind cl =
            [' ', '=', ' '] ++ dumpScalar (JVal.num n) ++ (if cl then [] else [';', '\n'])
            from rfl]
          simp only [List.append_assoc, List.cons_append, List.nil_append]
        | cons k2 v2 r2 =>
          show sub3 (([' ', '=', ' '] ++ dumpScalar (JVal.num n) ++ [';', '\n'] ++
              e2Entries (.cons k2 v2 r2) ind cl) ++ suffix) = _
          simp only [List.append_assoc, List.cons_append, List.nil_append]
          rw [sub3_pass_ne ' ' _ (by decide), sub3_pass_ne '=' _ (by decide),
            sub3_pass_ne ' ' _ (by decide),
            sub3_append _ _ hwnrb,
            sub3_pass_ne ';' _ (by decide), sub3_pass_ne '\n' _ (by decide),
            (ihrest ind cl suffix hrest hok).1]
          rw [show entryTail3 (JVal.num n) (JObj.cons k2 v2 r2) ind cl =
            [' ', '=', ' '] ++ dumpScalar (JVal.num n) ++ [';', '\n'] ++
              e3Entries (JObj.cons k2 v2 r2) ind cl true from rfl]
          simp only [List.append_assoc, List.cons_append, List.nil_append]
      | obj o' ho' =>
        cases rest with
        | nil =>
          show sub3 ((['=', '\x7b', '\n'] ++ e2Entries o' (ind + 1) true ++
              (if endsScalar o' then [] else pad ind) ++ ['\x7d', '\n'] ++
              e2Entries .nil ind cl) ++ suffix) = _
          simp only [List.append_assoc, List.cons_append, List.nil_append,
            show e2Entries .nil ind cl = [] from rfl]
          rw [sub3_pass_ne '=' _ (by decide), sub3_pass_ne '\x7b' _ (by decide),
            sub3_pass_ne '\n' _ (by decide),
            (ihv o' rfl (ind + 1) true
              ((if endsScalar o' then [] else pad ind) ++ '\x7d' :: '\n' :: suffix)
              ho' (Or.inr (nextSig_if_pad_rb _ ind _))).1,
            sub3_if_pad,
            sub3_pass_brace _ (by
              rw [nextSig_ws_cons _ (by decide)]
              exact hok),
            sub3_pass_ne '\n' _ (by decide)]
          show _ = (['=', '\x7b', '\n'] ++ e3Entries o' (ind + 1) true true ++
              (if endsScalar o' then [] else pad ind) ++ ['\x7d', '\n']) ++ sub3 suffix
          simp only [List.append_assoc, List.cons_append, List.nil_append]
        | cons k2 v2 r2 =>
          rcases hrest with _ | ⟨_, _, _, hk2, hv2, hr2, hmem2⟩
          obtain ⟨c, w', hkd2, hc, hw'⟩ := key_head hk2
          have hrest' : SafeObj (.cons k2 v2 r2) := .cons _ _ _ hk2 hv2 hr2 hmem2
          have hcw : isPyWs c = false := safeChar_not_ws hc
          have hcb : c ≠ '\x7d' := by
            simp only [safeChar, Bool.and_eq_true, decide_eq_true_eq] at hc
            exact hc.2.2.2.2.2.1
          have hsig : nextSig ('\n' :: (e2Entries (.cons k2 v2 r2) ind cl ++ suffix)) =
              some c := by
            rw [nextSig_ws_cons _ (by decide), e2_split, hkd2]
            simp only [List.append_assoc, List.cons_append]
            rw [nextSig_append_ws _ (pad_ws ind)]
            exact nextSig_cons_of _ hcw
          have hdt : ((('\n' :: (e2Entries (.cons k2 v2 r2) ind cl ++ suffix)).dropWhile
              isPyWs)).tail = w' ++ (entryTail2 v2 r2 ind cl ++ suffix) := by
            rw [e2_split, hkd2]
            simp only [List.append_assoc, List.cons_append]
            rw [show ('\n' :: (pad ind ++ (c :: (w' ++ (entryTail2 v2 r2 ind cl ++ suffix))))) =
                ('\n' :: pad ind) ++ c :: (w' ++ (entryTail2 v2 r2 ind cl ++ suffix))
              from by simp,
              @dropWhile_ws_append ('\n' :: pad ind) c _
                (by simp only [List.all_cons, pad_ws ind, Bool.and_true]; decide) hcw,
              List.tail_cons]
          show sub3 ((['=', '\x7b', '\n'] ++ e2Entries o' (ind + 1) true ++
              (if endsScalar o' then [] else pad ind) ++ ['\x7d', '\n'] ++
              e2Entries (.cons k2 v2 r2) ind cl) ++ suffix) = _
          simp only [List.append_assoc, List.cons_append, List.nil_append]
          rw [sub3_pass_ne '=' _ (by decide), sub3_pass_ne '\x7b' _ (by decide),
            sub3_pass_ne '\n' _ (by decide),
            (ihv o' rfl (ind + 1) true
              ((if endsScalar o' then [] else pad ind) ++
                '\x7d' :: '\n' :: (e2Entries (.cons k2 v2 r2) ind cl ++ suffix))
              ho' (Or.inr (nextSig_if_pad_rb _ ind _))).1,
            sub3_if_pad,
            sub3_match _ c hsig hcb,
            hdt,
            sub3_append _ _ (all_safe_ne_rb hw'),
            (ihrest ind cl suffix hrest' hok).2 v2 r2 ⟨k2, rfl⟩]
          show _ = (['=', '\x7b', '\n'] ++ e3Entries o' (ind + 1) true true ++
              (if endsScalar o' then [] else pad ind) ++ ['\x7d', ';'] ++
              e3Entries (.cons k2 v2 r2) ind cl false) ++ sub3 suffix
          rw [e3_split]
          simp only [List.append_assoc, List.cons_append, List.nil_append, hkd2]
          rfl
    refine ⟨?_, ?_⟩
    · rw [e2_split, e3_split]
      show sub3 ((pad ind ++ (k.data ++ entryTail2 v rest ind cl)) ++ suffix) =
        (pad ind ++ (k.data ++ entryTail3 v rest ind cl)) ++ sub3 suffix
      simp only [List.append_assoc]
      rw [sub3_append _ _ (pad_ne_rb ind), sub3_append _ _ hkdnrb, hwalk]
    · rintro v' rest' ⟨k', hk'⟩
      injection hk' with h1 h2 h3
      subst h2
      subst h3
      exact hwalk

/-! #### Stage 4: spacing out the significant characters and splitting -/

theorem sub4_append (a b : List Char) : sub4 (a ++ b) = sub4 a ++ sub4 b := by
  simp [sub4]

theorem sub4_id {w : List Char}
    (h : w.all (fun c => ¬(c = ';' ∨ c = '\x7b' ∨ c = '\x7d' ∨ c = '=')) = true) :
    sub4 w = w := by
  induction w with
  | nil => rfl
  | cons c w' ih =>
    simp only [List.all_cons, Bool.and_eq_true] at h
    have hc : ¬(c = ';' ∨ c = '\x7b' ∨ c = '\x7d' ∨ c = '=') := by
      simpa using h.1
    simp only [sub4, List.map_cons, List.flatten_cons, if_neg hc]
    simpa [sub4] using ih h.2

theorem sub4_safe {w : List Char} (h : w.all safeChar = true) : sub4 w = w := by
  apply sub4_id
  rw [List.all_eq_true] at h ⊢
  intro c hc
  have := h c hc
  simp only [safeChar, Bool.and_eq_true, decide_eq_true_eq] at this
  simp [this.2.2.2.1, this.2.2.2.2.1, this.2.2.2.2.2.1, this.2.2.2.2.2.2.1]

theorem sub4_pad (ind : Nat) : sub4 (pad ind) = pad ind := by
  apply sub4_id
  rw [List.all_eq_true]
  intro c hc
  simp only [pad] at hc
  rw [List.eq_of_mem_replicate hc]
  decide

theorem sub4_ifpad (b : Bool) (ind : Nat) :
    sub4 (if b then pad ind else []) = (if b then pad ind else []) := by
  cases b
  · rw [if_neg (show ¬(false = true) by decide)]
    rfl
  · rw [if_pos rfl]
    exact sub4_pad ind

theorem ifpad_ws (b : Bool) (ind : Nat) :
    (if b then pad ind else []).all isPyWs = true := by
  cases b <;> simp [pad_ws ind]

theorem ifes_ws (b : Bool) (ind : Nat) :
    (if b then [] else pad ind).all isPyWs = true := by
  cases b <;> simp [pad_ws ind]

theorem sub4_ifes (b : Bool) (ind : Nat) :
    sub4 (if b then [] else pad ind) = (if b then [] else pad ind) := by
  cases b
  · rw [if_neg (show ¬(false = true) by decide)]
    exact sub4_pad ind
  · rw [if_pos rfl]
    rfl

theorem pad_append_space (ind : Nat) (X : List Char) :
    ∃ s', pad ind ++ ' ' :: X = ' ' :: s' := by
  simp only [pad]
  cases h : ind * 2 with
  | zero => exact ⟨X, rfl⟩
  | succ m => exact ⟨List.replicate m ' ' ++ ' ' :: X, rfl⟩

theorem all_safe_not_ws {w : List Char} (h : w.all safeChar = true) :
    w.all (fun c => ! isPyWs c) = true := by
  rw [List.all_eq_true] at h ⊢
  intro c hc
  simp [safeChar_not_ws (h c hc)]

theorem splitWs_ws_skip (p : List Char) (z : List Char) (hp : p.all isPyWs = true) :
    splitWs (p ++ z) [] = splitWs z [] := by
  induction p with
  | nil => rfl
  | cons c p' ih =>
    simp only [List.all_cons, Bool.and_eq_true] at hp
    rw [List.cons_append]
    show splitWs (c :: (p' ++ z)) [] = splitWs z []
    rw [splitWs, if_pos hp.1, if_pos rfl, ih hp.2]

theorem splitWs_ws1 (c : Char) (T : List Char) (hc : isPyWs c = true) :
    splitWs (c :: T) [] = splitWs T [] := by
  rw [splitWs, if_pos hc, if_pos rfl]

theorem splitWs_word (w : List Char) : ∀ (z acc : List Char),
    w.all (fun c => ! isPyWs c) = true →
    splitWs (w ++ z) acc = splitWs z (w.reverse ++ acc) := by
  induction w with
  | nil => intro z acc _; rfl
  | cons c w' ih =>
    intro z acc hw
    rw [List.all_cons, Bool.and_eq_true] at hw
    have hc : isPyWs c = false := by simpa using hw.1
    rw [List.cons_append]
    show splitWs (c :: (w' ++ z)) acc = _
    rw [splitWs, if_neg (by rw [hc]; exact Bool.false_ne_true), ih _ _ hw.2]
    simp

theorem splitWs_flush (w suffix : List Char)
    (hw : w.all (fun c => ! isPyWs c) = true) (hne : w ≠ [])
    (hsuf : suffix = [] ∨ ∃ s', suffix = ' ' :: s') :
    splitWs (w ++ suffix) [] = w :: splitWs suffix [] := by
  rw [splitWs_word w suffix [] hw, List.append_nil]
  have hrne : w.reverse ≠ [] := by simpa using hne
  rcases hsuf with rfl | ⟨s', rfl⟩
  · rw [splitWs, if_neg hrne]
    simp [splitWs]
  · rw [splitWs, if_pos (by decide), if_neg hrne, List.reverse_reverse,
      splitWs_ws1 ' ' s' (by decide)]

theorem splitWs_tok2 (X : Char) (T : List Char) (hX : isPyWs X = false) :
    splitWs (X :: ' ' :: T) [] = [X] :: splitWs T [] := by
  rw [splitWs, if_neg (by rw [hX]; exact Bool.false_ne_true),
    splitWs, if_pos (by decide), if_neg (by simp)]
  rfl

theorem splitWs_tok (X : Char) (T : List Char) (hX : isPyWs X = false) :
    splitWs (' ' :: X :: ' ' :: T) [] = [X] :: splitWs T [] := by
  rw [splitWs_ws1 ' ' _ (by decide), splitWs_tok2 X T hX]

theorem splitWs_word_emit (w T : List Char)
    (hw : w.all (fun c => ! isPyWs c) = true) (hne : w ≠ []) :
    splitWs (w ++ ' ' :: T) [] = w :: splitWs T [] := by
  rw [splitWs_word w _ [] hw, List.append_nil, splitWs, if_pos (by decide),
    if_neg (by simpa using hne), List.reverse_reverse]

/-- The extra trailing `;` token of an unclosed block body whose last
entry is a scalar. -/
def tokExtra (o : JObj) (cl : Bool) : List (List Char) :=
  if cl then [] else if endsScalar o then [[';']] else []

theorem tokExtra_true (o : JObj) : tokExtra o true = [] := by
  rw [tokExtra, if_pos rfl]

theorem tokExtra_nil (cl : Bool) : tokExtra .nil cl = [] := by
  cases cl
  · rw [tokExtra, if_neg (by decide), if_neg (by decide)]
  · rw [tokExtra, if_pos rfl]

theorem tokExtra_cons_cons (k : String) (v : JVal) (k2 : String) (v2 : JVal) (r2 : JObj)
    (cl : Bool) :
    tokExtra (.cons k v (.cons k2 v2 r2)) cl = tokExtra (.cons k2 v2 r2) cl := by
  simp [tokExtra, endsScalar_cons_cons]

theorem tokExtra_cons_obj (k : String) (o' rest : JObj) (cl : Bool) :
    tokExtra (.cons k (.obj o') rest) cl = tokExtra rest cl := by
  simp [tokExtra, endsScalar_cons_obj]

theorem tok_str_nil (k s : String) :
    tokList (.cons k (.str s) .nil) = [k.data, ['='], dumpScalar (.str s)] := by
  simp [tokList]

theorem tok_num_nil (k : String) (n : Int) :
    tokList (.cons k (.num n) .nil) = [k.data, ['='], dumpScalar (.num n)] := by
  simp [tokList]

theorem tok_str_cons (k s : String) (k2 : String) (v2 : JVal) (r2 : JObj) :
    tokList (.cons k (.str s) (.cons k2 v2 r2)) =
      [k.data, ['='], dumpScalar (.str s), [';']] ++ tokList (.cons k2 v2 r2) := by
  simp [tokList]

theorem tok_num_cons (k : String) (n : Int) (k2 : String) (v2 : JVal) (r2 : JObj) :
    tokList (.cons k (.num n) (.cons k2 v2 r2)) =
      [k.data, ['='], dumpScalar (.num n), [';']] ++ tokList (.cons k2 v2 r2) := by
  simp [tokList]

theorem tok_obj_nil (k : String) (o' : JObj) :
    tokList (.cons k (.obj o') .nil) =
      [k.data, ['='], ['\x7b']] ++ tokList o' ++ [['\x7d']] := by
  simp [tokList]

theorem tok_obj_cons (k : String) (o' : JObj) (k2 : String) (v2 : JVal) (r2 : JObj) :
    tokList (.cons k (.obj o') (.cons k2 v2 r2)) =
      [k.data, ['='], ['\x7b']] ++ tokList o' ++ [['\x7d'], [';']] ++
        tokList (.cons k2 v2 r2) := by
  simp [tokList]

theorem ifes_space (b : Bool) (ind : Nat) (X : List Char) :
    ∃ s', (if b then [] else pad ind) ++ ' ' :: X = ' ' :: s' := by
  cases b
  · rw [if_neg (by decide)]
    exact pad_append_space ind X
  · rw [if_pos rfl]
    exact ⟨X, rfl⟩

theorem sub4_ifsemi (cl : Bool) :
    sub4 (if cl then [] else [';', '\n']) = if cl then [] else [' ', ';', ' ', '\n'] := by
  cases cl
  · rw [if_neg (by decide), if_neg (by decide)]
    rfl
  · rw [if_pos rfl, if_pos rfl]
    rfl

/-- The whitespace-split tokens of the stage-3 text of a safe dict:
`KEY`, `=`, value (or brace) tokens with `;` separators, plus a
trailing `;` exactly when the body is unclosed and ends in a scalar
entry. -/
theorem splitWs_e3 (o : JObj) : ∀ (ind : Nat) (cl padded : Bool) (suffix : List Char),
    SafeObj o → (suffix = [] ∨ ∃ s', suffix = ' ' :: s') →
    splitWs (sub4 (e3Entries o ind cl padded) ++ suffix) [] =
      tokList o ++ (tokExtra o cl ++ splitWs suffix []) := by
  induction o using jobjIndFull with
  | nil =>
    intro ind cl padded suffix ho hsuf
    simp [tokExtra_nil, tokList, show e3Entries .nil ind cl padded = [] from rfl,
      show sub4 [] = [] from rfl]
  | cons k v rest ihv ihrest =>
    intro ind cl padded suffix ho hsuf
    rcases ho with _ | ⟨_, _, _, hk, hv, hrest, hmem⟩
    have hknws : k.data.all (fun c => ! isPyWs c) = true :=
      all_safe_not_ws (safeWord_all hk)
    have hkne : k.data ≠ [] := safeWord_ne hk
    cases hv with
    | str s hs =>
      have hwsafe := (scalarWord_safe (SafeVal.str s hs) (fun o h => JVal.noConfusion h)).1
      have hwnws : (dumpScalar (JVal.str s)).all (fun c => ! isPyWs c) = true :=
        all_safe_not_ws hwsafe
      have hwne : dumpScalar (JVal.str s) ≠ [] :=
        (scalarWord_safe (SafeVal.str s hs) (fun o h => JVal.noConfusion h)).2
      cases rest with
      | nil =>
        rw [show e3Entries (.cons k (.str s) .nil) ind cl padded =
          (if padded then pad ind else []) ++ k.data ++ [' ', '=', ' '] ++
            dumpScalar (JVal.str s) ++ (if cl then [] else [';', '\n']) from rfl]
        simp only [sub4_append]
        rw [sub4_ifpad, sub4_safe (safeWord_all hk), sub4_safe hwsafe,
          show sub4 [' ', '=', ' '] = [' ', ' ', '=', ' ', ' '] from rfl, sub4_ifsemi]
        simp only [List.append_assoc, List.cons_append, List.nil_append]
        rw [splitWs_ws_skip _ _ (ifpad_ws padded ind),
          splitWs_word_emit k.data _ hknws hkne,
          splitWs_tok '=' _ (by decide),
          splitWs_ws1 ' ' _ (by decide)]
        cases cl
        · rw [show (if false = true then [] else [' ', ';', ' ', '\n']) =
            ([' ', ';', ' ', '\n'] : List Char) from if_neg (by decide)]
          simp only [List.append_assoc, List.cons_append, List.nil_append]
          rw [splitWs_word_emit _ _ hwnws hwne,
            splitWs_tok2 ';' _ (by decide), splitWs_ws1 '\n' _ (by decide),
            tok_str_nil]
          rw [show tokExtra (JObj.cons k (JVal.str s) JObj.nil) false = [[';']] from by
            rw [tokExtra, if_neg (by decide), if_pos (by rw [endsScalar_str_nil])]]
          simp
        · rw [show (if true = true then [] else [' ', ';', ' ', '\n']) = ([] : List Char)
            from if_pos rfl]
          simp only [List.nil_append]
          rw [splitWs_flush _ _ hwnws hwne hsuf, tok_str_nil, tokExtra_true]
          simp
      | cons k2 v2 r2 =>
        rw [show e3Entries (.cons k (.str s) (.cons k2 v2 r2)) ind cl padded =
          (if padded then pad ind else []) ++ k.data ++ [' ', '=', ' '] ++
            dumpScalar (JVal.str s) ++ [';', '\n'] ++
            e3Entries (.cons k2 v2 r2) ind cl true from rfl]
        simp only [sub4_append]
        rw [sub4_ifpad, sub4_safe (safeWord_all hk), sub4_safe hwsafe,
          show sub4 [' ', '=', ' '] = [' ', ' ', '=', ' ', ' '] from rfl,
          show sub4 [';', '\n'] = [' ', ';', ' ', '\n'] from rfl]
        simp only [List.append_assoc, List.cons_append, List.nil_append]
        rw [splitWs_ws_skip _ _ (ifpad_ws padded ind),
          splitWs_word_emit k.data _ hknws hkne,
          splitWs_tok '=' _ (by decide),
          splitWs_ws1 ' ' _ (by decide),
          splitWs_word_emit _ _ hwnws hwne,
          splitWs_tok2 ';' _ (by decide), splitWs_ws1 '\n' _ (by decide),
          ihrest ind cl true suffix hrest hsuf,
          tok_str_cons, tokExtra_cons_cons]
        simp
    | num n hn =>
      have hwsafe := (scalarWord_safe (SafeVal.num n hn) (fun o h => JVal.noConfusion h)).1
      have hwnws : (dumpScalar (JVal.num n)).all (fun c => ! isPyWs c) = true :=
        all_safe_not_ws hwsafe
      have hwne : dumpScalar (JVal.num n) ≠ [] :=
        (scalarWord_safe (SafeVal.num n hn) (fun o h => JVal.noConfusion h)).2
      cases rest with
      | nil =>
        rw [show e3Entries (.cons k (.num n) .nil) ind cl padded =
          (if padded then pad ind else []) ++ k.data ++ [' ', '=', ' '] ++
            dumpScalar (JVal.num n) ++ (if cl then [] else [';', '\n']) from rfl]
        simp only [sub4_append]
        rw [sub4_ifpad, sub4_safe (safeWord_all hk), sub4_safe hwsafe,
          show sub4 [' ', '=', ' '] = [' ', ' ', '=', ' ', ' '] from rfl, sub4_ifsemi]
        simp only [List.append_assoc, List.cons_append, List.nil_append]
        rw [splitWs_ws_skip _ _ (ifpad_ws padded ind),
          splitWs_word_emit k.data _ hknws hkne,
          splitWs_tok '=' _ (by decide),
          splitWs_ws1 ' ' _ (by decide)]
        cases cl
        · rw [show (if false = true then [] else [' ', ';', ' ', '\n']) =
            ([' ', ';', ' ', '\n'] : List Char) from if_neg (by decide)]
          simp only [List.append_assoc, List.cons_append, List.nil_append]
          rw [splitWs_word_emit _ _ hwnws hwne,
            splitWs_tok2 ';' _ (by decide), splitWs_ws1 '\n' _ (by decide),
            tok_num_nil]
          rw [show tokExtra (JObj.cons k (JVal.num n) JObj.nil) false = [[';']] from by
            rw [tokExtra, if_neg (by decide), if_pos (by rw [endsScalar_num_nil])]]
          simp
        · rw [show (if true = true then [] else [' ', ';', ' ', '\n']) = ([] : List Char)
            from if_pos rfl]
          simp only [List.nil_append]
          rw [splitWs_flush _ _ hwnws hwne hsuf, tok_num_nil, tokExtra_true]
          simp
      | cons k2 v2 r2 =>
        rw [show e3Entries (.cons k (.num n) (.cons k2 v2 r2)) ind cl padded =
          (if padded then pad ind else []) ++ k.data ++ [' ', '=', ' '] ++
            dumpScalar (JVal.num n) ++ [';', '\n'] ++
            e3Entries (.cons k2 v2 r2) ind cl true from rfl]
        simp only [sub4_append]
        rw [sub4_ifpad, sub4_safe (safeWord_all hk), sub4_safe hwsafe,
          show sub4 [' ', '=', ' '] = [' ', ' ', '=', ' ', ' '] from rfl,
          show sub4 [';', '\n'] = [' ', ';', ' ', '\n'] from rfl]
        simp only [List.append_assoc, List.cons_append, List.nil_append]
        rw [splitWs_ws_skip _ _ (ifpad_ws padded ind),
          splitWs_word_emit k.data _ hknws hkne,
          splitWs_tok '=' _ (by decide),
          splitWs_ws1 ' ' _ (by decide),
          splitWs_word_emit _ _ hwnws hwne,
          splitWs_tok2 ';' _ (by decide), splitWs_ws1 '\n' _ (by decide),
          ihrest ind cl true suffix hrest hsuf,
          tok_num_cons, tokExtra_cons_cons]
        simp
    | obj o' ho' =>
      cases rest with
      | nil =>
        rw [show e3Entries (.cons k (.obj o') .nil) ind cl padded =
          (if padded then pad ind else []) ++ k.data ++ ['=', '\x7b', '\n'] ++
            e3Entries o' (ind + 1) true true ++
            (if endsScalar o' then [] else pad ind) ++ ['\x7d', '\n'] from rfl]
        simp only [sub4_append]
        rw [sub4_ifpad, sub4_safe (safeWord_all hk),
          show sub4 ['=', '\x7b', '\n'] = [' ', '=', ' ', ' ', '\x7b', ' ', '\n'] from rfl,
          sub4_ifes,
          show sub4 ['\x7d', '\n'] = [' ', '\x7d', ' ', '\n'] from rfl]
        simp only [List.append_assoc, List.cons_append, List.nil_append]
        rw [splitWs_ws_skip _ _ (ifpad_ws padded ind),
          splitWs_word_emit k.data _ hknws hkne,
          splitWs_tok2 '=' _ (by decide),
          splitWs_tok '\x7b' _ (by decide),
          splitWs_ws1 '\n' _ (by decide),
          ihv o' rfl (ind + 1) true true _ ho'
            (Or.inr (ifes_space (endsScalar o') ind _)),
          tokExtra_true,
          splitWs_ws_skip _ _ (ifes_ws (endsScalar o') ind),
          splitWs_ws1 ' ' _ (by decide),
          splitWs_tok2 '\x7d' _ (by decide),
          splitWs_ws1 '\n' _ (by decide),
          tok_obj_nil, tokExtra_cons_obj, tokExtra_nil]
        simp
      | cons k2 v2 r2 =>
        rw [show e3Entries (.cons k (.obj o') (.cons k2 v2 r2)) ind cl padded =
          (if padded then pad ind else []) ++ k.data ++ ['=', '\x7b', '\n'] ++
            e3Entries o' (ind + 1) true true ++
            (if endsScalar o' then [] else pad ind) ++ ['\x7d', ';'] ++
            e3Entries (.cons k2 v2 r2) ind cl false from rfl]
        simp only [sub4_append]
        rw [sub4_ifpad, sub4_safe (safeWord_all hk),
          show sub4 ['=', '\x7b', '\n'] = [' ', '=', ' ', ' ', '\x7b', ' ', '\n'] from rfl,
          sub4_ifes,
          show sub4 ['\x7d', ';'] = [' ', '\x7d', ' ', ' ', ';', ' '] from rfl]
        simp only [List.append_assoc, List.cons_append, List.nil_append]
        rw [splitWs_ws_skip _ _ (ifpad_ws padded ind),
          splitWs_word_emit k.data _ hknws hkne,
          splitWs_tok2 '=' _ (by decide),
          splitWs_tok '\x7b' _ (by decide),
          splitWs_ws1 '\n' _ (by decide),
          ihv o' rfl (ind + 1) true true _ ho'
            (Or.inr (ifes_space (endsScalar o') ind _)),
          tokExtra_true,
          splitWs_ws_skip _ _ (ifes_ws (endsScalar o') ind),
          splitWs_ws1 ' ' _ (by decide),
          splitWs_tok2 '\x7d' _ (by decide),
          splitWs_ws1 ' ' _ (by decide),
          splitWs_tok2 ';' _ (by decide),
          ihrest ind cl false suffix hrest hsuf,
          tok_obj_cons, tokExtra_cons_obj]
        simp

/-! #### Mapping tokens to JSON tokens -/

/-- The JSON tokens of a block body after `mapTok`: quoted keys and
string values, `:` and `,` separators, braces and bare numbers. -/
def jsonToks : JObj → List (List Char)
  | .nil => []
  | .cons k v rest =>
    ['"' :: k.data ++ ['"'], [':']] ++
    (match v with
     | .obj o => [['\x7b']] ++ jsonToks o ++ [['\x7d']]
     | .str s => ['"' :: s.data ++ ['"']]
     | sc => [dumpScalar sc]) ++
    (match rest with
     | .nil => []
     | _ => [','] :: jsonToks rest)

theorem mapTok_word {w : List Char} (hs : w.all safeChar = true) (hne : w ≠ [])
    (hnum : isBareNum w = false) : mapTok w = '"' :: w ++ ['"'] := by
  have h1 : w ≠ ['='] := by
    rintro rfl
    revert hs
    decide
  have h2 : w ≠ [';'] := by
    rintro rfl
    revert hs
    decide
  have h3 : ¬(w = ['\x7b'] ∨ w = ['\x7d'] ∨ isBareNum w = true) := by
    rintro (rfl | rfl | hh)
    · revert hs
      decide
    · revert hs
      decide
    · rw [hnum] at hh
      exact Bool.false_ne_true hh
  rw [mapTok, if_neg h1, if_neg h2, if_neg h3,
    flatten_escChar_plain w (by
      rw [List.all_eq_true] at hs ⊢
      exact fun c hc => safeChar_plain c (hs c hc))]

theorem mapTok_keep {w : List Char} (h : isBareNum w = true) : mapTok w = w := by
  have h1 : w ≠ ['='] := by
    rintro rfl
    revert h
    decide
  have h2 : w ≠ [';'] := by
    rintro rfl
    revert h
    decide
  rw [mapTok, if_neg h1, if_neg h2, if_pos (Or.inr (Or.inr h))]

theorem numTail_cons_ne_dot (c : Char) (r : List Char) (hc : c ≠ '.') :
    numTail (c :: r) = (c.isDigit && numTail r) := by
  rw [numTail.eq_def]
  split
  · rename_i heq
    exact List.noConfusion heq
  · rename_i rest2 heq2
    injection heq2 with e1 e2
    exact absurd e1 hc
  · rename_i c2 rest2 hne2 heq2
    injection heq2 with e1 e2
    rw [← e1, ← e2]

theorem numTail_digits : ∀ t, t.all (·.isDigit) = true → numTail t = true := by
  intro t
  induction t with
  | nil => intro _; rfl
  | cons c r ih =>
    intro h
    rw [List.all_cons, Bool.and_eq_true] at h
    have hc : c ≠ '.' := by
      intro hh
      have := h.1
      rw [hh] at this
      exact absurd this (by decide)
    rw [numTail_cons_ne_dot c r hc, h.1, ih h.2]
    rfl

theorem natCharsF_lead : ∀ (f m : Nat), 0 < m → m < 10 ^ f →
    ∃ d t, natCharsF f m = d :: t ∧ '1' ≤ d ∧ d ≤ '9' ∧ t.all (·.isDigit) = true := by
  intro f
  induction f with
  | zero =>
    intro m h1 h2
    simp at h2
    omega
  | succ f ih =>
    intro m h1 h2
    rw [natCharsF]
    by_cases h : m < 10
    · refine ⟨Nat.digitChar m, [], by simp [h], ?_, ?_, rfl⟩
      · have h1' : 1 ≤ m := h1
        have h2' : m ≤ 9 := by omega
        interval_cases m <;> decide
      · have h1' : 1 ≤ m := h1
        have h2' : m ≤ 9 := by omega
        interval_cases m <;> decide
    · have hm10 : 0 < m / 10 := by
        have : 10 ≤ m := by omega
        exact Nat.div_pos this (by omega)
      have hlt : m / 10 < 10 ^ f := by
        rw [Nat.div_lt_iff_lt_mul (by omega)]
        calc m < 10 ^ (f + 1) := h2
        _ = 10 ^ f * 10 := by ring
      obtain ⟨d, t, hdt, hd1, hd2, ht⟩ := ih (m / 10) hm10 hlt
      refine ⟨d, t ++ [Nat.digitChar (m % 10)], ?_, hd1, hd2, ?_⟩
      · simp [h, hdt]
      · simp [List.all_append, ht, digitChar_isDigit (Nat.mod_lt _ (by omega))]

theorem lt_ten_pow (m : Nat) : m < 10 ^ (m + 1) := by
  calc m < m + 1 := by omega
  _ ≤ 10 ^ (m + 1) := by
    have := Nat.lt_pow_self (show 1 < 10 by omega) (m + 1)
    omega

theorem isBareNum_intChars (n : Int) (hn : n ≠ 0) : isBareNum (intChars n) = true := by
  unfold intChars
  by_cases h : n < 0
  · rw [if_pos h]
    have hpos : 0 < n.natAbs := by omega
    obtain ⟨d, t, hdt, hd1, hd2, ht⟩ :=
      natCharsF_lead (n.natAbs + 1) n.natAbs hpos (lt_ten_pow _)
    rw [show natChars n.natAbs = natCharsF (n.natAbs + 1) n.natAbs from rfl, hdt]
    simp only [isBareNum, if_pos rfl]
    simp [hd1, hd2, numTail_digits t ht]
  · rw [if_neg h]
    have hpos : 0 < n.toNat := by omega
    obtain ⟨d, t, hdt, hd1, hd2, ht⟩ :=
      natCharsF_lead (n.toNat + 1) n.toNat hpos (lt_ten_pow _)
    rw [show natChars n.toNat = natCharsF (n.toNat + 1) n.toNat from rfl, hdt]
    have hdneg : d ≠ '-' := by
      intro hh
      rw [hh] at hd1
      revert hd1
      decide
    simp only [isBareNum, if_neg hdneg]
    simp [hd1, hd2, numTail_digits t ht]

theorem safeWord_not_num {w : List Char} (h : safeWord w = true) : isBareNum w = false := by
  simp only [safeWord, Bool.and_eq_true] at h
  simpa using h.2

/-- `mapTok` sends the config tokens of a safe dict to its JSON tokens. -/
theorem map_mapTok (o : JObj) (ho : SafeObj o) :
    (tokList o).map mapTok = jsonToks o := by
  induction o using jobjIndFull with
  | nil => rfl
  | cons k v rest ihv ihrest =>
    rcases ho with _ | ⟨_, _, _, hk, hv, hrest, hmem⟩
    have hkq : mapTok k.data = '"' :: k.data ++ ['"'] :=
      mapTok_word (safeWord_all hk) (safeWord_ne hk) (safeWord_not_num hk)
    cases hv with
    | str s hs =>
      cases rest with
      | nil =>
        simp only [tokList, jsonToks, List.map_append, List.map_cons, List.map_nil, hkq,
          show mapTok ['='] = [':'] from rfl,
          show dumpScalar (JVal.str s) = s.data from dumpScalar_safe_str s hs,
          mapTok_word (safeWord_all hs) (safeWord_ne hs) (safeWord_not_num hs)]
      | cons k2 v2 r2 =>
        rw [tok_str_cons]
        simp only [List.map_append, List.map_cons, List.map_nil, hkq,
          show mapTok ['='] = [':'] from rfl,
          show mapTok [';'] = [','] from rfl,
          show dumpScalar (JVal.str s) = s.data from dumpScalar_safe_str s hs,
          mapTok_word (safeWord_all hs) (safeWord_ne hs) (safeWord_not_num hs),
          ihrest hrest]
        rw [show jsonToks (.cons k (.str s) (.cons k2 v2 r2)) =
          ['"' :: k.data ++ ['"'], [':']] ++ ['"' :: s.data ++ ['"']] ++
            ([','] :: jsonToks (.cons k2 v2 r2)) from rfl]
        simp
    | num n hn =>
      cases rest with
      | nil =>
        rw [tok_num_nil]
        simp only [List.map_cons, List.map_nil, hkq,
          show mapTok ['='] = [':'] from rfl,
          show dumpScalar (JVal.num n) = intChars n from rfl,
          mapTok_keep (isBareNum_intChars n hn)]
        rw [show jsonToks (.cons k (.num n) .nil) =
          ['"' :: k.data ++ ['"'], [':']] ++ [intChars n] ++ [] from rfl]
        simp
      | cons k2 v2 r2 =>
        rw [tok_num_cons]
        simp only [List.map_append, List.map_cons, List.map_nil, hkq,
          show mapTok ['='] = [':'] from rfl,
          show mapTok [';'] = [','] from rfl,
          show dumpScalar (JVal.num n) = intChars n from rfl,
          mapTok_keep (isBareNum_intChars n hn),
          ihrest hrest]
        rw [show jsonToks (.cons k (.num n) (.cons k2 v2 r2)) =
          ['"' :: k.data ++ ['"'], [':']] ++ [intChars n] ++
            ([','] :: jsonToks (.cons k2 v2 r2)) from rfl]
        simp
    | obj o' ho' =>
      cases rest with
      | nil =>
        rw [tok_obj_nil]
        simp only [List.map_append, List.map_cons, List.map_nil, hkq,
          show mapTok ['='] = [':'] from rfl,
          show mapTok ['\x7b'] = ['\x7b'] from rfl,
          show mapTok ['\x7d'] = ['\x7d'] from rfl,
          ihv o' rfl ho']
        rw [show jsonToks (.cons k (.obj o') .nil) =
          ['"' :: k.data ++ ['"'], [':']] ++ ([['\x7b']] ++ jsonToks o' ++ [['\x7d']]) ++ []
          from rfl]
        simp
      | cons k2 v2 r2 =>
        rw [tok_obj_cons]
        simp only [List.map_append, List.map_cons, List.map_nil, hkq,
          show mapTok ['='] = [':'] from rfl,
          show mapTok [';'] = [','] from rfl,
          show mapTok ['\x7b'] = ['\x7b'] from rfl,
          show mapTok ['\x7d'] = ['\x7d'] from rfl,
          ihv o' rfl ho', ihrest hrest]
        rw [show jsonToks (.cons k (.obj o') (.cons k2 v2 r2)) =
          ['"' :: k.data ++ ['"'], [':']] ++ ([['\x7b']] ++ jsonToks o' ++ [['\x7d']]) ++
            ([','] :: jsonToks (.cons k2 v2 r2)) from rfl]
        simp

/-! #### The quoted-token grouping is the identity on the JSON tokens -/

/-- Does a token start with a quote? -/
def isQ (w : List Char) : Bool :=
  w.head? = some '"'

/-- No two consecutive tokens both start with a quote (tracking whether
the previous token did). -/
def noQQafter : Bool → List (List Char) → Bool
  | _, [] => true
  | prevQ, w :: rest => (!(prevQ && isQ w)) && noQQafter (isQ w) rest

theorem noQQafter_mono (l : List (List Char)) (h : noQQafter true l = true) :
    noQQafter false l = true := by
  cases l with
  | nil => rfl
  | cons w r =>
    simp only [noQQafter, Bool.and_eq_true, Bool.not_eq_true', Bool.and_eq_false_iff] at h ⊢
    exact ⟨by simp, h.2⟩

theorem isQ_eq_false_of_safe {w : List Char} (h : w.all safeChar = true) :
    isQ w = false := by
  cases w with
  | nil => rfl
  | cons c t =>
    rw [List.all_cons, Bool.and_eq_true] at h
    have hc := h.1
    simp only [safeChar, Bool.and_eq_true, decide_eq_true_eq] at hc
    simp [isQ, hc.2.2.2.2.2.2.2.1]

theorem groupQuotedF_id : ∀ (f : Nat) (l : List (List Char)), l.length ≤ f →
    (∀ w ∈ l, w.head? = some '"' → ∃ mid, w = '"' :: mid ++ ['"']) →
    noQQafter false l = true →
    groupQuotedF f l = l := by
  intro f
  induction f with
  | zero =>
    intro l hl _ _
    rw [Nat.le_zero] at hl
    rw [List.length_eq_zero] at hl
    subst hl
    rfl
  | succ f ih =>
    intro l hl hq hnq
    cases l with
    | nil => rfl
    | cons w rest =>
      rw [groupQuotedF]
      by_cases hw : w.head? = some '"'
      · rw [if_pos hw]
        obtain ⟨mid, hmid⟩ := hq w (by simp) hw
        have hnq' : noQQafter (isQ w) rest = true := by
          simp only [noQQafter, Bool.and_eq_true] at hnq
          exact hnq.2
        have hwq : isQ w = true := by
          simp [isQ, hw]
        rw [hwq] at hnq'
        have hrest_head : rest.takeWhile (fun u => u.head? = some '"') = [] ∧
            rest.dropWhile (fun u => u.head? = some '"') = rest ∧
            noQQafter false rest = true := by
          cases rest with
          | nil => exact ⟨rfl, rfl, rfl⟩
          | cons w2 r2 =>
            simp only [noQQafter, Bool.and_eq_true, Bool.not_eq_true'] at hnq'
            have hw2 : isQ w2 = false := by
              rcases hq2 : isQ w2 with _ | _
              · rfl
              · rw [hq2] at hnq'
                simp at hnq'
            have hw2' : ¬(w2.head? = some '"') := by
              simp only [isQ] at hw2
              simpa using hw2
            refine ⟨by simp [List.takeWhile, hw2'], by simp [List.dropWhile, hw2'], ?_⟩
            simp only [noQQafter, Bool.and_eq_true]
            exact ⟨by simp, hnq'.2⟩
        rw [hrest_head.1, hrest_head.2.1,
          ih rest (by simpa using Nat.le_of_succ_le_succ (by simpa using hl))
            (fun u hu hqu => hq u (by simp [hu]) hqu) hrest_head.2.2]
        congr 1
        rw [hmid]
        simp
      · rw [if_neg hw]
        have hnq' : noQQafter false rest = true := by
          simp only [noQQafter, Bool.and_eq_true] at hnq
          have : isQ w = false := by
            simp [isQ, hw]
          rw [← this]
          exact hnq.2
        rw [ih rest (by simpa using Nat.le_of_succ_le_succ (by simpa using hl))
          (fun u hu hqu => hq u (by simp [hu]) hqu) hnq']

theorem groupQuoted_id (l : List (List Char))
    (hq : ∀ w ∈ l, w.head? = some '"' → ∃ mid, w = '"' :: mid ++ ['"'])
    (hnq : noQQafter false l = true) : groupQuoted l = l :=
  groupQuotedF_id l.length l (Nat.le_refl _) hq hnq

/-- Every quote-initial JSON token of a safe dict is a full quoted
string. -/
theorem jsonToks_qform (o : JObj) (ho : SafeObj o) :
    ∀ w ∈ jsonToks o, w.head? = some '"' → ∃ mid, w = '"' :: mid ++ ['"'] := by
  induction o using jobjIndFull with
  | nil => intro w hw; exact absurd hw (by simp [jsonToks])
  | cons k v rest ihv ihrest =>
    rcases ho with _ | ⟨_, _, _, hk, hv, hrest, hmem⟩
    intro w hw hwq
    have hsep : w ∈ (match rest with
        | JObj.nil => ([] : List (List Char))
        | _ => [','] :: jsonToks rest) → ∃ mid, w = '"' :: mid ++ ['"'] := by
      intro hw'
      cases rest with
      | nil => exact absurd hw' (by simp)
      | cons k2 v2 r2 =>
        rw [show (match JObj.cons k2 v2 r2 with
            | JObj.nil => ([] : List (List Char))
            | _ => [','] :: jsonToks (JObj.cons k2 v2 r2)) =
          [','] :: jsonToks (JObj.cons k2 v2 r2) from rfl, List.mem_cons] at hw'
        rcases hw' with rfl | hw'
        · exact absurd hwq (by simp)
        · exact ihrest hrest w hw' hwq
    rcases hv with ⟨s, hs⟩ | ⟨n, hn⟩ | ⟨o', ho'⟩
    · simp only [jsonToks, List.append_assoc, List.cons_append, List.nil_append,
        List.mem_cons] at hw
      rcases hw with rfl | rfl | rfl | hw
      · exact ⟨k.data, by simp⟩
      · exact absurd hwq (by simp)
      · exact ⟨s.data, by simp⟩
      · exact hsep hw
    · simp only [jsonToks, List.append_assoc, List.cons_append, List.nil_append,
        List.mem_cons] at hw
      rcases hw with rfl | rfl | rfl | hw
      · exact ⟨k.data, by simp⟩
      · exact absurd hwq (by simp)
      · exact absurd hwq (by
          have := isQ_eq_false_of_safe (intChars_safe n).1
          simp only [isQ] at this
          simpa using this)
      · exact hsep hw
    · simp only [jsonToks, List.append_assoc, List.cons_append, List.nil_append,
        List.mem_cons] at hw
      rcases hw with rfl | rfl | rfl | hw
      · exact ⟨k.data, by simp⟩
      · exact absurd hwq (by simp)
      · exact absurd hwq (by simp)
      · rw [List.mem_append] at hw
        rcases hw with hw | hw
        · exact ihv o' rfl ho' w hw hwq
        · rw [List.mem_cons] at hw
          rcases hw with rfl | hw
          · exact absurd hwq (by simp)
          · exact hsep hw

/-- No two consecutive JSON tokens of a safe dict are both quoted. -/
theorem noQQ_walk (o : JObj) : ∀ (TAIL : List (List Char)), SafeObj o →
    noQQafter true TAIL = true →
    noQQafter false (jsonToks o ++ TAIL) = true := by
  induction o using jobjIndFull with
  | nil =>
    intro TAIL ho h
    exact noQQafter_mono TAIL h
  | cons k v rest ihv ihrest =>
    intro TAIL ho h
    rcases ho with _ | ⟨_, _, _, hk, hv, hrest, hmem⟩
    cases rest with
    | nil =>
      rcases hv with ⟨s, hs⟩ | ⟨n, hn⟩ | ⟨o', ho'⟩
      · show noQQafter false (('"' :: k.data ++ ['"']) :: [':'] ::
          ('"' :: s.data ++ ['"']) :: TAIL) = true
        simp only [noQQafter]
        rw [show isQ ('"' :: k.data ++ ['"']) = true from rfl,
          show isQ [':'] = false from rfl,
          show isQ ('"' :: s.data ++ ['"']) = true from rfl]
        simp [h]
      · show noQQafter false (('"' :: k.data ++ ['"']) :: [':'] ::
          intChars n :: TAIL) = true
        simp only [noQQafter]
        rw [show isQ ('"' :: k.data ++ ['"']) = true from rfl,
          show isQ [':'] = false from rfl,
          isQ_eq_false_of_safe (intChars_safe n).1]
        simp [noQQafter_mono TAIL h]
      · have hEq : jsonToks (.cons k (.obj o') .nil) ++ TAIL =
            ('"' :: k.data ++ ['"']) :: [':'] :: ['\x7b'] ::
              (jsonToks o' ++ (['\x7d'] :: TAIL)) := by
          simp [jsonToks]
        rw [hEq]
        simp only [noQQafter]
        rw [show isQ ('"' :: k.data ++ ['"']) = true from rfl,
          show isQ [':'] = false from rfl,
          show isQ ['\x7b'] = false from rfl]
        have hT : noQQafter true (['\x7d'] :: TAIL) = true := by
          simp only [noQQafter]
          rw [show isQ ['\x7d'] = false from rfl]
          simp [noQQafter_mono TAIL h]
        simp [ihv o' rfl _ ho' hT]
    | cons k2 v2 r2 =>
      rcases hv with ⟨s, hs⟩ | ⟨n, hn⟩ | ⟨o', ho'⟩
      · have hEq : jsonToks (.cons k (.str s) (.cons k2 v2 r2)) ++ TAIL =
            ('"' :: k.data ++ ['"']) :: [':'] :: ('"' :: s.data ++ ['"']) :: [','] ::
              (jsonToks (.cons k2 v2 r2) ++ TAIL) := by
          simp [jsonToks]
        rw [hEq]
        simp only [noQQafter]
        rw [show isQ ('"' :: k.data ++ ['"']) = true from rfl,
          show isQ [':'] = false from rfl,
          show isQ ('"' :: s.data ++ ['"']) = true from rfl,
          show isQ [','] = false from rfl]
        simp [ihrest _ hrest h]
      · have hEq : jsonToks (.cons k (.num n) (.cons k2 v2 r2)) ++ TAIL =
            ('"' :: k.data ++ ['"']) :: [':'] :: intChars n :: [','] ::
              (jsonToks (.cons k2 v2 r2) ++ TAIL) := by
          simp [jsonToks, dumpScalar_num]
        rw [hEq]
        simp only [noQQafter]
        rw [show isQ ('"' :: k.data ++ ['"']) = true from rfl,
          show isQ [':'] = false from rfl,
          isQ_eq_false_of_safe (intChars_safe n).1,
          show isQ [','] = false from rfl]
        simp [ihrest _ hrest h]
      · have hEq : jsonToks (.cons k (.obj o') (.cons k2 v2 r2)) ++ TAIL =
            ('"' :: k.data ++ ['"']) :: [':'] :: ['\x7b'] ::
              (jsonToks o' ++ (['\x7d'] :: [','] ::
                (jsonToks (.cons k2 v2 r2) ++ TAIL))) := by
          simp [jsonToks]
        rw [hEq]
        simp only [noQQafter]
        rw [show isQ ('"' :: k.data ++ ['"']) = true from rfl,
          show isQ [':'] = false from rfl,
          show isQ ['\x7b'] = false from rfl]
        have hT : noQQafter true (['\x7d'] :: [','] ::
            (jsonToks (.cons k2 v2 r2) ++ TAIL)) = true := by
          simp only [noQQafter]
          rw [show isQ ['\x7d'] = false from rfl,
            show isQ [','] = false from rfl]
          simp [ihrest _ hrest h]
        simp [ihv o' rfl _ ho' hT]

/-! #### `json.loads` on the generated JSON text -/

theorem not_ctrl {c : Char} (h : 0x20 ≤ c.toNat) : ¬ (c.val < (0x20 : UInt32)) := by
  intro hlt
  have h2 := UInt32.toNat_lt_of_lt (by decide) hlt
  rw [show c.val.toNat = c.toNat from rfl] at h2
  have h3 : c.toNat < 32 := by simpa using h2
  omega

set_option maxHeartbeats 1000000 in
theorem pStr_cons_plain (c : Char) (rest : List Char) (h1 : c ≠ '"') (h2 : c ≠ '\\')
    (h3 : ¬ c.val < 0x20) :
    pStr (c :: rest) = match pStr rest with
      | some (s, r) => some (c :: s, r)
      | none => none := by
  rw [pStr.eq_def]
  split
  · rename_i heq
    exact List.noConfusion heq
  · rename_i r heq
    injection heq with e1 _
    exact absurd e1 h1
  · rename_i a b cc d r heq
    injection heq with e1 _
    exact absurd e1 h2
  · rename_i e r heq
    injection heq with e1 _
    exact absurd e1 h2
  · rename_i hh1 hh2 hh3 c2 r2 heq
    injection heq with e1 e2
    subst e1
    subst e2
    rw [if_neg h3]

theorem pStr_safe : ∀ (w r : List Char), w.all safeChar = true →
    pStr (w ++ '"' :: r) = some (w, r) := by
  intro w
  induction w with
  | nil => intro r _; rfl
  | cons c t ih =>
    intro r hw
    rw [List.all_cons, Bool.and_eq_true] at hw
    have hc := hw.1
    simp only [safeChar, Bool.and_eq_true, decide_eq_true_eq] at hc
    rw [List.cons_append,
      pStr_cons_plain c _ hc.2.2.2.2.2.2.2.1 hc.2.2.2.2.2.2.2.2.1
        (not_ctrl (by omega)),
      ih r hw.2]

theorem string_mk_data (s : String) : String.mk s.data = s := by
  cases s
  rfl

theorem skipWs_cons {c : Char} (X : List Char)
    (hc : ¬(c = ' ' ∨ c = '\t' ∨ c = '\n' ∨ c = '\x0d')) : skipWs (c :: X) = c :: X := by
  simp only [skipWs, List.dropWhile]
  rw [show (decide (c = ' ' ∨ c = '\t' ∨ c = '\n' ∨ c = '\x0d')) = false from by
    simpa using hc]

theorem safe_not_jws {c : Char} (h : safeChar c = true) :
    ¬(c = ' ' ∨ c = '\t' ∨ c = '\n' ∨ c = '\x0d') := by
  simp only [safeChar, Bool.and_eq_true, decide_eq_true_eq] at h
  rintro (rfl | rfl | rfl | rfl) <;> revert h <;> decide

theorem digitsVal_append_digit (a : List Char) (d : Char) :
    digitsVal (a ++ [d]) = 10 * digitsVal a + (d.toNat - 48) := by
  simp [digitsVal, List.foldl_append]

theorem digitChar_toNat {m : Nat} (h : m < 10) : (Nat.digitChar m).toNat - 48 = m := by
  interval_cases m <;> decide

theorem digitsVal_natCharsF : ∀ (f m : Nat), m < 10 ^ f →
    digitsVal (natCharsF f m) = m := by
  intro f
  induction f with
  | zero =>
    intro m h
    have hm : m = 0 := by simpa using Nat.lt_one_iff.mp (by simpa using h)
    subst hm
    rfl
  | succ f ih =>
    intro m h
    rw [natCharsF]
    by_cases h10 : m < 10
    · rw [if_pos h10]
      simp [digitsVal, digitChar_toNat h10]
    · rw [if_neg h10, digitsVal_append_digit,
        ih (m / 10) (by
          rw [Nat.div_lt_iff_lt_mul (by omega)]
          calc m < 10 ^ (f + 1) := h
          _ = 10 ^ f * 10 := by ring),
        digitChar_toNat (Nat.mod_lt _ (by omega))]
      omega

theorem takeWhile_all_append (p : Char → Bool) (t r : List Char) (ht : t.all p = true)
    (hr : ∀ c, r.head? = some c → p c = false) :
    (t ++ r).takeWhile p = t ∧ (t ++ r).dropWhile p = r := by
  induction t with
  | nil =>
    cases r with
    | nil => exact ⟨rfl, rfl⟩
    | cons c r' =>
      have := hr c rfl
      constructor
      · simp [List.takeWhile, this]
      · simp [List.dropWhile, this]
  | cons c t' ih =>
    rw [List.all_cons, Bool.and_eq_true] at ht
    obtain ⟨ih1, ih2⟩ := ih ht.2
    constructor
    · rw [List.cons_append, List.takeWhile_cons, if_pos ht.1, ih1]
    · rw [List.cons_append, List.dropWhile_cons, if_pos ht.1, ih2]

theorem pNum_eq_pos (d : Char) (rest : List Char) (hd : '1' ≤ d ∧ d ≤ '9') :
    pNum (d :: rest) =
      (if (rest.dropWhile (·.isDigit)).head? = some '.' ∨
          (rest.dropWhile (·.isDigit)).head? = some 'e' ∨
          (rest.dropWhile (·.isDigit)).head? = some 'E' then none
       else some (.num (Int.ofNat (digitsVal (d :: rest.takeWhile (·.isDigit)))),
         rest.dropWhile (·.isDigit))) := by
  have hd0 : d ≠ '0' := by
    intro hh
    rw [hh] at hd
    revert hd
    decide
  have hdm : d ≠ '-' := by
    intro hh
    rw [hh] at hd
    revert hd
    decide
  rw [pNum.eq_def]
  split
  · rename_i r heq
    injection heq with e1 _
    exact absurd e1 hdm
  · rename_i hne
    show (match d :: rest with
      | [] => none
      | '0' :: rest => _
      | c :: rest => _) = _
    split
    · rename_i heq
      exact List.noConfusion heq
    · rename_i r heq
      injection heq with e1 _
      exact absurd e1 hd0
    · rename_i hh1 hh2 c2 r2 heq
      injection heq with e1 e2
      subst e1
      subst e2
      rw [if_pos hd]
      rfl

theorem pNum_eq_neg (d : Char) (rest : List Char) (hd : '1' ≤ d ∧ d ≤ '9') :
    pNum ('-' :: d :: rest) =
      (if (rest.dropWhile (·.isDigit)).head? = some '.' ∨
          (rest.dropWhile (·.isDigit)).head? = some 'e' ∨
          (rest.dropWhile (·.isDigit)).head? = some 'E' then none
       else some (.num (-(Int.ofNat (digitsVal (d :: rest.takeWhile (·.isDigit))))),
         rest.dropWhile (·.isDigit))) := by
  have hd0 : d ≠ '0' := by
    intro hh
    rw [hh] at hd
    revert hd
    decide
  rw [pNum.eq_def]
  split
  · rename_i r heq
    injection heq with e1 e2
    subst e2
    show (match d :: rest with
      | [] => none
      | '0' :: rest => _
      | c :: rest => _) = _
    split
    · rename_i heq2
      exact List.noConfusion heq2
    · rename_i r heq2
      injection heq2 with e1 _
      exact absurd e1 hd0
    · rename_i hh1 hh2 c2 r2 heq2
      injection heq2 with e1 e2
      subst e1
      subst e2
      rw [if_pos hd]
      rfl
  · rename_i hne
    exact (hne (d :: rest) rfl).elim

theorem pNum_spec (n : Int) (hn : n ≠ 0) (r : List Char)
    (hr : r.head? = some ',' ∨ r.head? = some '\x7d') :
    pNum (intChars n ++ r) = some (.num n, r) := by
  have hrd : ∀ c, r.head? = some c → c.isDigit = false := by
    intro c hc
    rcases hr with hr | hr <;> rw [hc] at hr <;> injection hr with e <;> rw [e] <;> decide
  have hno : ¬(r.head? = some '.' ∨ r.head? = some 'e' ∨ r.head? = some 'E') := by
    rintro (hh | hh | hh) <;> rcases hr with hr | hr <;> rw [hh] at hr <;>
      (injection hr with e; exact absurd e (by decide))
  unfold intChars
  by_cases h : n < 0
  · rw [if_pos h]
    obtain ⟨d, t, hdt, hd1, hd2, ht⟩ :=
      natCharsF_lead (n.natAbs + 1) n.natAbs (by omega) (lt_ten_pow _)
    have htake := takeWhile_all_append (·.isDigit) t r ht hrd
    rw [show natChars n.natAbs = natCharsF (n.natAbs + 1) n.natAbs from rfl, hdt,
      List.cons_append, List.cons_append, pNum_eq_neg d (t ++ r) ⟨hd1, hd2⟩,
      htake.1, htake.2, if_neg hno]
    have hval : digitsVal (d :: t) = n.natAbs := by
      rw [← hdt]
      exact digitsVal_natCharsF _ _ (lt_ten_pow _)
    rw [hval]
    have habs : (Int.ofNat n.natAbs) = -n := by
      rw [show (Int.ofNat n.natAbs) = (n.natAbs : Int) from rfl]
      omega
    rw [habs]
    simp
  · rw [if_neg h]
    obtain ⟨d, t, hdt, hd1, hd2, ht⟩ :=
      natCharsF_lead (n.toNat + 1) n.toNat (by omega) (lt_ten_pow _)
    have htake := takeWhile_all_append (·.isDigit) t r ht hrd
    rw [show natChars n.toNat = natCharsF (n.toNat + 1) n.toNat from rfl, hdt,
      List.cons_append, pNum_eq_pos d (t ++ r) ⟨hd1, hd2⟩,
      htake.1, htake.2, if_neg hno]
    have hval : digitsVal (d :: t) = n.toNat := by
      rw [← hdt]
      exact digitsVal_natCharsF _ _ (lt_ten_pow _)
    rw [hval]
    have habs : (Int.ofNat n.toNat) = n := by
      rw [show (Int.ofNat n.toNat) = (n.toNat : Int) from rfl]
      omega
    rw [habs]

/-- Concatenation of two dicts. -/
def jcat : JObj → JObj → JObj
  | .nil, b => b
  | .cons k v r, b => .cons k v (jcat r b)

/-- The dict built by successive `d[k] = v` assignments. -/
def jappend : JObj → JObj → JObj
  | a, .nil => a
  | a, .cons k v r => jappend (oset a k v) r

theorem okeys_oset (a : JObj) (k : String) (v : JVal) (h : k ∉ okeys a) :
    okeys (oset a k v) = okeys a ++ [k] := by
  induction a using jobjInd with
  | nil => rfl
  | cons k' v' r ih =>
    simp only [okeys, List.mem_cons] at h
    push_neg at h
    show okeys (if k' = k then JObj.cons k v r else JObj.cons k' v' (oset r k v)) =
      okeys (JObj.cons k' v' r) ++ [k]
    rw [if_neg (Ne.symm h.1)]
    show k' :: okeys (oset r k v) = _
    rw [ih h.2]
    rfl

theorem oset_fresh (a : JObj) (k : String) (v : JVal) (h : k ∉ okeys a) :
    oset a k v = jcat a (.cons k v .nil) := by
  induction a using jobjInd with
  | nil => rfl
  | cons k' v' r ih =>
    simp only [okeys, List.mem_cons] at h
    push_neg at h
    show (if k' = k then JObj.cons k v r else JObj.cons k' v' (oset r k v)) =
      jcat (JObj.cons k' v' r) (JObj.cons k v JObj.nil)
    rw [if_neg (Ne.symm h.1), ih h.2]
    rfl

theorem jcat_nil (a : JObj) : jcat a .nil = a := by
  induction a using jobjInd with
  | nil => rfl
  | cons k v r ih => simp [jcat, ih]

theorem jcat_assoc (a b c : JObj) : jcat (jcat a b) c = jcat a (jcat b c) := by
  induction a using jobjInd with
  | nil => rfl
  | cons k v r ih => simp [jcat, ih]

theorem jappend_eq_jcat (o : JObj) : ∀ a : JObj, SafeObj o →
    (∀ x ∈ okeys o, x ∉ okeys a) → jappend a o = jcat a o := by
  induction o using jobjInd with
  | nil =>
    intro a _ _
    exact (jcat_nil a).symm
  | cons k v r ih =>
    intro a ho hdis
    rcases ho with _ | ⟨_, _, _, hk, hv, hr, hmem⟩
    have hka : k ∉ okeys a := hdis k (by simp [okeys])
    rw [show jappend a (.cons k v r) = jappend (oset a k v) r from rfl,
      ih (oset a k v) hr (by
        intro x hx
        rw [okeys_oset a k v hka]
        simp only [List.mem_append, List.mem_singleton]
        rintro (hxa | rfl)
        · exact hdis x (by simp [okeys, hx]) hxa
        · exact hmem hx),
      oset_fresh a k v hka, jcat_assoc]
    rfl

theorem jappend_nil (o : JObj) (ho : SafeObj o) : jappend .nil o = o := by
  rw [jappend_eq_jcat o .nil ho (by intro x _; simp [okeys])]
  rfl

theorem pVal_str (f : Nat) (s : String) (hs : s.data.all safeChar = true)
    (REST : List Char) :
    pVal (f + 1) ('"' :: (s.data ++ '"' :: REST)) = some (.str s, REST) := by
  simp only [pVal]
  rw [if_neg (by decide), if_neg (by decide), if_pos trivial, pStr_safe s.data REST hs]

theorem intChars_split (n : Int) (hn : n ≠ 0) :
    (n < 0 ∧ ∃ t, intChars n = '-' :: t) ∨
    (0 < n ∧ ∃ d t, intChars n = d :: t ∧ d.isDigit = true) := by
  unfold intChars
  by_cases h : n < 0
  · exact Or.inl ⟨h, natChars n.natAbs, by rw [if_pos h]⟩
  · refine Or.inr ⟨by omega, ?_⟩
    obtain ⟨d, t, hdt, hd1, hd2, ht⟩ :=
      natCharsF_lead (n.toNat + 1) n.toNat (by omega) (lt_ten_pow _)
    refine ⟨d, t, by rw [if_neg h]; exact hdt, ?_⟩
    have := natCharsF_digits (n.toNat + 1) n.toNat
    rw [hdt, List.all_cons, Bool.and_eq_true] at this
    exact this.1

theorem digit_bounds {d : Char} (h : d.isDigit = true) :
    48 ≤ d.toNat ∧ d.toNat ≤ 57 := by
  simp only [Char.isDigit, Bool.and_eq_true, decide_eq_true_eq] at h
  exact ⟨h.1, h.2⟩

theorem pVal_num (f : Nat) (n : Int) (hn : n ≠ 0) (REST : List Char)
    (hr : REST.head? = some ',' ∨ REST.head? = some '\x7d') :
    pVal (f + 1) (intChars n ++ REST) = some (.num n, REST) := by
  rcases intChars_split n hn with ⟨hneg, t, hic⟩ | ⟨hpos, d, t, hic, hdig⟩
  · rw [hic, List.cons_append]
    simp only [pVal]
    rw [if_neg (by decide), if_neg (by decide), if_neg (by decide), if_neg (by decide),
      if_neg (by decide), if_neg (by decide), if_pos (Or.inl trivial),
      ← List.cons_append, ← hic]
    exact pNum_spec n hn REST hr
  · have hb := digit_bounds hdig
    rw [hic, List.cons_append]
    simp only [pVal]
    rw [if_neg (toNat_ne_char (by rw [show ('\x7b' : Char).toNat = 123 from rfl]; omega)),
      if_neg (toNat_ne_char (by rw [show ('[' : Char).toNat = 91 from rfl]; omega)),
      if_neg (toNat_ne_char (by rw [show ('"' : Char).toNat = 34 from rfl]; omega)),
      if_neg (toNat_ne_char (by rw [show ('t' : Char).toNat = 116 from rfl]; omega)),
      if_neg (toNat_ne_char (by rw [show ('f' : Char).toNat = 102 from rfl]; omega)),
      if_neg (toNat_ne_char (by rw [show ('n' : Char).toNat = 110 from rfl]; omega)),
      if_pos (Or.inr hdig),
      ← List.cons_append, ← hic]
    exact pNum_spec n hn REST hr

theorem flatten_head_quote (k2 : String) (v2 : JVal) (r2 : JObj) :
    ∃ X, (jsonToks (.cons k2 v2 r2)).flatten = '"' :: X := by
  have h : ((jsonToks (.cons k2 v2 r2)).flatten).head? = some '"' := by
    cases v2 <;> cases r2 <;> simp [jsonToks]
  cases hF : (jsonToks (.cons k2 v2 r2)).flatten with
  | nil =>
    rw [hF] at h
    exact absurd h (by simp)
  | cons c X =>
    rw [hF] at h
    simp only [List.head?_cons, Option.some.injEq] at h
    exact ⟨X, by rw [h]⟩

theorem pMembers_step (f : Nat) (kd : List Char) (hkd : kd.all safeChar = true)
    (R2 : List Char) (acc : JObj) :
    pMembers (f + 1) ('"' :: (kd ++ '"' :: ':' :: R2)) acc =
      (match pVal f (skipWs R2) with
       | some (v, r3) =>
         (match skipWs r3 with
          | ',' :: r4 => pMembers f (skipWs r4) (oset acc (String.mk kd) v)
          | '\x7d' :: r4 => some (.obj (oset acc (String.mk kd) v), r4)
          | _ => none)
       | none => none) := by
  simp only [pMembers, pStr_safe kd _ hkd,
    show skipWs (':' :: R2) = ':' :: R2 from skipWs_cons _ (by decide)]

theorem pVal_obj_nil (f : Nat) (REST : List Char) :
    pVal (f + 1) ('\x7b' :: ('\x7d' :: REST)) = some (.obj .nil, REST) := by
  simp only [pVal]
  rw [if_pos trivial,
    show skipWs ('\x7d' :: REST) = '\x7d' :: REST from skipWs_cons _ (by decide)]
  rfl

theorem pVal_obj_cons (f : Nat) (k3 : String) (v3 : JVal) (r3 : JObj) (REST : List Char) :
    pVal (f + 1) ('\x7b' :: ((jsonToks (.cons k3 v3 r3)).flatten ++ '\x7d' :: REST)) =
      pMembers f ((jsonToks (.cons k3 v3 r3)).flatten ++ '\x7d' :: REST) .nil := by
  obtain ⟨X3, hX3⟩ := flatten_head_quote k3 v3 r3
  simp only [pVal]
  rw [if_pos trivial,
    show skipWs ((jsonToks (.cons k3 v3 r3)).flatten ++ '\x7d' :: REST) =
      (jsonToks (.cons k3 v3 r3)).flatten ++ '\x7d' :: REST from by
      rw [hX3, List.cons_append]
      exact skipWs_cons _ (by decide)]
  rw [hX3, List.cons_append]
  rfl

/-- The JSON object-member parser reconstructs a safe dict from its
generated JSON text, folding the entries into the accumulator with
`d[k] = v` assignments. -/
theorem pMembers_spec (o : JObj) : ∀ (fuel : Nat) (acc : JObj) (EXTRA : List Char),
    SafeObj o → o ≠ .nil →
    (∀ x ∈ okeys o, x ∉ okeys acc) →
    ((jsonToks o).flatten ++ '\x7d' :: EXTRA).length < fuel →
    pMembers fuel ((jsonToks o).flatten ++ '\x7d' :: EXTRA) acc =
      some (.obj (jappend acc o), EXTRA) := by
  induction o using jobjIndFull with
  | nil =>
    intro fuel acc EXTRA ho hne
    exact absurd rfl hne
  | cons k v rest ihv ihrest =>
    intro fuel acc EXTRA ho hne hdis hfuel
    rcases ho with _ | ⟨_, _, _, hk, hv, hrest, hmem⟩
    have hka : k ∉ okeys acc := hdis k (by simp [okeys])
    obtain ⟨f2, rfl⟩ : ∃ f2, fuel = f2 + 1 := ⟨fuel - 1, by omega⟩
    rcases hv with ⟨s, hs⟩ | ⟨n, hn⟩ | ⟨o', ho'⟩
    · cases rest with
      | nil =>
        have hin : (jsonToks (.cons k (.str s) .nil)).flatten ++ '\x7d' :: EXTRA =
            '"' :: (k.data ++ '"' :: ':' :: ('"' :: (s.data ++ '"' :: ('\x7d' :: EXTRA)))) := by
          simp [jsonToks]
        rw [hin] at hfuel
        have hlen := hfuel
        simp only [List.length_append, List.length_cons] at hlen
        obtain ⟨f3, rfl⟩ : ∃ f3, f2 = f3 + 1 := ⟨f2 - 1, by omega⟩
        rw [hin, pMembers_step (f3 + 1) k.data (safeWord_all hk) _ acc,
          show skipWs ('"' :: (s.data ++ '"' :: ('\x7d' :: EXTRA))) =
            '"' :: (s.data ++ '"' :: ('\x7d' :: EXTRA)) from skipWs_cons _ (by decide),
          pVal_str f3 s (safeWord_all hs) _]
        simp only [show skipWs ('\x7d' :: EXTRA) = '\x7d' :: EXTRA from
          skipWs_cons _ (by decide), string_mk_data]
        rfl
      | cons k2 v2 r2 =>
        have hin : (jsonToks (.cons k (.str s) (.cons k2 v2 r2))).flatten ++ '\x7d' :: EXTRA =
            '"' :: (k.data ++ '"' :: ':' :: ('"' :: (s.data ++ '"' :: (',' ::
              ((jsonToks (.cons k2 v2 r2)).flatten ++ '\x7d' :: EXTRA))))) := by
          simp [jsonToks]
        rw [hin] at hfuel
        have hlen := hfuel
        simp only [List.length_append, List.length_cons] at hlen
        obtain ⟨f3, rfl⟩ : ∃ f3, f2 = f3 + 1 := ⟨f2 - 1, by omega⟩
        obtain ⟨X2, hX2⟩ := flatten_head_quote k2 v2 r2
        rw [hin, pMembers_step (f3 + 1) k.data (safeWord_all hk) _ acc,
          show skipWs ('"' :: (s.data ++ '"' :: (',' ::
              ((jsonToks (.cons k2 v2 r2)).flatten ++ '\x7d' :: EXTRA)))) =
            '"' :: (s.data ++ '"' :: (',' ::
              ((jsonToks (.cons k2 v2 r2)).flatten ++ '\x7d' :: EXTRA)))
            from skipWs_cons _ (by decide),
          pVal_str f3 s (safeWord_all hs) _]
        simp only [show skipWs (',' :: ((jsonToks (.cons k2 v2 r2)).flatten ++
            '\x7d' :: EXTRA)) = ',' :: ((jsonToks (.cons k2 v2 r2)).flatten ++
            '\x7d' :: EXTRA) from skipWs_cons _ (by decide), string_mk_data]
        rw [show skipWs ((jsonToks (.cons k2 v2 r2)).flatten ++ '\x7d' :: EXTRA) =
            (jsonToks (.cons k2 v2 r2)).flatten ++ '\x7d' :: EXTRA from by
          rw [hX2, List.cons_append]
          exact skipWs_cons _ (by decide),
          ihrest (f3 + 1) (oset acc k (.str s)) EXTRA hrest (by simp)
            (by
              intro x hx
              rw [okeys_oset acc k _ hka]
              simp only [List.mem_append, List.mem_singleton]
              rintro (hxa | rfl)
              · refine hdis x ?_ hxa
                simp only [okeys, List.mem_cons] at hx ⊢
                exact Or.inr hx
              · exact hmem hx)
            (by
              simp only [List.length_append, List.length_cons]
              omega)]
        rfl
    · cases rest with
      | nil =>
        have hin : (jsonToks (.cons k (.num n) .nil)).flatten ++ '\x7d' :: EXTRA =
            '"' :: (k.data ++ '"' :: ':' :: (intChars n ++ ('\x7d' :: EXTRA))) := by
          simp [jsonToks, dumpScalar_num]
        rw [hin] at hfuel
        have hlen := hfuel
        simp only [List.length_append, List.length_cons] at hlen
        obtain ⟨f3, rfl⟩ : ∃ f3, f2 = f3 + 1 := ⟨f2 - 1, by omega⟩
        have hskip : skipWs (intChars n ++ ('\x7d' :: EXTRA)) =
            intChars n ++ ('\x7d' :: EXTRA) := by
          rcases intChars_split n hn with ⟨hneg, t, hic⟩ | ⟨hpos, d, t, hic, hdig⟩
          · rw [hic, List.cons_append]
            exact skipWs_cons _ (by decide)
          · have hb := digit_bounds hdig
            rw [hic, List.cons_append]
            refine skipWs_cons _ ?_
            rintro (rfl | rfl | rfl | rfl) <;> revert hb <;> decide
        rw [hin, pMembers_step (f3 + 1) k.data (safeWord_all hk) _ acc, hskip,
          pVal_num f3 n hn ('\x7d' :: EXTRA) (Or.inr rfl)]
        simp only [show skipWs ('\x7d' :: EXTRA) = '\x7d' :: EXTRA from
          skipWs_cons _ (by decide), string_mk_data]
        rfl
      | cons k2 v2 r2 =>
        have hin : (jsonToks (.cons k (.num n) (.cons k2 v2 r2))).flatten ++ '\x7d' :: EXTRA =
            '"' :: (k.data ++ '"' :: ':' :: (intChars n ++ (',' ::
              ((jsonToks (.cons k2 v2 r2)).flatten ++ '\x7d' :: EXTRA)))) := by
          simp [jsonToks, dumpScalar_num]
        rw [hin] at hfuel
        have hlen := hfuel
        simp only [List.length_append, List.length_cons] at hlen
        obtain ⟨f3, rfl⟩ : ∃ f3, f2 = f3 + 1 := ⟨f2 - 1, by omega⟩
        obtain ⟨X2, hX2⟩ := flatten_head_quote k2 v2 r2
        have hskip : skipWs (intChars n ++ (',' ::
            ((jsonToks (.cons k2 v2 r2)).flatten ++ '\x7d' :: EXTRA))) =
            intChars n ++ (',' ::
            ((jsonToks (.cons k2 v2 r2)).flatten ++ '\x7d' :: EXTRA)) := by
          rcases intChars_split n hn with ⟨hneg, t, hic⟩ | ⟨hpos, d, t, hic, hdig⟩
          · rw [hic, List.cons_append]
            exact skipWs_cons _ (by decide)
          · have hb := digit_bounds hdig
            rw [hic, List.cons_append]
            refine skipWs_cons _ ?_
            rintro (rfl | rfl | rfl | rfl) <;> revert hb <;> decide
        rw [hin, pMembers_step (f3 + 1) k.data (safeWord_all hk) _ acc, hskip,
          pVal_num f3 n hn (',' :: ((jsonToks (.cons k2 v2 r2)).flatten ++
            '\x7d' :: EXTRA)) (Or.inl rfl)]
        simp only [show skipWs (',' :: ((jsonToks (.cons k2 v2 r2)).flatten ++
            '\x7d' :: EXTRA)) = ',' :: ((jsonToks (.cons k2 v2 r2)).flatten ++
            '\x7d' :: EXTRA) from skipWs_cons _ (by decide), string_mk_data]
        rw [show skipWs ((jsonToks (.cons k2 v2 r2)).flatten ++ '\x7d' :: EXTRA) =
            (jsonToks (.cons k2 v2 r2)).flatten ++ '\x7d' :: EXTRA from by
          rw [hX2, List.cons_append]
          exact skipWs_cons _ (by decide),
          ihrest (f3 + 1) (oset acc k (.num n)) EXTRA hrest (by simp)
            (by
              intro x hx
              rw [okeys_oset acc k _ hka]
              simp only [List.mem_append, List.mem_singleton]
              rintro (hxa | rfl)
              · refine hdis x ?_ hxa
                simp only [okeys, List.mem_cons] at hx ⊢
                exact Or.inr hx
              · exact hmem hx)
            (by
              simp only [List.length_append, List.length_cons]
              omega)]
        rfl
    · have hvval : ∀ (f4 : Nat) (REST : List Char),
          ((jsonToks o').flatten ++ '\x7d' :: REST).length < f4 →
          pVal (f4 + 1) ('\x7b' :: ((jsonToks o').flatten ++ '\x7d' :: REST)) =
            some (.obj o', REST) := by
        intro f4 REST hlen4
        cases o' with
        | nil => exact pVal_obj_nil f4 REST
        | cons k3 v3 r3 =>
          rw [pVal_obj_cons f4 k3 v3 r3 REST,
            ihv (.cons k3 v3 r3) rfl f4 .nil REST ho' (by simp)
              (by intro x hx; simp [okeys]) hlen4,
            jappend_nil _ ho']
      cases rest with
      | nil =>
        have hin : (jsonToks (.cons k (.obj o') .nil)).flatten ++ '\x7d' :: EXTRA =
            '"' :: (k.data ++ '"' :: ':' :: ('\x7b' ::
              ((jsonToks o').flatten ++ '\x7d' :: ('\x7d' :: EXTRA)))) := by
          simp [jsonToks]
        rw [hin] at hfuel
        have hlen := hfuel
        simp only [List.length_append, List.length_cons] at hlen
        obtain ⟨f3, rfl⟩ : ∃ f3, f2 = f3 + 1 := ⟨f2 - 1, by omega⟩
        rw [hin, pMembers_step (f3 + 1) k.data (safeWord_all hk) _ acc,
          show skipWs ('\x7b' ::
              ((jsonToks o').flatten ++ '\x7d' :: ('\x7d' :: EXTRA))) =
            '\x7b' :: ((jsonToks o').flatten ++ '\x7d' :: ('\x7d' :: EXTRA)) from
            skipWs_cons _ (by decide)]
        rw [hvval f3 ('\x7d' :: EXTRA) (by
          simp only [List.length_append, List.length_cons]
          omega)]
        simp only [show skipWs ('\x7d' :: EXTRA) = '\x7d' :: EXTRA from
          skipWs_cons _ (by decide), string_mk_data]
        rfl
      | cons k2 v2 r2 =>
        have hin : (jsonToks (.cons k (.obj o') (.cons k2 v2 r2))).flatten ++
            '\x7d' :: EXTRA =
            '"' :: (k.data ++ '"' :: ':' :: ('\x7b' ::
              ((jsonToks o').flatten ++ '\x7d' :: (',' ::
                ((jsonToks (.cons k2 v2 r2)).flatten ++ '\x7d' :: EXTRA))))) := by
          simp [jsonToks]
        rw [hin] at hfuel
        have hlen := hfuel
        simp only [List.length_append, List.length_cons] at hlen
        obtain ⟨f3, rfl⟩ : ∃ f3, f2 = f3 + 1 := ⟨f2 - 1, by omega⟩
        obtain ⟨X2, hX2⟩ := flatten_head_quote k2 v2 r2
        rw [hin, pMembers_step (f3 + 1) k.data (safeWord_all hk) _ acc,
          show skipWs ('\x7b' ::
              ((jsonToks o').flatten ++ '\x7d' :: (',' ::
                ((jsonToks (.cons k2 v2 r2)).flatten ++ '\x7d' :: EXTRA)))) =
            '\x7b' :: ((jsonToks o').flatten ++ '\x7d' :: (',' ::
              ((jsonToks (.cons k2 v2 r2)).flatten ++ '\x7d' :: EXTRA))) from
            skipWs_cons _ (by decide)]
        rw [hvval f3 (',' :: ((jsonToks (.cons k2 v2 r2)).flatten ++ '\x7d' :: EXTRA)) (by
          simp only [List.length_append, List.length_cons]
          omega)]
        simp only [show skipWs (',' :: ((jsonToks (.cons k2 v2 r2)).flatten ++
            '\x7d' :: EXTRA)) = ',' :: ((jsonToks (.cons k2 v2 r2)).flatten ++
            '\x7d' :: EXTRA) from skipWs_cons _ (by decide), string_mk_data]
        rw [show skipWs ((jsonToks (.cons k2 v2 r2)).flatten ++ '\x7d' :: EXTRA) =
            (jsonToks (.cons k2 v2 r2)).flatten ++ '\x7d' :: EXTRA from by
          rw [hX2, List.cons_append]
          exact skipWs_cons _ (by decide),
          ihrest (f3 + 1) (oset acc k (.obj o')) EXTRA hrest (by simp)
            (by
              intro x hx
              rw [okeys_oset acc k _ hka]
              simp only [List.mem_append, List.mem_singleton]
              rintro (hxa | rfl)
              · refine hdis x ?_ hxa
                simp only [okeys, List.mem_cons] at hx ⊢
                exact Or.inr hx
              · exact hmem hx)
            (by
              simp only [List.length_append, List.length_cons]
              omega)]
        rfl

theorem safeChar_tame {c : Char} (h : safeChar c = true) : tameChar c = true := by
  simp only [safeChar, Bool.and_eq_true, decide_eq_true_eq] at h
  simp [tameChar, h.2.2.2.2.2.2.2.1, h.2.2.1]

theorem all_safe_tame {w : List Char} (h : w.all safeChar = true) :
    w.all tameChar = true := by
  rw [List.all_eq_true] at h ⊢
  exact fun c hc => safeChar_tame (h c hc)

theorem pad_tame (ind : Nat) : (pad ind).all tameChar = true := by
  rw [List.all_eq_true]
  intro x hx
  simp only [pad] at hx
  rw [List.eq_of_mem_replicate hx]
  decide

/-- The serialized text of a safe dict contains no quote and no hash:
the `_conf2json` scanner copies it unchanged. -/
theorem dumpEntries_tame (o : JObj) : ∀ ind : Nat, SafeObj o →
    (dumpEntries o ind).all tameChar = true := by
  induction o using jobjIndFull with
  | nil => intro ind _; rfl
  | cons k v rest ihv ihrest =>
    intro ind ho
    rcases ho with _ | ⟨_, _, _, hk, hv, hrest, hmem⟩
    have hkt := all_safe_tame (safeWord_all hk)
    cases hv with
    | str s hs =>
      have hwt := all_safe_tame (scalarWord_safe (SafeVal.str s hs)
        (fun o h => JVal.noConfusion h)).1
      simp [dumpEntries, List.all_append, pad_tame ind, hkt, hwt,
        ihrest ind hrest, tameChar]
    | num n hn =>
      have hwt := all_safe_tame (scalarWord_safe (SafeVal.num n hn)
        (fun o h => JVal.noConfusion h)).1
      simp [dumpEntries, List.all_append, pad_tame ind, hkt, hwt,
        ihrest ind hrest, tameChar]
    | obj o' ho' =>
      simp [dumpEntries, List.all_append, pad_tame ind, hkt,
        ihv o' rfl (ind + 1) ho', ihrest ind hrest, tameChar]

/-- On the serialized text of a safe nonempty dict whose last entry is
a nested block, `_conf2json` produces exactly the JSON text of the
dict. -/
theorem conf2json_mkconf (o : JObj) (ho : SafeObj o) (hne : o ≠ .nil)
    (hES : endsScalar o = false) :
    _conf2json (mkconf (.obj o)) = .ok ('\x7b' :: ((jsonToks o).flatten ++ ['\x7d'])) := by
  have htext : mkconf (.obj o) = dumpEntries o 0 := rfl
  have hscan : scanConf (dumpEntries o 0) = ⟨[], dumpEntries o 0, false, false, false⟩ :=
    scanConf_tame _ (dumpEntries_tame o 0 ho)
  obtain ⟨c0, X0, hdec, hc0⟩ : ∃ c0 X0, dumpEntries o 0 = c0 :: X0 ∧ safeChar c0 = true := by
    cases o with
    | nil => exact absurd rfl hne
    | cons k2 v2 r2 =>
      rcases ho with _ | ⟨_, _, _, hk2, hv2, hr2, hm2⟩
      obtain ⟨c, w', hkd, hc, hw'⟩ := key_head hk2
      cases hv2 with
      | str s hs =>
        exact ⟨c, _, by
          simp only [dumpEntries, pad, Nat.zero_mul, List.replicate, hkd,
            List.nil_append, List.cons_append]
          rfl, hc⟩
      | num n hn =>
        exact ⟨c, _, by
          simp only [dumpEntries, pad, Nat.zero_mul, List.replicate, hkd,
            List.nil_append, List.cons_append]
          rfl, hc⟩
      | obj o2 ho2 =>
        exact ⟨c, _, by
          simp only [dumpEntries, pad, Nat.zero_mul, List.replicate, hkd,
            List.nil_append, List.cons_append]
          rfl, hc⟩
  have h1 : sub1 (dumpEntries o 0) = e1Entries o 0 := by
    have := sub1_dumpEntries o 0 [] ho (by decide)
    simpa [show sub1 ([] : List Char) = [] from rfl] using this
  have h2 : sub2 (e1Entries o 0) = e2Entries o 0 false := by
    have := (sub2_e1Entries o 0 ho).1 [] (by decide)
    simpa [show sub2 ([] : List Char) = [] from rfl] using this
  have h3 : sub3 (e2Entries o 0 false) = e3Entries o 0 false true := by
    have := (sub3_e2Entries o 0 false [] ho (Or.inl rfl)).1
    simpa [show sub3 ([] : List Char) = [] from rfl] using this
  have h4 : splitWs (sub4 (e3Entries o 0 false true)) [] = tokList o := by
    have := splitWs_e3 o 0 false true [] ho (Or.inl rfl)
    have hextra : tokExtra o false = [] := by
      rw [tokExtra, if_neg (by decide), if_neg (by rw [hES]; exact Bool.false_ne_true)]
    rw [hextra] at this
    simpa [show splitWs ([] : List Char) [] = [] from rfl] using this
  have hbuf : bufTokens (dumpEntries o 0) = .ok (jsonToks o) := by
    rw [hdec, bufTokens]
    have hcq : c0 ≠ '"' := by
      simp only [safeChar, Bool.and_eq_true, decide_eq_true_eq] at hc0
      exact hc0.2.2.2.2.2.2.2.1
    rw [if_neg hcq, ← hdec, h1, h2, h3, h4, map_mapTok o ho]
  have hgrp : groupQuoted ([['\x7b']] ++ [jsonToks o].flatten ++ [['\x7d']]) =
      [['\x7b']] ++ [jsonToks o].flatten ++ [['\x7d']] := by
    apply groupQuoted_id
    · intro w hw hwq
      simp only [List.flatten, List.append_nil, List.mem_append, List.mem_singleton] at hw
      rcases hw with (rfl | hw) | rfl
      · exact absurd hwq (by simp)
      · exact jsonToks_qform o ho w (by simpa using hw) hwq
      · exact absurd hwq (by simp)
    · show noQQafter false (['\x7b'] :: ([jsonToks o].flatten ++ [['\x7d']])) = true
      simp only [noQQafter, Bool.and_eq_true]
      refine ⟨by simp [isQ], ?_⟩
      rw [show isQ ['\x7b'] = false from rfl]
      have := noQQ_walk o [['\x7d']] ho (by decide)
      simpa using this
  rw [htext, _conf2json, hscan]
  simp only [show (ScanState.mk [] (dumpEntries o 0) false false false).inQuote = false
    from rfl, if_neg (Bool.false_ne_true), scanBufs]
  rw [show ([] ++ [(ScanState.mk [] (dumpEntries o 0) false false false).cur]) =
    [dumpEntries o 0] from rfl]
  have hmapm : ([dumpEntries o 0].mapM bufTokens :
      Except ConfErr (List (List (List Char)))) = .ok [jsonToks o] := by
    rw [show ([dumpEntries o 0].mapM bufTokens : Except ConfErr _) =
      (bufTokens (dumpEntries o 0) >>= fun b =>
        List.mapM.loop bufTokens [] [b]) from rfl, hbuf]
    rfl
  rw [hmapm]
  show Except.ok (groupQuoted ([['\x7b']] ++ [jsonToks o].flatten ++ [['\x7d']])).flatten =
    Except.ok ('\x7b' :: ((jsonToks o).flatten ++ ['\x7d']))
  rw [hgrp]
  congr 1
  simp

/-- `json.loads` accepts the generated JSON text and rebuilds the
dict. -/
theorem json_loads_json (o : JObj) (ho : SafeObj o) (hne : o ≠ .nil) :
    json_loads ('\x7b' :: ((jsonToks o).flatten ++ ['\x7d'])) = some (.obj o) := by
  cases o with
  | nil => exact absurd rfl hne
  | cons k2 v2 r2 =>
    rw [json_loads]
    rw [show skipWs ('\x7b' :: ((jsonToks (.cons k2 v2 r2)).flatten ++ ['\x7d'])) =
      '\x7b' :: ((jsonToks (.cons k2 v2 r2)).flatten ++ ['\x7d']) from
      skipWs_cons _ (by decide)]
    rw [show (('\x7b' :: ((jsonToks (.cons k2 v2 r2)).flatten ++ ['\x7d'])).length + 1) =
      (('\x7b' :: ((jsonToks (.cons k2 v2 r2)).flatten ++ ['\x7d'])).length) + 1 from rfl,
      pVal_obj_cons _ k2 v2 r2 [],
      pMembers_spec (.cons k2 v2 r2) _ .nil [] ho (by simp)
        (by intro x hx; simp [okeys])
        (by simp only [List.length_append, List.length_cons]; omega),
      jappend_nil _ ho]
    rfl

/-! #### The raw config text is not itself valid JSON -/

theorem skipWs_ne_nil_of_mem {a : Char} {l : List Char} (ha : a ∈ l)
    (hanw : ¬(a = ' ' ∨ a = '\t' ∨ a = '\n' ∨ a = '\x0d')) : skipWs l ≠ [] := by
  intro hh
  have := List.dropWhile_eq_nil_iff.mp hh a ha
  exact hanw (by simpa using this)

theorem mem_dropWhile_of_mem {p : Char → Bool} {a : Char} : ∀ {l : List Char},
    a ∈ l → p a = false → a ∈ l.dropWhile p := by
  intro l
  induction l with
  | nil => intro ha _; exact absurd ha (by simp)
  | cons c t ih =>
    intro ha hpa
    rw [List.mem_cons] at ha
    rw [List.dropWhile_cons]
    by_cases hpc : p c = true
    · rw [if_pos hpc]
      rcases ha with rfl | ha
      · rw [hpa] at hpc
        exact absurd hpc (by simp)
      · exact ih ha hpa
    · rw [if_neg hpc]
      rw [List.mem_cons]
      exact ha

theorem mem_after_lits (lits : List Char) : ∀ (w' M r : List Char) (h : Char),
    (∀ x ∈ lits, x ≠ ' ') → w' ++ ' ' :: h :: M = lits ++ r → h ∈ r := by
  induction lits with
  | nil =>
    intro w' M r h _ heq
    rw [List.nil_append] at heq
    rw [← heq]
    simp
  | cons x lits' ih =>
    intro w' M r h hl heq
    cases w' with
    | nil =>
      rw [List.nil_append, List.cons_append] at heq
      injection heq with e1 _
      exact absurd e1.symm (hl x (by simp))
    | cons a w'' =>
      rw [List.cons_append, List.cons_append] at heq
      injection heq with e1 e2
      exact ih w'' M r h (fun y hy => hl y (by simp [hy])) e2

theorem pNum_none_or_mem (l : List Char) (a : Char) (ha : a ∈ l)
    (had : a.isDigit = false) (ham : a ≠ '-') (ha0 : a ≠ '0') :
    pNum l = none ∨ ∃ v rem, pNum l = some (v, rem) ∧ a ∈ rem := by
  have hdig : ∀ {c : Char}, '1' ≤ c ∧ c ≤ '9' → a ≠ c := by
    intro c h19 hh
    subst hh
    rw [show a.isDigit = true from by
      simp only [Char.isDigit, Bool.and_eq_true, decide_eq_true_eq]
      exact ⟨le_trans (show ('0' : Char) ≤ '1' by decide) h19.1,
        le_trans h19.2 (show ('9' : Char) ≤ '9' by decide)⟩] at had
    exact absurd had (by simp)
  rw [pNum.eq_def]
  split
  · rename_i r
    have har : a ∈ r := by
      rw [List.mem_cons] at ha
      rcases ha with rfl | ha
      · exact absurd rfl ham
      · exact ha
    dsimp only
    split
    · exact Or.inl rfl
    · rw [List.mem_cons] at har
      rcases har with rfl | harest
      · exact absurd rfl ha0
      · split
        · exact Or.inl rfl
        · exact Or.inr ⟨_, _, rfl, harest⟩
    · split
      · rename_i h19
        rw [List.mem_cons] at har
        rcases har with rfl | harest
        · exact absurd rfl (hdig h19)
        · split
          · exact Or.inl rfl
          · exact Or.inr ⟨_, _, rfl, mem_dropWhile_of_mem harest had⟩
      · exact Or.inl rfl
  · dsimp only
    split
    · exact Or.inl rfl
    · rw [List.mem_cons] at ha
      rcases ha with rfl | harest
      · exact absurd rfl ha0
      · split
        · exact Or.inl rfl
        · exact Or.inr ⟨_, _, rfl, harest⟩
    · split
      · rename_i h19
        rw [List.mem_cons] at ha
        rcases ha with rfl | harest
        · exact absurd rfl (hdig h19)
        · split
          · exact Or.inl rfl
          · exact Or.inr ⟨_, _, rfl, mem_dropWhile_of_mem harest had⟩
      · exact Or.inl rfl

/-- The serialized form of a safe nonempty dict starts with its first
key followed by a space and then either `=` (scalar entry) or `{`
(block entry). -/
theorem dumpEntries_shape (k : String) (v : JVal) (rest : JObj) (hv : SafeVal v) :
    ∃ h M, dumpEntries (.cons k v rest) 0 = k.data ++ ' ' :: h :: M ∧
      (h = '=' ∨ h = '\x7b') := by
  cases hv with
  | str s hs =>
    exact ⟨'=', ' ' :: (dumpScalar (.str s) ++ ';' :: '\n' :: dumpEntries rest 0),
      by simp [dumpEntries, pad], Or.inl rfl⟩
  | num n hn =>
    exact ⟨'=', ' ' :: (dumpScalar (.num n) ++ ';' :: '\n' :: dumpEntries rest 0),
      by simp [dumpEntries, pad], Or.inl rfl⟩
  | obj o2 ho2 =>
    exact ⟨'\x7b', '\n' :: (dumpEntries o2 1 ++ '\x7d' :: '\n' :: dumpEntries rest 0),
      by simp [dumpEntries, pad], Or.inr rfl⟩

/-- On an input that starts with a safe character and contains a space
followed by `=` or `{` later on, the JSON value scanner either fails or
leaves that later character in the remainder. -/
theorem pVal_confline (fuel : Nat) (c : Char) (t M : List Char) (h : Char)
    (hcs : safeChar c = true) (hh : h = '=' ∨ h = '\x7b') :
    pVal (fuel + 1) (c :: (t ++ ' ' :: h :: M)) = none ∨
    ∃ v rem, pVal (fuel + 1) (c :: (t ++ ' ' :: h :: M)) = some (v, rem) ∧ h ∈ rem := by
  have hC := hcs
  simp only [safeChar, Bool.and_eq_true, decide_eq_true_eq] at hC
  simp only [pVal]
  rw [if_neg hC.2.2.2.2.1, if_neg hC.2.2.2.2.2.2.2.2.2, if_neg hC.2.2.2.2.2.2.2.1]
  by_cases hct : c = 't'
  · rw [if_pos hct]
    split
    · rename_i r heq
      exact Or.inr ⟨_, _, rfl, mem_after_lits ['r', 'u', 'e'] t M r h (by decide) heq⟩
    · exact Or.inl rfl
  · rw [if_neg hct]
    by_cases hcf : c = 'f'
    · rw [if_pos hcf]
      split
      · rename_i r heq
        exact Or.inr ⟨_, _, rfl, mem_after_lits ['a', 'l', 's', 'e'] t M r h (by decide) heq⟩
      · exact Or.inl rfl
    · rw [if_neg hcf]
      by_cases hcn : c = 'n'
      · rw [if_pos hcn]
        split
        · rename_i r heq
          exact Or.inr ⟨_, _, rfl, mem_after_lits ['u', 'l', 'l'] t M r h (by decide) heq⟩
        · exact Or.inl rfl
      · rw [if_neg hcn]
        by_cases hcd : c = '-' ∨ c.isDigit
        · rw [if_pos hcd]
          exact pNum_none_or_mem (c :: (t ++ ' ' :: h :: M)) h (by simp)
            (by rcases hh with rfl | rfl <;> decide)
            (by rcases hh with rfl | rfl <;> decide)
            (by rcases hh with rfl | rfl <;> decide)
        · rw [if_neg hcd]
          exact Or.inl rfl

/-- `json.loads` rejects any text of the form `KEY  = ...` or
`KEY {...` where `KEY` is a bare safe word. -/
theorem json_loads_confline (kd : List Char) (hne : kd ≠ []) (hsafe : kd.all safeChar = true)
    (h : Char) (hh : h = '=' ∨ h = '\x7b') (M : List Char) :
    json_loads (kd ++ ' ' :: h :: M) = none := by
  cases kd with
  | nil => exact absurd rfl hne
  | cons c t =>
    have hcs : safeChar c = true := by
      rw [List.all_cons, Bool.and_eq_true] at hsafe
      exact hsafe.1
    have hC := hcs
    simp only [safeChar, Bool.and_eq_true, decide_eq_true_eq] at hC
    have hcws : ¬(c = ' ' ∨ c = '\t' ∨ c = '\n' ∨ c = '\x0d') := by
      rintro (rfl | rfl | rfl | rfl) <;> exact absurd hC.1 (by decide)
    rw [json_loads, List.cons_append, skipWs_cons _ hcws]
    rw [show ((c :: (t ++ ' ' :: h :: M) : List Char).length + 1) =
      (((t ++ ' ' :: h :: M : List Char).length + 1) + 1) from rfl]
    rcases pVal_confline ((t ++ ' ' :: h :: M).length + 1) c t M h hcs hh with
      hnone | ⟨v, rem, hsome, hmem⟩
    · rw [hnone]
    · rw [hsome]
      have hrem : skipWs rem ≠ [] :=
        skipWs_ne_nil_of_mem hmem (by rcases hh with rfl | rfl <;> decide)
      show (if skipWs rem = [] then some v else none) = none
      exact if_neg hrem

/-- The raw serialized text of a safe nonempty dict is not itself valid
JSON, so `parseconf` takes the `_conf2json` conversion path. -/
theorem json_loads_mkconf_none (o : JObj) (ho : SafeObj o) (hne : o ≠ JObj.nil) :
    json_loads (mkconf (.obj o)) = none := by
  cases o with
  | nil => exact absurd rfl hne
  | cons k v rest =>
    rcases ho with _ | ⟨_, _, _, hk, hv, hrest, hmem⟩
    obtain ⟨h, M, hEq, hh⟩ := dumpEntries_shape k v rest hv
    rw [show mkconf (.obj (.cons k v rest)) = dumpEntries (.cons k v rest) 0 from rfl, hEq]
    exact json_loads_confline k.data (safeWord_ne hk) (safeWord_all hk) h hh M

/-- A dict whose last entry is a nested block does not end with a
scalar entry. -/
theorem lastIsObj_endsScalar : ∀ o : JObj, lastIsObj o = true → endsScalar o = false := by
  intro o
  induction o using jobjInd with
  | nil => intro hh; exact absurd hh (by simp [lastIsObj])
  | cons k v rest ih =>
    intro hL
    cases rest with
    | nil =>
      cases v with
      | obj o2 => rfl
      | str s => exact absurd hL (by simp [lastIsObj])
      | num n => exact absurd hL (by simp [lastIsObj])
      | bool b => exact absurd hL (by simp [lastIsObj])
      | null => exact absurd hL (by simp [lastIsObj])
      | arr a => exact absurd hL (by simp [lastIsObj])
    | cons k2 v2 r2 =>
      have h2 : endsScalar (.cons k v (.cons k2 v2 r2)) = endsScalar (.cons k2 v2 r2) := rfl
      rw [h2]
      exact ih (by rw [show lastIsObj (.cons k v (.cons k2 v2 r2)) =
        lastIsObj (.cons k2 v2 r2) from rfl] at hL; exact hL)

/-- Claim C5 counterexample: the round trip fails on a document built
only from the claimed supported shapes.  A boolean leaf `true` is
serialized as the bare word `true`, which `_conf2json` re-quotes, so
`parseconf (mkconf d)` returns the string `"true"` where `d` held the
boolean `true`. -/
theorem C5_counterexample :
    parseconf (mkconf (.obj (.cons "A" (.obj (.cons "B" (.bool true) .nil)) .nil))) ≠
      .ok (.obj (.cons "A" (.obj (.cons "B" (.bool true) .nil)) .nil)) := by
  intro hcontra
  have hval : parseconf (mkconf (.obj (.cons "A" (.obj (.cons "B" (.bool true) .nil)) .nil))) =
      .ok (.obj (.cons "A" (.obj (.cons "B" (.str "true") .nil)) .nil)) := rfl
  rw [hval] at hcontra
  injection hcontra with hv
  exact absurd hv (by decide)

/-- Claim C5 (amended): for documents whose keys and string leaves are
bare safe words (printable ASCII without config metacharacters or
whitespace, not shaped like a number), whose numeric leaves are nonzero
integers, with unique keys per dict, and whose last top-level entry is
a nested block, `parseconf` inverts `mkconf`: `parseconf (mkconf d) = d`. -/
theorem C5_roundtrip (o : JObj) (ho : SafeObj o) (hne : o ≠ JObj.nil)
    (hL : lastIsObj o = true) :
    parseconf (mkconf (.obj o)) = .ok (.obj o) := by
  have hES : endsScalar o = false := lastIsObj_endsScalar o hL
  simp only [parseconf, json_loads_mkconf_none o ho hne,
    conf2json_mkconf o ho hne hES, json_loads_json o ho hne]

theorem C5_roundtrip_witness :
    parseconf (mkconf (.obj (.cons "A" (.obj (.cons "B" (.str "x") .nil)) .nil))) =
      .ok (.obj (.cons "A" (.obj (.cons "B" (.str "x") .nil)) .nil)) :=
  C5_roundtrip (.cons "A" (.obj (.cons "B" (.str "x") .nil)) .nil)
    (SafeObj.cons _ _ _ (by decide)
      (SafeVal.obj _ (SafeObj.cons _ _ _ (by decide)
        (SafeVal.str "x" (by decide)) SafeObj.nil (by decide)))
      SafeObj.nil (by decide))
    (by decide) (by decide)

end Ganesha
